import Mathlib

/-!
Shallow embedding of the CVP1 canvas codec (src/src/lib.rs) and proofs of the
specification's claims about it.

Modelling conventions:
* Rust machine integers (u8/u16/u32/u64/usize) are embedded as `Nat`; wherever
  the source performs a truncating cast (`as u32`, `as u16`, `as u8`) the
  embedding takes the value modulo the corresponding power of two, and
  wherever overflow is possible inside an arithmetic operation the embedding
  reduces modulo 2^32 (release-mode wrapping semantics).
* `HashMap` is embedded as an association list with one fixed admissible
  iteration order: `alSet` updates an existing key in place and appends a new
  key at the end, `alRemove` deletes a key, `alGet` is lookup.  All iteration
  in the source (`iter()`) becomes iteration over that list.
* Fallible functions (`anyhow::Result`) become `Except Err`, with one `Err`
  constructor per distinct `bail!`/`anyhow!` message of the source.
-/

namespace CVP

/-- Error taxonomy: one constructor per distinct failure message in lib.rs. -/
inductive Err
  | emptyPayload
  | rUnderflowEncode
  | gUnderflowEncode
  | rOverflowDecode
  | gOverflowDecode
  | rawTooSmall
  | badMagic
  | unexpectedEof
  | badDims (w h : Nat)
  | rgLimitMismatch
  | missingPidx
  | missingPage
  | bitAlreadyZero
  | stepCollision (s : Nat)
  | missingStep (s : Nat)
  | aNotEmpty
  | rgNotFull
deriving Repr, DecidableEq

/-- `pub const W: u32 = 512`. -/
def W : Nat := 512

/-- `pub const H: u32 = 512`. -/
def H : Nat := 512

/-- `pub const PIXELS: usize = W * H`. -/
def PIXELS : Nat := W * H

/-- `pub const MAGIC: &[u8; 4] = b"CVP1"` (the four ASCII bytes C, V, P, 1). -/
def MAGIC : List Nat := [67, 86, 80, 49]

/-- `pub const RG_LIMIT: u64 = (1u64 << 63) / 16`. -/
def RG_LIMIT : Nat := (1 <<< 63) / 16

/-- `pub const RG_LIMIT_EXACT: u64 = 1u64 << 59`. -/
def RG_LIMIT_EXACT : Nat := 1 <<< 59

/-- `lane_k`: odd steps go to lane 0 (R) with weight `(step+1) >> 1` (the
`step + 1` is a u32 addition, hence reduced mod 2^32), even steps to lane 1
(G) with weight `step >> 1`. -/
def lane_k (step : Nat) : Nat × Nat :=
  if step &&& 1 = 1 then (0, ((step + 1) % 2 ^ 32) >>> 1)
  else (1, step >>> 1)

/-- `pidx_of(x, y) = (y << 9) + x`. -/
def pidx_of (x y : Nat) : Nat := (y <<< 9) + x

/-- `RGCanvas`: two planes of `PIXELS` u64 counters. -/
structure RGCanvas where
  r : List Nat
  g : List Nat
deriving Repr, DecidableEq

/-- `RGCanvas::new(full)`: both planes filled with `RG_LIMIT_EXACT` if `full`,
else with 0. -/
def RGCanvas.new (full : Bool) : RGCanvas :=
  let init := if full then RG_LIMIT_EXACT else 0
  ⟨List.replicate PIXELS init, List.replicate PIXELS init⟩

/-- Association-list lookup (HashMap `get`): first entry with the given key. -/
def alGet {α : Type} : List (Nat × α) → Nat → Option α
  | [], _ => none
  | (k, v) :: rest, key => if k = key then some v else alGet rest key

/-- Association-list insert (HashMap `insert` / `entry().or_insert` followed by
mutation): update an existing key in place, append a new key at the end. -/
def alSet {α : Type} : List (Nat × α) → Nat → α → List (Nat × α)
  | [], key, v => [(key, v)]
  | (k, w) :: rest, key, v =>
    if k = key then (key, v) :: rest else (k, w) :: alSet rest key v

/-- Association-list removal (HashMap `remove`). -/
def alRemove {α : Type} : List (Nat × α) → Nat → List (Nat × α)
  | [], _ => []
  | (k, w) :: rest, key => if k = key then rest else (k, w) :: alRemove rest key

/-- `ABitset`: sparse marker set, pidx -> (page -> 64-bit mask). -/
structure ABitset where
  db : List (Nat × List (Nat × Nat))
deriving Repr, DecidableEq

/-- `ABitset::new()`. -/
def ABitset.new : ABitset := ⟨[]⟩

/-- All 64 bits set: the u64 complement `!m` of `m` is `u64full ^^^ m`. -/
def u64full : Nat := 2 ^ 64 - 1

/-- `ABitset::set_step`: OR the bit `step & 63` into the mask of page
`step >> 6` of cell `pidx`, creating cell and page entries on demand. -/
def ABitset.set_step (a : ABitset) (pidx step : Nat) : ABitset :=
  let page := step >>> 6
  let bit := step &&& 63
  let m := 1 <<< bit
  let pages := (alGet a.db pidx).getD []
  let entry := (alGet pages page).getD 0
  ⟨alSet a.db pidx (alSet pages page (entry ||| m))⟩

/-- `ABitset::clear_step`: clear the bit for `step` in cell `pidx`, failing if
the cell is absent, the page is absent, or the bit is already 0; remove a page
whose mask becomes 0, and a cell whose last page was removed. -/
def ABitset.clear_step (a : ABitset) (pidx step : Nat) : Except Err ABitset :=
  let page := step >>> 6
  let bit := step &&& 63
  let m := 1 <<< bit
  match alGet a.db pidx with
  | none => .error .missingPidx
  | some pages =>
    match alGet pages page with
    | none => .error .missingPage
    | some word =>
      if (word >>> bit) &&& 1 = 0 then .error .bitAlreadyZero
      else
        let word' := word &&& (u64full ^^^ m)
        if word' = 0 then
          let pages' := alRemove pages page
          if pages' = [] then .ok ⟨alRemove a.db pidx⟩
          else .ok ⟨alSet a.db pidx pages'⟩
        else .ok ⟨alSet a.db pidx (alSet pages page word')⟩

/-- `ABitset::is_empty`. -/
def ABitset.is_empty (a : ABitset) : Bool := a.db.isEmpty

/-- `u64::trailing_zeros` for a nonzero argument: number of trailing zero
bits. -/
def ctz (m : Nat) : Nat :=
  if m = 0 ∨ m % 2 = 1 then 0 else ctz (m / 2) + 1
termination_by m
decreasing_by simp_wf; omega

/-- Inner loop of `build_step_index_from_a`: `while m != 0` extract the lowest
set bit (`m.trailing_zeros()`), record its step if in `[1, n]` (collision if
already seen), then clear it with `m &= m - 1`. -/
def scanMask (n pidx base : Nat) (stp seen : List Nat) (m : Nat) :
    Except Err (List Nat × List Nat) :=
  if m = 0 then .ok (stp, seen)
  else
    let tz := ctz m
    let step := base + tz
    if 1 ≤ step ∧ step ≤ n then
      if seen.getD step 0 ≠ 0 then .error (.stepCollision step)
      else scanMask n pidx base (stp.set step pidx) (seen.set step 1) (m &&& (m - 1))
    else scanMask n pidx base stp seen (m &&& (m - 1))
termination_by m
decreasing_by
  all_goals
    have h1 : m &&& (m - 1) ≤ m - 1 := Nat.and_le_right
    omega

/-- Middle loop of `build_step_index_from_a`: over the pages of one cell, with
`base = page << 6` computed on u32 (the shift wraps mod 2^32 for page keys of
2^26 and above). -/
def scanPages (n pidx : Nat) :
    List (Nat × Nat) → List Nat → List Nat → Except Err (List Nat × List Nat)
  | [], stp, seen => .ok (stp, seen)
  | pm :: rest, stp, seen =>
    match scanMask n pidx ((pm.1 <<< 6) % 2 ^ 32) stp seen pm.2 with
    | .error e => .error e
    | .ok (stp1, seen1) => scanPages n pidx rest stp1 seen1

/-- Outer loop of `build_step_index_from_a`: over the cells of the marker set. -/
def scanDb (n : Nat) :
    List (Nat × List (Nat × Nat)) → List Nat → List Nat →
      Except Err (List Nat × List Nat)
  | [], stp, seen => .ok (stp, seen)
  | e :: rest, stp, seen =>
    match scanPages n e.1 e.2 stp seen with
    | .error er => .error er
    | .ok (stp1, seen1) => scanDb n rest stp1 seen1

/-- Final pass of `build_step_index_from_a`: `for s in 1..=n`, fail on the
first step never seen. -/
def checkSeen (seen : List Nat) : List Nat → Except Err Unit
  | [] => .ok ()
  | s :: rest =>
    if seen.getD s 0 = 0 then .error (.missingStep s) else checkSeen seen rest

/-- `build_step_index_from_a`: scan the marker set once, recording the cell of
every step in `[1, n]`; fail on a collision, then on a missing step. -/
def build_step_index_from_a (a : ABitset) (n : Nat) : Except Err (List Nat) :=
  match scanDb n a.db (List.replicate (n + 1) 0) (List.replicate (n + 1) 0) with
  | .error e => .error e
  | .ok (stp, seen) =>
    match checkSeen seen (List.range' 1 n) with
    | .error e => .error e
    | .ok _ => .ok stp

/-- Little-endian byte serialization of `v` on `w` bytes (`to_le_bytes`,
truncating like the source's `as u16` / value already in range elsewhere). -/
def leBytes : Nat → Nat → List Nat
  | 0, _ => []
  | w + 1, v => v % 256 :: leBytes w (v / 256)

/-- `u16::to_le_bytes`. -/
def le16 (v : Nat) : List Nat := leBytes 2 v

/-- `u32::to_le_bytes`. -/
def le32 (v : Nat) : List Nat := leBytes 4 v

/-- `u64::to_le_bytes`. -/
def le64 (v : Nat) : List Nat := leBytes 8 v

/-- `from_le_bytes`: value of a little-endian byte list. -/
def leVal : List Nat → Nat
  | [] => 0
  | b :: rest => b + 256 * leVal rest

/-- `raw_pack`: header, both planes in full, entry count, then the marker-set
entries in iteration order. -/
def raw_pack (rg : RGCanvas) (a : ABitset) (n : Nat) : List Nat :=
  MAGIC ++ le32 W ++ le32 H ++ le32 n ++ le64 RG_LIMIT_EXACT
    ++ rg.r.flatMap le64 ++ rg.g.flatMap le64
    ++ le32 a.db.length
    ++ a.db.flatMap (fun e =>
        le32 e.1 ++ le16 e.2.length
          ++ e.2.flatMap (fun pm => le32 pm.1 ++ le64 pm.2))

/-- The source's `read_u16` closure: 2 bytes little-endian at `off`, or eof. -/
def read_u16 (buf : List Nat) (off : Nat) : Except Err (Nat × Nat) :=
  if buf.length < off + 2 then .error .unexpectedEof
  else .ok (leVal ((buf.drop off).take 2), off + 2)

/-- The source's `read_u32` closure: 4 bytes little-endian at `off`, or eof. -/
def read_u32 (buf : List Nat) (off : Nat) : Except Err (Nat × Nat) :=
  if buf.length < off + 4 then .error .unexpectedEof
  else .ok (leVal ((buf.drop off).take 4), off + 4)

/-- The source's `read_u64` closure: 8 bytes little-endian at `off`, or eof. -/
def read_u64 (buf : List Nat) (off : Nat) : Except Err (Nat × Nat) :=
  if buf.length < off + 8 then .error .unexpectedEof
  else .ok (leVal ((buf.drop off).take 8), off + 8)

/-- The plane-reading loop of `raw_unpack`: `cnt` consecutive u64 values. -/
def readPlane (buf : List Nat) : Nat → Nat → Except Err (List Nat × Nat)
  | off, 0 => .ok ([], off)
  | off, cnt + 1 =>
    match read_u64 buf off with
    | .error e => .error e
    | .ok (v, off1) =>
      match readPlane buf off1 cnt with
      | .error e => .error e
      | .ok (vs, off2) => .ok (v :: vs, off2)

/-- The page-reading loop of `raw_unpack`: `pcnt` (page, mask) pairs inserted
into a fresh page map. -/
def readPages (buf : List Nat) :
    Nat → List (Nat × Nat) → Nat → Except Err (List (Nat × Nat) × Nat)
  | off, pages, 0 => .ok (pages, off)
  | off, pages, pcnt + 1 =>
    match read_u32 buf off with
    | .error e => .error e
    | .ok (page, off1) =>
      match read_u64 buf off1 with
      | .error e => .error e
      | .ok (mask, off2) => readPages buf off2 (alSet pages page mask) pcnt

/-- The entry-reading loop of `raw_unpack`: `ec` entries, each a pidx, a u16
page count and that many pages, inserted into the marker map. -/
def readEntries (buf : List Nat) :
    Nat → List (Nat × List (Nat × Nat)) → Nat →
      Except Err (List (Nat × List (Nat × Nat)) × Nat)
  | off, db, 0 => .ok (db, off)
  | off, db, ec + 1 =>
    match read_u32 buf off with
    | .error e => .error e
    | .ok (pidx, off1) =>
      match read_u16 buf off1 with
      | .error e => .error e
      | .ok (pcnt, off2) =>
        match readPages buf off2 [] pcnt with
        | .error e => .error e
        | .ok (pages, off3) => readEntries buf off3 (alSet db pidx pages) ec

/-- `raw_unpack`: magic, dimensions, step count and limit checks, then both
planes, then the marker entries.  Trailing bytes are not inspected. -/
def raw_unpack (raw : List Nat) : Except Err (RGCanvas × ABitset × Nat) :=
  if raw.length < 4 then .error .rawTooSmall
  else if raw.take 4 ≠ MAGIC then .error .badMagic
  else
    match read_u32 raw 4 with
    | .error e => .error e
    | .ok (w, off) =>
      match read_u32 raw off with
      | .error e => .error e
      | .ok (h, off) =>
        match read_u32 raw off with
        | .error e => .error e
        | .ok (n, off) =>
          match read_u64 raw off with
          | .error e => .error e
          | .ok (rgl, off) =>
            if w ≠ W ∨ h ≠ H then .error (.badDims w h)
            else if rgl ≠ RG_LIMIT_EXACT then .error .rgLimitMismatch
            else
              match readPlane raw off PIXELS with
              | .error e => .error e
              | .ok (r, off) =>
                match readPlane raw off PIXELS with
                | .error e => .error e
                | .ok (g, off) =>
                  match read_u32 raw off with
                  | .error e => .error e
                  | .ok (ec, off) =>
                    match readEntries raw off [] ec with
                    | .error e => .error e
                    | .ok (db, _) => .ok (⟨r, g⟩, ⟨db⟩, n)

/-- The step loop of `encode_erase`, `for step in (1..=n).rev()`: mark the
step's cell in A first, then subtract the step's weight from its lane,
failing on underflow. -/
def encodeLoop (payload : List Nat) : Nat → RGCanvas → ABitset →
    Except Err (RGCanvas × ABitset)
  | 0, rg, a => .ok (rg, a)
  | s + 1, rg, a =>
    let step := s + 1
    let x := payload.getD (step - 1) 0
    let y := step &&& 511
    let pidx := pidx_of x y
    let a1 := a.set_step pidx step
    let lk := lane_k step
    if lk.1 = 0 then
      let v := rg.r.getD pidx 0
      if v < lk.2 then .error .rUnderflowEncode
      else encodeLoop payload s ⟨rg.r.set pidx (v - lk.2), rg.g⟩ a1
    else
      let v := rg.g.getD pidx 0
      if v < lk.2 then .error .gUnderflowEncode
      else encodeLoop payload s ⟨rg.r, rg.g.set pidx (v - lk.2)⟩ a1

/-- `encode_erase` up to (but not including) `raw_pack`: the in-memory triple
it would serialize.  `n` is `payload.len() as u32`. -/
def encodeState (payload : List Nat) : Except Err (RGCanvas × ABitset × Nat) :=
  let n := payload.length % 2 ^ 32
  if n = 0 then .error .emptyPayload
  else
    match encodeLoop payload n (RGCanvas.new true) ABitset.new with
    | .error e => .error e
    | .ok (rg, a) => .ok (rg, a, n)

/-- `encode_erase`: start FULL, run the step loop from `n` down to 1, pack. -/
def encode_erase (payload : List Nat) : Except Err (List Nat) :=
  match encodeState payload with
  | .error e => .error e
  | .ok (rg, a, n) => .ok (raw_pack rg a n)

/-- The step loop of `decode_fill`, `for step in (1..=n).rev()`: recover the
byte from the cell's low 9 bits (`as u8`), clear the marker bit first, then
add the step's weight back to its lane, failing on overflow. -/
def decodeLoop (stp : List Nat) : Nat → RGCanvas → ABitset → List Nat →
    Except Err (RGCanvas × ABitset × List Nat)
  | 0, rg, a, out => .ok (rg, a, out)
  | s + 1, rg, a, out =>
    let step := s + 1
    let pidx := stp.getD step 0
    let x := (pidx &&& 511) % 2 ^ 8
    let out1 := out.set (step - 1) x
    match a.clear_step pidx step with
    | .error e => .error e
    | .ok a1 =>
      let lk := lane_k step
      if lk.1 = 0 then
        let v := rg.r.getD pidx 0 + lk.2
        if RG_LIMIT_EXACT < v then .error .rOverflowDecode
        else decodeLoop stp s ⟨rg.r.set pidx v, rg.g⟩ a1 out1
      else
        let v := rg.g.getD pidx 0 + lk.2
        if RG_LIMIT_EXACT < v then .error .gOverflowDecode
        else decodeLoop stp s ⟨rg.r, rg.g.set pidx v⟩ a1 out1

/-- `decode_fill`: unpack, build the step index, run the fill loop, then check
that A is empty and both planes are FULL again. -/
def decode_fill (raw : List Nat) : Except Err (List Nat) :=
  match raw_unpack raw with
  | .error e => .error e
  | .ok (rg, a, n) =>
    match build_step_index_from_a a n with
    | .error e => .error e
    | .ok stp =>
      match decodeLoop stp n rg a (List.replicate n 0) with
      | .error e => .error e
      | .ok (rg, a, out) =>
        if !a.is_empty then .error .aNotEmpty
        else if rg.r.any (fun v => v != RG_LIMIT_EXACT)
            || rg.g.any (fun v => v != RG_LIMIT_EXACT) then .error .rgNotFull
        else .ok out


/-! ### Arithmetic bridges between the source's bit operations and `/`, `%` -/

theorem shiftRight_six (s : Nat) : s >>> 6 = s / 64 := by
  rw [Nat.shiftRight_eq_div_pow]

theorem and_63 (s : Nat) : s &&& 63 = s % 64 := by
  have h : (63 : Nat) = 2 ^ 6 - 1 := rfl
  rw [h, Nat.and_pow_two_sub_one_eq_mod]

theorem and_511 (s : Nat) : s &&& 511 = s % 512 := by
  have h : (511 : Nat) = 2 ^ 9 - 1 := rfl
  rw [h, Nat.and_pow_two_sub_one_eq_mod]

theorem and_1 (s : Nat) : s &&& 1 = s % 2 := by
  have h : (1 : Nat) = 2 ^ 1 - 1 := rfl
  conv_lhs => rw [h]
  rw [Nat.and_pow_two_sub_one_eq_mod]

theorem page_bit_recomb (s : Nat) : 64 * (s >>> 6) + (s &&& 63) = s := by
  rw [shiftRight_six, and_63]
  omega

theorem step_eq_of_page_bit {s t : Nat} (h6 : s >>> 6 = t >>> 6)
    (h63 : s &&& 63 = t &&& 63) : s = t := by
  have hs := page_bit_recomb s
  have ht := page_bit_recomb t
  omega

theorem and_63_lt (s : Nat) : s &&& 63 < 64 := by
  rw [and_63]; omega

/-! ### Association lists: lookup / insert / remove -/

/-- The keys of an association list. -/
def alKeys {α : Type} (l : List (Nat × α)) : List Nat := l.map Prod.fst

/-- A HashMap state never has a repeated key. -/
def NodupKeys {α : Type} (l : List (Nat × α)) : Prop := (alKeys l).Nodup

instance {α : Type} [DecidableEq α] (l : List (Nat × α)) :
    Decidable (NodupKeys l) := by
  unfold NodupKeys
  infer_instance

theorem alKeys_cons {α : Type} (e : Nat × α) (l : List (Nat × α)) :
    alKeys (e :: l) = e.1 :: alKeys l := rfl

theorem alGet_alSet_self {α : Type} (l : List (Nat × α)) (k : Nat) (v : α) :
    alGet (alSet l k v) k = some v := by
  induction l with
  | nil => simp [alSet, alGet]
  | cons e rest ih =>
    obtain ⟨ek, ev⟩ := e
    by_cases h : ek = k
    · simp [alSet, alGet, h]
    · simp [alSet, alGet, h, ih]

theorem alGet_alSet_ne {α : Type} (l : List (Nat × α)) (k k' : Nat) (v : α)
    (h : k' ≠ k) : alGet (alSet l k v) k' = alGet l k' := by
  induction l with
  | nil => simp [alSet, alGet, Ne.symm h]
  | cons e rest ih =>
    obtain ⟨ek, ev⟩ := e
    by_cases he : ek = k
    · subst he
      simp [alSet, alGet, Ne.symm h, fun hh : ek = k' => h hh.symm]
    · simp only [alSet, if_neg he]
      by_cases he' : ek = k'
      · simp [alGet, he']
      · simp [alGet, he', ih]

theorem alGet_alRemove_ne {α : Type} (l : List (Nat × α)) (k k' : Nat)
    (h : k' ≠ k) : alGet (alRemove l k) k' = alGet l k' := by
  induction l with
  | nil => simp [alRemove]
  | cons e rest ih =>
    obtain ⟨ek, ev⟩ := e
    by_cases he : ek = k
    · subst he
      have hne : ek ≠ k' := fun hh => h hh.symm
      simp [alRemove, alGet, hne]
    · simp only [alRemove, if_neg he]
      by_cases he' : ek = k'
      · simp [alGet, he']
      · simp [alGet, he', ih]

theorem alRemove_sublist {α : Type} (l : List (Nat × α)) (k : Nat) :
    (alRemove l k).Sublist l := by
  induction l with
  | nil => simp [alRemove]
  | cons e rest ih =>
    by_cases he : e.1 = k
    · simp only [alRemove, if_pos he]
      exact List.sublist_cons_self e rest
    · simp only [alRemove, if_neg he]
      exact ih.cons₂ e

theorem alGet_eq_none {α : Type} {l : List (Nat × α)} {k : Nat}
    (h : k ∉ alKeys l) : alGet l k = none := by
  induction l with
  | nil => simp [alGet]
  | cons e rest ih =>
    obtain ⟨ek, ev⟩ := e
    rw [alKeys_cons, List.mem_cons] at h
    push_neg at h
    have hne : ek ≠ k := fun hh => h.1 hh.symm
    simp [alGet, hne]
    exact ih h.2

theorem alGet_isSome_of_mem_alKeys {α : Type} {l : List (Nat × α)} {k : Nat}
    (h : k ∈ alKeys l) : ∃ v, alGet l k = some v := by
  cases hg : alGet l k with
  | some v => exact ⟨v, rfl⟩
  | none =>
    by_cases hk : k ∈ alKeys l
    · exfalso
      induction l with
      | nil => simp [alKeys] at hk
      | cons e rest ih =>
        obtain ⟨ek, ev⟩ := e
        by_cases he : ek = k
        · simp [alGet, he] at hg
        · rw [alKeys_cons, List.mem_cons] at hk
          rcases hk with hk | hk
          · exact he hk.symm
          · simp [alGet, he] at hg
            exact ih hk hg hk
    · exact absurd h hk

theorem alGet_mem {α : Type} {l : List (Nat × α)} {k : Nat} {v : α}
    (h : alGet l k = some v) : (k, v) ∈ l := by
  induction l with
  | nil => simp [alGet] at h
  | cons e rest ih =>
    obtain ⟨ek, ev⟩ := e
    by_cases he : ek = k
    · subst he
      simp [alGet] at h
      subst h
      exact List.mem_cons_self _ _
    · simp [alGet, he] at h
      exact List.mem_cons_of_mem _ (ih h)

theorem alGet_of_mem {α : Type} {l : List (Nat × α)} {k : Nat} {v : α}
    (hnd : NodupKeys l) (h : (k, v) ∈ l) : alGet l k = some v := by
  induction l with
  | nil => simp at h
  | cons e rest ih =>
    obtain ⟨ek, ev⟩ := e
    rw [NodupKeys, alKeys_cons, List.nodup_cons] at hnd
    rcases List.mem_cons.1 h with h | h
    · injection h with h1 h2
      simp [alGet, h1.symm, h2.symm]
    · have hk : k ∈ alKeys rest := by
        simp only [alKeys, List.mem_map]
        exact ⟨(k, v), h, rfl⟩
      have he : ek ≠ k := fun hh => hnd.1 (hh ▸ hk)
      simp [alGet, he]
      exact ih hnd.2 h

theorem mem_alKeys_alSet {α : Type} (l : List (Nat × α)) (k j : Nat) (v : α) :
    j ∈ alKeys (alSet l k v) ↔ j ∈ alKeys l ∨ j = k := by
  induction l with
  | nil => simp [alSet, alKeys]
  | cons e rest ih =>
    obtain ⟨ek, ev⟩ := e
    by_cases he : ek = k
    · subst he
      simp [alSet, alKeys_cons]
      tauto
    · simp only [alSet, if_neg he, alKeys_cons, List.mem_cons]
      rw [ih]
      tauto

theorem nodupKeys_alSet {α : Type} (l : List (Nat × α)) (k : Nat) (v : α)
    (h : NodupKeys l) : NodupKeys (alSet l k v) := by
  induction l with
  | nil => simp [alSet, NodupKeys, alKeys]
  | cons e rest ih =>
    obtain ⟨ek, ev⟩ := e
    rw [NodupKeys, alKeys_cons, List.nodup_cons] at h
    by_cases he : ek = k
    · subst he
      rw [NodupKeys]
      have hset : alSet ((ek, ev) :: rest) ek v = (ek, v) :: rest := by
        simp [alSet]
      rw [hset, alKeys_cons, List.nodup_cons]
      exact ⟨h.1, h.2⟩
    · rw [NodupKeys]
      simp only [alSet, if_neg he, alKeys_cons, List.nodup_cons]
      constructor
      · intro hx
        rcases (mem_alKeys_alSet rest k ek v).1 hx with hm | hm
        · exact h.1 hm
        · exact he hm
      · exact ih h.2

theorem nodupKeys_alRemove {α : Type} (l : List (Nat × α)) (k : Nat)
    (h : NodupKeys l) : NodupKeys (alRemove l k) :=
  List.Nodup.sublist ((alRemove_sublist l k).map Prod.fst) h

theorem mem_alSet {α : Type} {l : List (Nat × α)} {k : Nat} {v : α} {e : Nat × α}
    (h : e ∈ alSet l k v) : e = (k, v) ∨ e ∈ l := by
  induction l with
  | nil => simp [alSet] at h; simp [h]
  | cons f rest ih =>
    obtain ⟨fk, fv⟩ := f
    by_cases hf : fk = k
    · simp only [alSet, if_pos hf, List.mem_cons] at h
      rcases h with h | h
      · left; exact h
      · right; exact List.mem_cons_of_mem _ h
    · simp only [alSet, if_neg hf, List.mem_cons] at h
      rcases h with h | h
      · right; exact h ▸ List.mem_cons_self _ _
      · rcases ih h with h1 | h1
        · left; exact h1
        · right; exact List.mem_cons_of_mem _ h1

theorem mem_alRemove {α : Type} {l : List (Nat × α)} {k : Nat} {e : Nat × α}
    (h : e ∈ alRemove l k) : e ∈ l :=
  (alRemove_sublist l k).mem h

/-! ### Bit-level facts: `testBit`, `ctz`, clearing the lowest set bit -/

theorem ctz_of_odd {m : Nat} (h : m % 2 = 1) : ctz m = 0 := by
  rw [ctz]
  simp [h]

theorem ctz_of_even {m : Nat} (h0 : m ≠ 0) (h : m % 2 = 0) :
    ctz m = ctz (m / 2) + 1 := by
  rw [ctz]
  simp [h0, h]

theorem ctz_testBit_self {m : Nat} (h0 : m ≠ 0) : m.testBit (ctz m) = true := by
  induction m using Nat.strong_induction_on with
  | _ m ih =>
    rcases Nat.mod_two_eq_zero_or_one m with he | ho
    · have h2 : m / 2 ≠ 0 := by omega
      rw [ctz_of_even h0 he, Nat.testBit_succ]
      exact ih (m / 2) (by omega) h2
    · rw [ctz_of_odd ho, Nat.testBit_zero]
      simp [ho]

theorem ctz_testBit_lt {m i : Nat} (h : i < ctz m) : m.testBit i = false := by
  induction m using Nat.strong_induction_on generalizing i with
  | _ m ih =>
    by_cases h0 : m = 0
    · subst h0
      exact Nat.zero_testBit i
    · rcases Nat.mod_two_eq_zero_or_one m with he | ho
      · rw [ctz_of_even h0 he] at h
        match i with
        | 0 => rw [Nat.testBit_zero]; simp [he]
        | j + 1 =>
          rw [Nat.testBit_succ]
          exact ih (m / 2) (by omega) (by omega)
      · rw [ctz_of_odd ho] at h
        omega

theorem pred_testBit {m : Nat} (h0 : m ≠ 0) (i : Nat) :
    (m - 1).testBit i =
      if i < ctz m then true else if i = ctz m then false else m.testBit i := by
  induction m using Nat.strong_induction_on generalizing i with
  | _ m ih =>
    rcases Nat.mod_two_eq_zero_or_one m with he | ho
    · have h2 : m / 2 ≠ 0 := by omega
      rw [ctz_of_even h0 he]
      match i with
      | 0 =>
        simp only [Nat.testBit_zero]
        have : (m - 1) % 2 = 1 := by omega
        simp [this]
      | j + 1 =>
        have hd : (m - 1) / 2 = m / 2 - 1 := by omega
        rw [Nat.testBit_succ, hd, ih (m / 2) (by omega) h2 j, Nat.testBit_succ]
        have hiff1 : j < ctz (m / 2) ↔ j + 1 < ctz (m / 2) + 1 := by omega
        have hiff2 : j = ctz (m / 2) ↔ j + 1 = ctz (m / 2) + 1 := by omega
        by_cases hc1 : j < ctz (m / 2)
        · simp [hc1, hiff1.1 hc1]
        · by_cases hc2 : j = ctz (m / 2)
          · simp [hc1, hc2]
          · have hn1 : ¬(j + 1 < ctz (m / 2) + 1) := by omega
            have hn2 : ¬(j + 1 = ctz (m / 2) + 1) := by omega
            simp [hc1, hc2, hn1, hn2]
    · rw [ctz_of_odd ho]
      match i with
      | 0 =>
        simp only [Nat.testBit_zero]
        have : (m - 1) % 2 = 0 := by omega
        simp [this]
      | j + 1 =>
        have hd : (m - 1) / 2 = m / 2 := by omega
        rw [Nat.testBit_succ, hd, ← Nat.testBit_succ]
        simp

theorem and_pred_testBit {m : Nat} (h0 : m ≠ 0) (i : Nat) :
    (m &&& (m - 1)).testBit i = (m.testBit i && decide (i ≠ ctz m)) := by
  rw [Nat.testBit_and, pred_testBit h0 i]
  by_cases hc1 : i < ctz m
  · simp [ctz_testBit_lt hc1, hc1]
  · by_cases hc2 : i = ctz m
    · simp [hc1, hc2]
    · simp [hc1, hc2]

theorem testBit_ge_64 {m i : Nat} (hm : m < 2 ^ 64) (hi : 64 ≤ i) :
    m.testBit i = false :=
  Nat.testBit_eq_false_of_lt (lt_of_lt_of_le hm (Nat.pow_le_pow_right (by omega) hi))

/-! ### The extensional view of an `ABitset` -/

/-- The page map of cell `c` (empty if the cell is absent). -/
def getPages (a : ABitset) (c : Nat) : List (Nat × Nat) := (alGet a.db c).getD []

/-- The mask of page `pg` of cell `c` (0 if absent). -/
def getMask (a : ABitset) (c pg : Nat) : Nat := (alGet (getPages a c) pg).getD 0

/-- Whether the bit recording `s` is set at cell `c`. -/
def getBit (a : ABitset) (c s : Nat) : Bool :=
  (getMask a c (s >>> 6)).testBit (s &&& 63)

theorem alSet_ne_nil {α : Type} (l : List (Nat × α)) (k : Nat) (v : α) :
    alSet l k v ≠ [] := by
  cases l with
  | nil => simp [alSet]
  | cons e rest =>
    by_cases he : e.1 = k
    · simp [alSet, he]
    · simp [alSet, he]

theorem alGet_alRemove_self {α : Type} {l : List (Nat × α)} {k : Nat}
    (hnd : NodupKeys l) : alGet (alRemove l k) k = none := by
  induction l with
  | nil => simp [alRemove, alGet]
  | cons e rest ih =>
    obtain ⟨ek, ev⟩ := e
    rw [NodupKeys, alKeys_cons, List.nodup_cons] at hnd
    by_cases he : ek = k
    · subst he
      simp only [alRemove, if_pos rfl]
      exact alGet_eq_none hnd.1
    · simp only [alRemove, if_neg he]
      simp [alGet, he]
      exact ih hnd.2

theorem alGet_of_alRemove_nil {α : Type} {l : List (Nat × α)} {k k' : Nat}
    (h : alRemove l k = []) (hne : k' ≠ k) : alGet l k' = none := by
  cases l with
  | nil => simp [alGet]
  | cons e rest =>
    obtain ⟨ek, ev⟩ := e
    by_cases he : ek = k
    · simp only [alRemove, if_pos he] at h
      subst h
      subst he
      have hne2 : ek ≠ k' := fun hh => hne hh.symm
      simp [alGet, hne2]
    · simp [alRemove, he] at h

/-- The source's zero test `(word >>> bit) &&& 1 = 0` is `testBit = false`. -/
theorem shift_and_one_eq_zero_iff (w b : Nat) :
    ((w >>> b) &&& 1 = 0) ↔ w.testBit b = false := by
  rw [and_1, Nat.shiftRight_eq_div_pow, Nat.testBit_to_div_mod]
  simp


/-- Well-formedness of a marker set: no duplicate keys at either level, no
zero mask is stored, no cell with an empty page map is stored. -/
def WF (a : ABitset) : Prop :=
  NodupKeys a.db ∧ (∀ e ∈ a.db, NodupKeys e.2) ∧
    (∀ e ∈ a.db, ∀ pm ∈ e.2, pm.2 ≠ 0) ∧ (∀ e ∈ a.db, e.2 ≠ [])

/-- Every stored mask is a u64 value. -/
def MaskBounded (a : ABitset) : Prop := ∀ e ∈ a.db, ∀ pm ∈ e.2, pm.2 < 2 ^ 64

instance (a : ABitset) : Decidable (WF a) := by
  unfold WF NodupKeys
  infer_instance

instance (a : ABitset) : Decidable (MaskBounded a) := by
  unfold MaskBounded
  infer_instance

/-! ### `set_step`: extensional effect and invariant preservation -/

theorem getMask_set_step (a : ABitset) (c s c' pg : Nat) :
    getMask (a.set_step c s) c' pg =
      if c' = c ∧ pg = s >>> 6 then getMask a c (s >>> 6) ||| 1 <<< (s &&& 63)
      else getMask a c' pg := by
  unfold ABitset.set_step getMask getPages
  by_cases hc : c' = c
  · subst hc
    rw [alGet_alSet_self]
    by_cases hp : pg = s >>> 6
    · subst hp
      simp [alGet_alSet_self]
    · simp [alGet_alSet_ne _ _ _ _ hp, hp]
  · rw [alGet_alSet_ne _ _ _ _ hc]
    simp [hc]

theorem getBit_set_step (a : ABitset) (c s c' s' : Nat) :
    getBit (a.set_step c s) c' s' =
      (getBit a c' s' || (decide (c' = c) && decide (s' = s))) := by
  unfold getBit
  rw [getMask_set_step]
  by_cases hc : c' = c
  · subst hc
    by_cases hp : s' >>> 6 = s >>> 6
    · rw [if_pos ⟨rfl, hp⟩, hp]
      rw [Nat.testBit_or, Nat.one_shiftLeft, Nat.testBit_two_pow]
      have heq : (decide (s &&& 63 = s' &&& 63)) = decide (s' = s) := by
        by_cases hb : s' &&& 63 = s &&& 63
        · simp [hb, step_eq_of_page_bit hp hb]
        · have hne : s' ≠ s := fun h => hb (h ▸ rfl)
          have hb2 : ¬(s &&& 63 = s' &&& 63) := fun h => hb h.symm
          simp [hb2, hne]
      rw [heq]
      simp
    · rw [if_neg (fun h : c' = c' ∧ s' >>> 6 = s >>> 6 => hp h.2)]
      have hne : s' ≠ s := fun h => hp (h ▸ rfl)
      simp [hne]
  · rw [if_neg (fun h => hc h.1)]
    simp [hc]

theorem wf_set_step {a : ABitset} (hwf : WF a) (c s : Nat) :
    WF (a.set_step c s) := by
  obtain ⟨hnd, hpnd, hnz, hne⟩ := hwf
  refine ⟨nodupKeys_alSet _ _ _ hnd, ?_, ?_, ?_⟩
  · intro e he
    rcases mem_alSet he with h | h
    · subst h
      apply nodupKeys_alSet
      cases hg : alGet a.db c with
      | none => simp [hg, NodupKeys, alKeys]
      | some pages => simpa [hg] using hpnd _ (alGet_mem hg)
    · exact hpnd _ h
  · intro e he pm hpm
    rcases mem_alSet he with h | h
    · subst h
      rcases mem_alSet hpm with h1 | h1
      · subst h1
        intro hzero
        have : (0 : Nat).testBit (s &&& 63) = true := by
          rw [← hzero, Nat.testBit_or, Nat.one_shiftLeft, Nat.testBit_two_pow]
          simp
        rw [Nat.zero_testBit] at this
        exact Bool.false_ne_true this
      · cases hg : alGet a.db c with
        | none => simp [hg] at h1
        | some pages =>
          rw [hg] at h1
          exact hnz _ (alGet_mem hg) _ (by simpa using h1)
    · exact hnz _ h _ hpm
  · intro e he
    rcases mem_alSet he with h | h
    · subst h
      exact alSet_ne_nil _ _ _
    · exact hne _ h

theorem maskBounded_set_step {a : ABitset} (hb : MaskBounded a) (c s : Nat) :
    MaskBounded (a.set_step c s) := by
  intro e he pm hpm
  rcases mem_alSet he with h | h
  · subst h
    rcases mem_alSet hpm with h1 | h1
    · subst h1
      apply Nat.or_lt_two_pow
      · cases hg : alGet a.db c with
        | none => simp [hg, alGet]
        | some pages =>
          cases hg2 : alGet pages (s >>> 6) with
          | none => simp [hg, hg2]
          | some w =>
            simp only [hg, hg2, Option.getD_some]
            exact hb _ (alGet_mem hg) _ (alGet_mem hg2)
      · rw [Nat.one_shiftLeft]
        exact Nat.pow_lt_pow_right (by omega) (and_63_lt s)
    · cases hg : alGet a.db c with
      | none => simp [hg] at h1
      | some pages =>
        rw [hg] at h1
        exact hb _ (alGet_mem hg) _ (by simpa using h1)
  · exact hb _ h _ hpm

/-! ### `clear_step`: failure conditions, extensional effect, invariants -/

theorem clear_step_missingPidx_iff (a : ABitset) (c s : Nat) :
    a.clear_step c s = .error Err.missingPidx ↔ alGet a.db c = none := by
  unfold ABitset.clear_step
  cases hg : alGet a.db c with
  | none => simp
  | some pages =>
    simp only
    cases hg2 : alGet pages (s >>> 6) with
    | none => simp
    | some word =>
      simp only
      by_cases hbit : (word >>> (s &&& 63)) &&& 1 = 0
      · simp [hbit]
      · simp only [if_neg hbit]
        by_cases hw : word &&& (u64full ^^^ 1 <<< (s &&& 63)) = 0
        · simp only [if_pos hw]
          by_cases hnil : alRemove pages (s >>> 6) = []
          · simp [hnil]
          · simp [hnil]
        · simp [hw]

theorem clear_step_missingPage_iff (a : ABitset) (c s : Nat) :
    a.clear_step c s = .error Err.missingPage ↔
      ∃ pages, alGet a.db c = some pages ∧ alGet pages (s >>> 6) = none := by
  unfold ABitset.clear_step
  cases hg : alGet a.db c with
  | none => simp
  | some pages =>
    simp only
    cases hg2 : alGet pages (s >>> 6) with
    | none => simp [hg2]
    | some word =>
      simp only
      by_cases hbit : (word >>> (s &&& 63)) &&& 1 = 0
      · simp [hbit, hg2]
      · simp only [if_neg hbit]
        by_cases hw : word &&& (u64full ^^^ 1 <<< (s &&& 63)) = 0
        · simp only [if_pos hw]
          by_cases hnil : alRemove pages (s >>> 6) = []
          · simp [hnil, hg2]
          · simp [hnil, hg2]
        · simp [hw, hg2]

theorem clear_step_bitZero_iff (a : ABitset) (c s : Nat) :
    a.clear_step c s = .error Err.bitAlreadyZero ↔
      ∃ pages word, alGet a.db c = some pages ∧
        alGet pages (s >>> 6) = some word ∧
        word.testBit (s &&& 63) = false := by
  unfold ABitset.clear_step
  cases hg : alGet a.db c with
  | none => simp
  | some pages =>
    simp only
    cases hg2 : alGet pages (s >>> 6) with
    | none => simp [hg2]
    | some word =>
      simp only
      by_cases hbit : (word >>> (s &&& 63)) &&& 1 = 0
      · simp only [if_pos hbit]
        simp [hg2, (shift_and_one_eq_zero_iff word (s &&& 63)).1 hbit]
      · simp only [if_neg hbit]
        have hb : word.testBit (s &&& 63) = true := by
          rcases Bool.eq_false_or_eq_true (word.testBit (s &&& 63)) with h | h
          · exact h
          · exact absurd ((shift_and_one_eq_zero_iff word (s &&& 63)).2 h) hbit
        by_cases hw : word &&& (u64full ^^^ 1 <<< (s &&& 63)) = 0
        · simp only [if_pos hw]
          by_cases hnil : alRemove pages (s >>> 6) = []
          · simp [hnil, hg2, hb]
          · simp [hnil, hg2, hb]
        · simp [hw, hg2, hb]

theorem clear_step_ok_iff (a : ABitset) (c s : Nat) :
    (∃ a', a.clear_step c s = .ok a') ↔ getBit a c s = true := by
  unfold ABitset.clear_step getBit getMask getPages
  cases hg : alGet a.db c with
  | none => simp [alGet]
  | some pages =>
    simp only [Option.getD_some]
    cases hg2 : alGet pages (s >>> 6) with
    | none => simp
    | some word =>
      simp only [Option.getD_some]
      by_cases hbit : (word >>> (s &&& 63)) &&& 1 = 0
      · simp [hbit, (shift_and_one_eq_zero_iff word (s &&& 63)).1 hbit]
      · have hb : word.testBit (s &&& 63) = true := by
          rcases Bool.eq_false_or_eq_true (word.testBit (s &&& 63)) with h | h
          · exact h
          · exact absurd ((shift_and_one_eq_zero_iff word (s &&& 63)).2 h) hbit
        simp only [if_neg hbit, hb]
        by_cases hw : word &&& (u64full ^^^ 1 <<< (s &&& 63)) = 0
        · simp only [if_pos hw]
          by_cases hnil : alRemove pages (s >>> 6) = []
          · simp [hnil]
          · simp [hnil]
        · simp [hw]

theorem clear_step_cases {a a' : ABitset} {c s : Nat}
    (h : a.clear_step c s = .ok a') :
    ∃ pages word, alGet a.db c = some pages ∧
      alGet pages (s >>> 6) = some word ∧ word.testBit (s &&& 63) = true ∧
      ((word &&& (u64full ^^^ 1 <<< (s &&& 63)) = 0 ∧
          alRemove pages (s >>> 6) = [] ∧ a' = ⟨alRemove a.db c⟩) ∨
        (word &&& (u64full ^^^ 1 <<< (s &&& 63)) = 0 ∧
          alRemove pages (s >>> 6) ≠ [] ∧
          a' = ⟨alSet a.db c (alRemove pages (s >>> 6))⟩) ∨
        (word &&& (u64full ^^^ 1 <<< (s &&& 63)) ≠ 0 ∧
          a' = ⟨alSet a.db c
            (alSet pages (s >>> 6) (word &&& (u64full ^^^ 1 <<< (s &&& 63))))⟩)) := by
  unfold ABitset.clear_step at h
  cases hg : alGet a.db c with
  | none => rw [hg] at h; simp at h
  | some pages =>
    rw [hg] at h
    simp only at h
    cases hg2 : alGet pages (s >>> 6) with
    | none => rw [hg2] at h; simp at h
    | some word =>
      rw [hg2] at h
      simp only at h
      by_cases hbit : (word >>> (s &&& 63)) &&& 1 = 0
      · rw [if_pos hbit] at h; simp at h
      · rw [if_neg hbit] at h
        have hb : word.testBit (s &&& 63) = true := by
          rcases Bool.eq_false_or_eq_true (word.testBit (s &&& 63)) with hx | hx
          · exact hx
          · exact absurd ((shift_and_one_eq_zero_iff word (s &&& 63)).2 hx) hbit
        refine ⟨pages, word, rfl, hg2, hb, ?_⟩
        by_cases hw : word &&& (u64full ^^^ 1 <<< (s &&& 63)) = 0
        · rw [if_pos hw] at h
          by_cases hnil : alRemove pages (s >>> 6) = []
          · rw [if_pos hnil] at h
            simp at h
            exact Or.inl ⟨hw, hnil, h.symm⟩
          · rw [if_neg hnil] at h
            simp at h
            exact Or.inr (Or.inl ⟨hw, hnil, h.symm⟩)
        · rw [if_neg hw] at h
          simp at h
          exact Or.inr (Or.inr ⟨hw, h.symm⟩)

theorem getMask_clear_step {a a' : ABitset} {c s : Nat}
    (hnd : NodupKeys a.db) (hpnd : ∀ e ∈ a.db, NodupKeys e.2)
    (h : a.clear_step c s = .ok a') (c' pg : Nat) :
    getMask a' c' pg =
      if c' = c ∧ pg = s >>> 6
      then getMask a c (s >>> 6) &&& (u64full ^^^ 1 <<< (s &&& 63))
      else getMask a c' pg := by
  obtain ⟨pages, word, hg, hg2, hb, hcase⟩ := clear_step_cases h
  have hmask : getMask a c (s >>> 6) = word := by
    simp [getMask, getPages, hg, hg2]
  have hpnodup : NodupKeys pages := hpnd _ (alGet_mem hg)
  rcases hcase with ⟨hw, hnil, ha'⟩ | ⟨hw, hnil, ha'⟩ | ⟨hw, ha'⟩
  · subst ha'
    by_cases hc : c' = c
    · subst hc
      have hgone : alGet (alRemove a.db c') c' = none := alGet_alRemove_self hnd
      by_cases hp : pg = s >>> 6
      · subst hp
        simp [getMask, getPages, hgone, alGet, hg, hg2, hw]
      · have hrest : alGet pages pg = none := alGet_of_alRemove_nil hnil hp
        simp [getMask, getPages, hgone, alGet, hg, hrest, hp]
    · simp [getMask, getPages, alGet_alRemove_ne _ _ _ hc, hc]
  · subst ha'
    by_cases hc : c' = c
    · subst hc
      rw [getMask, getPages, alGet_alSet_self]
      by_cases hp : pg = s >>> 6
      · subst hp
        simp [alGet_alRemove_self hpnodup, hmask, hw]
      · simp [alGet_alRemove_ne _ _ _ hp, hp, getMask, getPages, hg]
    · simp [getMask, getPages, alGet_alSet_ne _ _ _ _ hc, hc]
  · subst ha'
    by_cases hc : c' = c
    · subst hc
      rw [getMask, getPages, alGet_alSet_self]
      by_cases hp : pg = s >>> 6
      · subst hp
        simp [alGet_alSet_self, hmask]
      · simp [alGet_alSet_ne _ _ _ _ hp, hp, getMask, getPages, hg]
    · simp [getMask, getPages, alGet_alSet_ne _ _ _ _ hc, hc]

theorem getBit_clear_step {a a' : ABitset} {c s : Nat}
    (hnd : NodupKeys a.db) (hpnd : ∀ e ∈ a.db, NodupKeys e.2)
    (h : a.clear_step c s = .ok a') (c' s' : Nat) :
    getBit a' c' s' =
      (getBit a c' s' && !(decide (c' = c) && decide (s' = s))) := by
  unfold getBit
  rw [getMask_clear_step hnd hpnd h]
  by_cases hc : c' = c
  · subst hc
    by_cases hp : s' >>> 6 = s >>> 6
    · rw [if_pos ⟨rfl, hp⟩, hp]
      rw [Nat.testBit_and, Nat.testBit_xor, Nat.one_shiftLeft,
        Nat.testBit_two_pow, show u64full = 2 ^ 64 - 1 from rfl,
        Nat.testBit_two_pow_sub_one]
      have h64 : s' &&& 63 < 64 := and_63_lt s'
      have heq : (decide (s &&& 63 = s' &&& 63)) = decide (s' = s) := by
        by_cases hb : s' &&& 63 = s &&& 63
        · simp [hb, step_eq_of_page_bit hp hb]
        · have hne : s' ≠ s := fun hx => hb (hx ▸ rfl)
          have hb2 : ¬(s &&& 63 = s' &&& 63) := fun hx => hb hx.symm
          simp [hb2, hne]
      rw [heq]
      simp [h64, Bool.xor_comm]
    · rw [if_neg (fun hx : c' = c' ∧ s' >>> 6 = s >>> 6 => hp hx.2)]
      have hne : s' ≠ s := fun hx => hp (hx ▸ rfl)
      simp [hne]
  · rw [if_neg (fun hx => hc hx.1)]
    simp [hc]

theorem wf_clear_step {a a' : ABitset} {c s : Nat} (hwf : WF a)
    (h : a.clear_step c s = .ok a') : WF a' := by
  obtain ⟨hnd, hpnd, hnz, hne⟩ := hwf
  obtain ⟨pages, word, hg, hg2, hb, hcase⟩ := clear_step_cases h
  have hpmem : (c, pages) ∈ a.db := alGet_mem hg
  rcases hcase with ⟨hw, hnil, ha'⟩ | ⟨hw, hnil, ha'⟩ | ⟨hw, ha'⟩
  · subst ha'
    exact ⟨nodupKeys_alRemove _ _ hnd, fun e he => hpnd _ (mem_alRemove he),
      fun e he => hnz _ (mem_alRemove he), fun e he => hne _ (mem_alRemove he)⟩
  · subst ha'
    refine ⟨nodupKeys_alSet _ _ _ hnd, ?_, ?_, ?_⟩
    · intro e he
      rcases mem_alSet he with hx | hx
      · subst hx
        exact nodupKeys_alRemove _ _ (hpnd _ hpmem)
      · exact hpnd _ hx
    · intro e he pm hpm
      rcases mem_alSet he with hx | hx
      · subst hx
        exact hnz _ hpmem _ (mem_alRemove hpm)
      · exact hnz _ hx _ hpm
    · intro e he
      rcases mem_alSet he with hx | hx
      · subst hx
        exact hnil
      · exact hne _ hx
  · subst ha'
    refine ⟨nodupKeys_alSet _ _ _ hnd, ?_, ?_, ?_⟩
    · intro e he
      rcases mem_alSet he with hx | hx
      · subst hx
        exact nodupKeys_alSet _ _ _ (hpnd _ hpmem)
      · exact hpnd _ hx
    · intro e he pm hpm
      rcases mem_alSet he with hx | hx
      · subst hx
        rcases mem_alSet hpm with hy | hy
        · subst hy
          exact hw
        · exact hnz _ hpmem _ hy
      · exact hnz _ hx _ hpm
    · intro e he
      rcases mem_alSet he with hx | hx
      · subst hx
        exact alSet_ne_nil _ _ _
      · exact hne _ hx

theorem maskBounded_clear_step {a a' : ABitset} {c s : Nat} (hb : MaskBounded a)
    (h : a.clear_step c s = .ok a') : MaskBounded a' := by
  obtain ⟨pages, word, hg, hg2, _, hcase⟩ := clear_step_cases h
  have hpmem : (c, pages) ∈ a.db := alGet_mem hg
  have hwb : word < 2 ^ 64 := hb _ hpmem _ (alGet_mem hg2)
  rcases hcase with ⟨hw, hnil, ha'⟩ | ⟨hw, hnil, ha'⟩ | ⟨hw, ha'⟩
  · subst ha'
    exact fun e he pm hpm => hb _ (mem_alRemove he) _ hpm
  · subst ha'
    intro e he pm hpm
    rcases mem_alSet he with hx | hx
    · subst hx
      exact hb _ hpmem _ (mem_alRemove hpm)
    · exact hb _ hx _ hpm
  · subst ha'
    intro e he pm hpm
    rcases mem_alSet he with hx | hx
    · subst hx
      rcases mem_alSet hpm with hy | hy
      · subst hy
        exact lt_of_le_of_lt Nat.and_le_left hwb
      · exact hb _ hpmem _ hy
    · exact hb _ hx _ hpm

/-! ### Emptiness -/

theorem getBit_new (c s : Nat) : getBit ABitset.new c s = false := by
  simp [getBit, getMask, getPages, ABitset.new, alGet, Nat.zero_testBit]

theorem db_eq_nil_of_no_bits {a : ABitset} (hwf : WF a) (hb : MaskBounded a)
    (h : ∀ c s, getBit a c s = false) : a.db = [] := by
  obtain ⟨hnd, hpnd, hnz, hne⟩ := hwf
  cases hdb : a.db with
  | nil => rfl
  | cons e rest =>
    exfalso
    obtain ⟨ec, pages⟩ := e
    have hemem : (ec, pages) ∈ a.db := by rw [hdb]; exact List.mem_cons_self _ _
    have hpne : pages ≠ [] := hne _ hemem
    cases hpg : pages with
    | nil => exact hpne hpg
    | cons pm prest =>
      obtain ⟨pg, m⟩ := pm
      have hpmmem : (pg, m) ∈ pages := by rw [hpg]; exact List.mem_cons_self _ _
      have hm0 : m ≠ 0 := hnz _ hemem _ hpmmem
      have hmb : m < 2 ^ 64 := hb _ hemem _ hpmmem
      have hbit : m.testBit (ctz m) = true := ctz_testBit_self hm0
      have hctz : ctz m < 64 := by
        by_contra hge
        push_neg at hge
        rw [testBit_ge_64 hmb hge] at hbit
        exact Bool.false_ne_true hbit
      have hgm : getMask a ec pg = m := by
        have h1 : alGet a.db ec = some pages := by
          rw [hdb]
          simp [alGet]
        have h2 : alGet pages pg = some m := by
          rw [hpg]
          simp [alGet]
        simp [getMask, getPages, h1, h2]
      have hs6 : (64 * pg + ctz m) >>> 6 = pg := by
        rw [shiftRight_six]
        omega
      have hs63 : (64 * pg + ctz m) &&& 63 = ctz m := by
        rw [and_63]
        omega
      have := h ec (64 * pg + ctz m)
      rw [getBit, hs6, hs63, hgm, hbit] at this
      exact Bool.noConfusion this

theorem is_empty_iff (a : ABitset) : a.is_empty = true ↔ a.db = [] := by
  simp [ABitset.is_empty, List.isEmpty_iff]

theorem getBit_false_iff (a : ABitset) (c s : Nat) :
    getBit a c s = false ↔
      (alGet a.db c = none ∨
        (∃ pages, alGet a.db c = some pages ∧ alGet pages (s >>> 6) = none) ∨
        (∃ pages w, alGet a.db c = some pages ∧
          alGet pages (s >>> 6) = some w ∧ w.testBit (s &&& 63) = false)) := by
  unfold getBit getMask getPages
  cases hg : alGet a.db c with
  | none => simp [alGet, Nat.zero_testBit]
  | some pages =>
    cases hg2 : alGet pages (s >>> 6) with
    | none => simp [hg2, Nat.zero_testBit]
    | some w => simp [hg2]

theorem except_error_iff_not_ok {α β : Type} (r : Except α β) :
    (∃ e, r = .error e) ↔ ¬∃ b, r = .ok b := by
  cases r with
  | error e => simp
  | ok b => simp

/-- Claim C6: `clear_step` fails with a consistency error exactly when the
cell entry is absent, the cell's page for the step is absent, or the step's
bit in that page's mask is already 0 (in the pure embedding a failing call
returns no new state, so the marker set is unchanged on failure); on success
the step's bit is cleared and nothing else changes, a page whose mask becomes
0 is removed, and a cell whose last page is removed is itself removed. -/
theorem claim_C6 (a : ABitset) (c s : Nat)
    (hnd : NodupKeys a.db) (hpnd : ∀ e ∈ a.db, NodupKeys e.2) :
    ((∃ e, a.clear_step c s = .error e) ↔
      (alGet a.db c = none ∨
        (∃ pages, alGet a.db c = some pages ∧ alGet pages (s >>> 6) = none) ∨
        (∃ pages w, alGet a.db c = some pages ∧
          alGet pages (s >>> 6) = some w ∧ w.testBit (s &&& 63) = false))) ∧
    (∀ a', a.clear_step c s = .ok a' →
      (∀ c' s', getBit a' c' s' =
        (getBit a c' s' && !(decide (c' = c) && decide (s' = s)))) ∧
      (getMask a c (s >>> 6) &&& (u64full ^^^ 1 <<< (s &&& 63)) = 0 →
        alGet (getPages a' c) (s >>> 6) = none) ∧
      (getMask a c (s >>> 6) &&& (u64full ^^^ 1 <<< (s &&& 63)) = 0 →
        alRemove (getPages a c) (s >>> 6) = [] → alGet a'.db c = none)) := by
  constructor
  · rw [except_error_iff_not_ok, clear_step_ok_iff, ← getBit_false_iff]
    simp
  · intro a' h
    obtain ⟨pages, word, hg, hg2, hbit, hcase⟩ := clear_step_cases h
    have hmask : getMask a c (s >>> 6) = word := by
      simp [getMask, getPages, hg, hg2]
    have hpnodup : NodupKeys pages := hpnd _ (alGet_mem hg)
    have hgp : getPages a c = pages := by simp [getPages, hg]
    refine ⟨getBit_clear_step hnd hpnd h, ?_, ?_⟩
    · intro hw
      rw [hmask] at hw
      rcases hcase with ⟨_, hnil, ha'⟩ | ⟨_, hnil, ha'⟩ | ⟨hw', _⟩
      · subst ha'
        simp [getPages, alGet_alRemove_self hnd, alGet]
      · subst ha'
        simp [getPages, alGet_alSet_self, alGet_alRemove_self hpnodup]
      · exact absurd hw hw'
    · intro hw hnil
      rw [hmask] at hw
      rw [hgp] at hnil
      rcases hcase with ⟨_, _, ha'⟩ | ⟨_, hnil', _⟩ | ⟨hw', _⟩
      · subst ha'
        exact alGet_alRemove_self hnd
      · exact absurd hnil hnil'
      · exact absurd hw hw'

theorem claim_C6_witness :
    ((∃ e, ABitset.clear_step ⟨[(3, [(0, 2)])]⟩ 3 1 = .error e) ↔
      (alGet (ABitset.db ⟨[(3, [(0, 2)])]⟩) 3 = none ∨
        (∃ pages, alGet (ABitset.db ⟨[(3, [(0, 2)])]⟩) 3 = some pages ∧
          alGet pages (1 >>> 6) = none) ∨
        (∃ pages w, alGet (ABitset.db ⟨[(3, [(0, 2)])]⟩) 3 = some pages ∧
          alGet pages (1 >>> 6) = some w ∧ w.testBit (1 &&& 63) = false))) ∧
    (∀ a', ABitset.clear_step ⟨[(3, [(0, 2)])]⟩ 3 1 = .ok a' →
      (∀ c' s', getBit a' c' s' =
        (getBit ⟨[(3, [(0, 2)])]⟩ c' s' &&
          !(decide (c' = 3) && decide (s' = 1)))) ∧
      (getMask ⟨[(3, [(0, 2)])]⟩ 3 (1 >>> 6) &&&
          (u64full ^^^ 1 <<< (1 &&& 63)) = 0 →
        alGet (getPages a' 3) (1 >>> 6) = none) ∧
      (getMask ⟨[(3, [(0, 2)])]⟩ 3 (1 >>> 6) &&&
          (u64full ^^^ 1 <<< (1 &&& 63)) = 0 →
        alRemove (getPages ⟨[(3, [(0, 2)])]⟩ 3) (1 >>> 6) = [] →
        alGet (ABitset.db a') 3 = none)) :=
  claim_C6 ⟨[(3, [(0, 2)])]⟩ 3 1 (by decide) (by decide)

/-- Claim C10: `set_step` preserves, and successful `clear_step` preserves,
the structural invariant that every stored page mask is nonzero and every
stored cell has at least one page (together with key uniqueness, `WF`); under
that invariant `is_empty` is true exactly when no step bit is set anywhere. -/
theorem claim_C10 (a : ABitset) (hwf : WF a) (hb : MaskBounded a) :
    (∀ c s, WF (a.set_step c s)) ∧
    (∀ c s a', a.clear_step c s = .ok a' → WF a') ∧
    (a.is_empty = true ↔ ∀ c s, getBit a c s = false) := by
  refine ⟨fun c s => wf_set_step hwf c s, fun c s a' h => wf_clear_step hwf h, ?_⟩
  rw [is_empty_iff]
  constructor
  · intro hnil c s
    unfold getBit getMask getPages
    rw [hnil]
    simp [alGet, Nat.zero_testBit]
  · intro h
    exact db_eq_nil_of_no_bits hwf hb h

theorem claim_C10_witness :
    (∀ c s, WF (ABitset.set_step ⟨[(5, [(0, 2)])]⟩ c s)) ∧
    (∀ c s a', ABitset.clear_step ⟨[(5, [(0, 2)])]⟩ c s = .ok a' → WF a') ∧
    (ABitset.is_empty ⟨[(5, [(0, 2)])]⟩ = true ↔
      ∀ c s, getBit ⟨[(5, [(0, 2)])]⟩ c s = false) :=
  claim_C10 ⟨[(5, [(0, 2)])]⟩ (by decide) (by decide)

/-! ### Little-endian serialization round-trips -/

theorem leBytes_length (w v : Nat) : (leBytes w v).length = w := by
  induction w generalizing v with
  | zero => simp [leBytes]
  | succ w ih => simp [leBytes, ih]

theorem leBytes_lt (w v : Nat) : ∀ b ∈ leBytes w v, b < 256 := by
  induction w generalizing v with
  | zero => simp [leBytes]
  | succ w ih =>
    intro b hb
    simp only [leBytes, List.mem_cons] at hb
    rcases hb with hb | hb
    · omega
    · exact ih _ _ hb

theorem leVal_leBytes (w v : Nat) : leVal (leBytes w v) = v % 256 ^ w := by
  induction w generalizing v with
  | zero => simp [leBytes, leVal, Nat.mod_one]
  | succ w ih =>
    rw [leBytes, leVal, ih, pow_succ', Nat.mod_mul]

theorem read_u16_at (pre suf : List Nat) (v : Nat) :
    read_u16 (pre ++ le16 v ++ suf) pre.length = .ok (v % 2 ^ 16, pre.length + 2) := by
  unfold read_u16
  have hlen : (pre ++ le16 v ++ suf).length = pre.length + 2 + suf.length := by
    simp [le16, leBytes_length]
    omega
  rw [if_neg (by omega)]
  rw [List.append_assoc, List.drop_left' rfl,
    List.take_left' (by simp [le16, leBytes_length])]
  rw [le16, leVal_leBytes]
  norm_num

theorem read_u32_at (pre suf : List Nat) (v : Nat) :
    read_u32 (pre ++ le32 v ++ suf) pre.length = .ok (v % 2 ^ 32, pre.length + 4) := by
  unfold read_u32
  have hlen : (pre ++ le32 v ++ suf).length = pre.length + 4 + suf.length := by
    simp [le32, leBytes_length]
    omega
  rw [if_neg (by omega)]
  rw [List.append_assoc, List.drop_left' rfl,
    List.take_left' (by simp [le32, leBytes_length])]
  rw [le32, leVal_leBytes]
  norm_num

theorem read_u64_at (pre suf : List Nat) (v : Nat) :
    read_u64 (pre ++ le64 v ++ suf) pre.length = .ok (v % 2 ^ 64, pre.length + 8) := by
  unfold read_u64
  have hlen : (pre ++ le64 v ++ suf).length = pre.length + 8 + suf.length := by
    simp [le64, leBytes_length]
    omega
  rw [if_neg (by omega)]
  rw [List.append_assoc, List.drop_left' rfl,
    List.take_left' (by simp [le64, leBytes_length])]
  rw [le64, leVal_leBytes]
  norm_num

theorem readPlane_at (pre suf vs : List Nat) (hv : ∀ v ∈ vs, v < 2 ^ 64) :
    readPlane (pre ++ vs.flatMap le64 ++ suf) pre.length vs.length =
      .ok (vs, pre.length + 8 * vs.length) := by
  induction vs generalizing pre with
  | nil => simp [readPlane]
  | cons v rest ih =>
    have hv64 : v < 2 ^ 64 := hv v (List.mem_cons_self _ _)
    have hrearr : pre ++ (v :: rest).flatMap le64 ++ suf =
        pre ++ le64 v ++ (rest.flatMap le64 ++ suf) := by
      simp [List.flatMap_cons]
    have hr64 := read_u64_at pre (rest.flatMap le64 ++ suf) v
    rw [Nat.mod_eq_of_lt hv64] at hr64
    have hrearr2 : pre ++ le64 v ++ (rest.flatMap le64 ++ suf) =
        (pre ++ le64 v) ++ rest.flatMap le64 ++ suf := by
      simp
    have hlen2 : (pre ++ le64 v).length = pre.length + 8 := by
      simp [le64, leBytes_length]
    have hrec := ih (pre ++ le64 v) (fun w hw => hv w (List.mem_cons_of_mem _ hw))
    rw [hlen2] at hrec
    rw [show (v :: rest).length = rest.length + 1 from rfl]
    rw [readPlane, hrearr, hr64]
    simp only
    rw [hrearr2, hrec]
    have harith : pre.length + 8 + 8 * rest.length = pre.length + 8 * (rest.length + 1) := by
      omega
    rw [harith]

theorem alSet_append_of_not_mem {α : Type} {l : List (Nat × α)} {k : Nat}
    (v : α) (h : k ∉ alKeys l) : alSet l k v = l ++ [(k, v)] := by
  induction l with
  | nil => simp [alSet]
  | cons e rest ih =>
    rw [alKeys_cons, List.mem_cons] at h
    push_neg at h
    have hne : e.1 ≠ k := fun hh => h.1 hh.symm
    obtain ⟨ek, ev⟩ := e
    simp only [alSet, if_neg hne]
    simp [ih h.2]

theorem foldl_alSet_of_nodup {α : Type} (ps acc : List (Nat × α))
    (hnd : (alKeys acc ++ alKeys ps).Nodup) :
    List.foldl (fun l pm => alSet l pm.1 pm.2) acc ps = acc ++ ps := by
  induction ps generalizing acc with
  | nil => simp
  | cons pm rest ih =>
    have hmem : pm.1 ∉ alKeys acc := by
      intro hx
      rcases List.Nodup.of_append_left hnd |>.sublist (List.Sublist.refl _) with _
      have := (List.disjoint_of_nodup_append hnd) hx
      simp [alKeys_cons] at this
    rw [List.foldl_cons]
    rw [show alSet acc pm.1 pm.2 = acc ++ [pm] by
      rw [alSet_append_of_not_mem _ hmem]]
    rw [ih (acc ++ [pm]) ?hnd2]
    · simp
    case hnd2 =>
      have hkeys : alKeys (acc ++ [pm]) ++ alKeys rest =
          alKeys acc ++ alKeys (pm :: rest) := by
        simp [alKeys]
      rw [hkeys]
      exact hnd

/-- The bytes of one page entry in the container. -/
def pageBytes (pm : Nat × Nat) : List Nat := le32 pm.1 ++ le64 pm.2

/-- The bytes of one marker-set entry in the container. -/
def entryBytes (e : Nat × List (Nat × Nat)) : List Nat :=
  le32 e.1 ++ le16 e.2.length ++ e.2.flatMap pageBytes

theorem raw_pack_eq (rg : RGCanvas) (a : ABitset) (n : Nat) :
    raw_pack rg a n =
      MAGIC ++ le32 W ++ le32 H ++ le32 n ++ le64 RG_LIMIT_EXACT
        ++ rg.r.flatMap le64 ++ rg.g.flatMap le64
        ++ le32 a.db.length ++ a.db.flatMap entryBytes := rfl

theorem readPages_at (pre suf : List Nat) (ps acc : List (Nat × Nat))
    (hk : ∀ pm ∈ ps, pm.1 < 2 ^ 32) (hm : ∀ pm ∈ ps, pm.2 < 2 ^ 64) :
    readPages (pre ++ ps.flatMap pageBytes ++ suf) pre.length acc ps.length =
      .ok (List.foldl (fun l pm => alSet l pm.1 pm.2) acc ps,
        pre.length + 12 * ps.length) := by
  induction ps generalizing pre acc with
  | nil => simp [readPages]
  | cons pm rest ih =>
    have hk1 : pm.1 < 2 ^ 32 := hk pm (List.mem_cons_self _ _)
    have hm1 : pm.2 < 2 ^ 64 := hm pm (List.mem_cons_self _ _)
    have hr32 := read_u32_at pre (le64 pm.2 ++ (rest.flatMap pageBytes ++ suf)) pm.1
    rw [Nat.mod_eq_of_lt hk1] at hr32
    have hr64 := read_u64_at (pre ++ le32 pm.1) (rest.flatMap pageBytes ++ suf) pm.2
    rw [Nat.mod_eq_of_lt hm1] at hr64
    have hlen32 : (pre ++ le32 pm.1).length = pre.length + 4 := by
      simp [le32, leBytes_length]
    rw [hlen32] at hr64
    have hrec := ih ((pre ++ le32 pm.1) ++ le64 pm.2) (alSet acc pm.1 pm.2)
      (fun q hq => hk q (List.mem_cons_of_mem _ hq))
      (fun q hq => hm q (List.mem_cons_of_mem _ hq))
    have hlen64 : ((pre ++ le32 pm.1) ++ le64 pm.2).length = pre.length + 12 := by
      simp [le32, le64, leBytes_length]
    rw [hlen64] at hrec
    have e1 : pre ++ (pm :: rest).flatMap pageBytes ++ suf =
        pre ++ (le32 pm.1 ++ (le64 pm.2 ++ (rest.flatMap pageBytes ++ suf))) := by
      simp [pageBytes]
    rw [show (pm :: rest).length = rest.length + 1 from rfl, readPages, e1]
    simp only [List.append_assoc] at hr32 hr64 hrec
    rw [hr32]
    simp only
    rw [hr64]
    simp only
    have harith : pre.length + 4 + 8 = pre.length + 12 := by omega
    rw [harith, hrec]
    simp only [List.foldl_cons, Except.ok.injEq, Prod.mk.injEq]
    exact ⟨trivial, by omega⟩

theorem length_flatMap_pageBytes (ps : List (Nat × Nat)) :
    (ps.flatMap pageBytes).length = 12 * ps.length := by
  induction ps with
  | nil => simp
  | cons pm rest ih =>
    rw [List.flatMap_cons, List.length_append, ih]
    simp [pageBytes, le32, le64, leBytes_length]
    omega

theorem length_entryBytes (e : Nat × List (Nat × Nat)) :
    (entryBytes e).length = 6 + 12 * e.2.length := by
  rw [entryBytes, List.length_append, List.length_append, length_flatMap_pageBytes]
  simp [le32, le16, leBytes_length]

theorem readEntries_at (pre suf : List Nat)
    (db acc : List (Nat × List (Nat × Nat)))
    (hwfe : ∀ e ∈ db, e.1 < 2 ^ 32 ∧ NodupKeys e.2 ∧ e.2.length < 2 ^ 16 ∧
      ∀ pm ∈ e.2, pm.1 < 2 ^ 32 ∧ pm.2 < 2 ^ 64) :
    readEntries (pre ++ db.flatMap entryBytes ++ suf) pre.length acc db.length =
      .ok (List.foldl (fun l e => alSet l e.1 e.2) acc db,
        pre.length + (db.flatMap entryBytes).length) := by
  induction db generalizing pre acc with
  | nil => simp [readEntries]
  | cons e rest ih =>
    obtain ⟨he1, hend, helen, hepm⟩ := hwfe e (List.mem_cons_self _ _)
    have hr32 := read_u32_at pre
      (le16 e.2.length ++ (e.2.flatMap pageBytes ++ (rest.flatMap entryBytes ++ suf))) e.1
    rw [Nat.mod_eq_of_lt he1] at hr32
    have hr16 := read_u16_at (pre ++ le32 e.1)
      (e.2.flatMap pageBytes ++ (rest.flatMap entryBytes ++ suf)) e.2.length
    rw [Nat.mod_eq_of_lt helen] at hr16
    have hlen32 : (pre ++ le32 e.1).length = pre.length + 4 := by
      simp [le32, leBytes_length]
    rw [hlen32] at hr16
    have hpg := readPages_at ((pre ++ le32 e.1) ++ le16 e.2.length)
      (rest.flatMap entryBytes ++ suf) e.2 []
      (fun pm hpm => (hepm pm hpm).1) (fun pm hpm => (hepm pm hpm).2)
    have hlen16 : ((pre ++ le32 e.1) ++ le16 e.2.length).length = pre.length + 6 := by
      simp [le32, le16, leBytes_length]
    rw [hlen16] at hpg
    rw [foldl_alSet_of_nodup e.2 [] (by simpa [alKeys] using hend),
      List.nil_append] at hpg
    have hrec := ih (pre ++ entryBytes e) (alSet acc e.1 e.2)
      (fun q hq => hwfe q (List.mem_cons_of_mem _ hq))
    have hlenE : (pre ++ entryBytes e).length = pre.length + 6 + 12 * e.2.length := by
      simp [length_entryBytes]
      omega
    rw [hlenE] at hrec
    have e0 : pre ++ (e :: rest).flatMap entryBytes ++ suf =
        pre ++ (le32 e.1 ++ (le16 e.2.length ++ (e.2.flatMap pageBytes ++
          (rest.flatMap entryBytes ++ suf)))) := by
      simp [entryBytes]
    rw [show (e :: rest).length = rest.length + 1 from rfl, readEntries, e0]
    simp only [List.append_assoc] at hr32 hr16 hpg hrec
    rw [hr32]
    simp only
    rw [hr16]
    simp only
    rw [show pre.length + 4 + 2 = pre.length + 6 from by omega, hpg]
    simp only
    rw [show pre ++ (entryBytes e ++ (rest.flatMap entryBytes ++ suf)) =
        pre ++ (le32 e.1 ++ (le16 e.2.length ++ (e.2.flatMap pageBytes ++
          (rest.flatMap entryBytes ++ suf)))) from by simp [entryBytes]] at hrec
    rw [hrec]
    simp only [List.foldl_cons, Except.ok.injEq, Prod.mk.injEq]
    refine ⟨trivial, ?_⟩
    simp [length_entryBytes, le32, le16, leBytes_length, length_flatMap_pageBytes]
    omega

theorem length_flatMap_le64 (l : List Nat) : (l.flatMap le64).length = 8 * l.length := by
  induction l with
  | nil => simp
  | cons v rest ih =>
    rw [List.flatMap_cons, List.length_append, ih]
    simp [le64, leBytes_length]
    omega

/-! ### Reading from a truncated buffer -/

theorem take_drop_take (B : List Nat) (k off w : Nat) (h : off + w ≤ k) :
    ((B.take k).drop off).take w = (B.drop off).take w := by
  rw [List.drop_take, List.take_take, min_eq_left (by omega)]

theorem read_u16_take_within (B : List Nat) (k off : Nat) (h1 : off + 2 ≤ k)
    (h2 : k ≤ B.length) : read_u16 (B.take k) off = read_u16 B off := by
  rw [read_u16, read_u16, List.length_take_of_le h2, if_neg (by omega),
    if_neg (by omega), take_drop_take B k off 2 h1]

theorem read_u32_take_within (B : List Nat) (k off : Nat) (h1 : off + 4 ≤ k)
    (h2 : k ≤ B.length) : read_u32 (B.take k) off = read_u32 B off := by
  rw [read_u32, read_u32, List.length_take_of_le h2, if_neg (by omega),
    if_neg (by omega), take_drop_take B k off 4 h1]

theorem read_u64_take_within (B : List Nat) (k off : Nat) (h1 : off + 8 ≤ k)
    (h2 : k ≤ B.length) : read_u64 (B.take k) off = read_u64 B off := by
  rw [read_u64, read_u64, List.length_take_of_le h2, if_neg (by omega),
    if_neg (by omega), take_drop_take B k off 8 h1]

theorem read_u16_take_eof (B : List Nat) (k off : Nat) (h1 : k < off + 2)
    (h2 : k ≤ B.length) :
    read_u16 (B.take k) off = .error Err.unexpectedEof := by
  rw [read_u16, List.length_take_of_le h2, if_pos (by omega)]

theorem read_u32_take_eof (B : List Nat) (k off : Nat) (h1 : k < off + 4)
    (h2 : k ≤ B.length) :
    read_u32 (B.take k) off = .error Err.unexpectedEof := by
  rw [read_u32, List.length_take_of_le h2, if_pos (by omega)]

theorem read_u64_take_eof (B : List Nat) (k off : Nat) (h1 : k < off + 8)
    (h2 : k ≤ B.length) :
    read_u64 (B.take k) off = .error Err.unexpectedEof := by
  rw [read_u64, List.length_take_of_le h2, if_pos (by omega)]

theorem readPlane_take_within (B : List Nat) (k : Nat) (h2 : k ≤ B.length) :
    ∀ cnt off, off + 8 * cnt ≤ k →
      readPlane (B.take k) off cnt = readPlane B off cnt := by
  intro cnt
  induction cnt with
  | zero =>
    intro off _
    rfl
  | succ cnt ih =>
    intro off h
    rw [readPlane, readPlane, read_u64_take_within B k off (by omega) h2,
      show read_u64 B off = .ok (leVal ((B.drop off).take 8), off + 8) from by
        rw [read_u64, if_neg (by omega)]]
    simp only
    rw [ih (off + 8) (by omega)]

/-- Page records are fixed-size, so reading them off the end of any buffer
fails with eof regardless of content. -/
theorem readPages_eof (C : List Nat) :
    ∀ pcnt off acc, off ≤ C.length → C.length < off + 12 * pcnt →
      readPages C off acc pcnt = .error Err.unexpectedEof := by
  intro pcnt
  induction pcnt with
  | zero =>
    intro off acc h1 h2
    omega
  | succ pcnt ih =>
    intro off acc h1 h2
    rw [readPages]
    by_cases hc4 : C.length < off + 4
    · rw [show read_u32 C off = .error Err.unexpectedEof from by
        rw [read_u32, if_pos hc4]]
    · rw [show read_u32 C off = .ok (leVal ((C.drop off).take 4), off + 4) from by
        rw [read_u32, if_neg hc4]]
      simp only
      by_cases hc8 : C.length < off + 4 + 8
      · rw [show read_u64 C (off + 4) = .error Err.unexpectedEof from by
          rw [read_u64, if_pos hc8]]
      · rw [show read_u64 C (off + 4) =
            .ok (leVal ((C.drop (off + 4)).take 8), off + 4 + 8) from by
          rw [read_u64, if_neg hc8]]
        simp only
        exact ih (off + 4 + 8) _ (by omega) (by omega)

/-- Reading `pcnt` page records that lie fully inside any buffer succeeds and
advances the offset by `12 * pcnt`. -/
theorem readPages_ok_len (C : List Nat) :
    ∀ pcnt off acc, off + 12 * pcnt ≤ C.length →
      ∃ ps', readPages C off acc pcnt = .ok (ps', off + 12 * pcnt) := by
  intro pcnt
  induction pcnt with
  | zero =>
    intro off acc _
    exact ⟨acc, by simp [readPages]⟩
  | succ pcnt ih =>
    intro off acc h
    rw [readPages]
    rw [show read_u32 C off = .ok (leVal ((C.drop off).take 4), off + 4) from by
      rw [read_u32, if_neg (by omega)]]
    simp only
    rw [show read_u64 C (off + 4) =
        .ok (leVal ((C.drop (off + 4)).take 8), off + 4 + 8) from by
      rw [read_u64, if_neg (by omega)]]
    simp only
    obtain ⟨ps', hps⟩ := ih (off + 4 + 8) (alSet acc (leVal ((C.drop off).take 4))
      (leVal ((C.drop (off + 4)).take 8))) (by omega)
    rw [hps]
    exact ⟨ps', by rw [show off + 4 + 8 + 12 * pcnt = off + 12 * (pcnt + 1) from
      by omega]⟩

/-- Cutting a buffer strictly inside its marker-entry region makes the entry
reader fail with eof: every entry before the cut is parsed as in the full
buffer (the u16 page count read back is the true one), and the first read
past the cut fails. -/
theorem readEntries_take_eof (suf : List Nat) :
    ∀ (db : List (Nat × List (Nat × Nat))) (B pre : List Nat)
      (acc : List (Nat × List (Nat × Nat))) (k : Nat),
      B = pre ++ db.flatMap entryBytes ++ suf →
      (∀ e ∈ db, e.2.length < 2 ^ 16) →
      pre.length ≤ k → k < pre.length + (db.flatMap entryBytes).length →
      k ≤ B.length →
      readEntries (B.take k) pre.length acc db.length =
        .error Err.unexpectedEof := by
  intro db
  induction db with
  | nil =>
    intro B pre acc k hB hbound h1 h2 h3
    exfalso
    simp only [List.flatMap_nil, List.length_nil] at h2
    omega
  | cons e rest ih =>
    intro B pre acc k hB hbound h1 h2 h3
    have hB' : B = pre ++ (le32 e.1 ++ (le16 e.2.length ++
        (e.2.flatMap pageBytes ++ (rest.flatMap entryBytes ++ suf)))) := by
      rw [hB]
      simp [entryBytes]
    have h2' : k < pre.length +
        ((6 + 12 * e.2.length) + (rest.flatMap entryBytes).length) := by
      simp only [List.flatMap_cons, List.length_append, length_entryBytes] at h2
      exact h2
    rw [show (e :: rest).length = rest.length + 1 from rfl, readEntries]
    by_cases hc4 : k < pre.length + 4
    · rw [read_u32_take_eof B k pre.length hc4 h3]
    · rw [show read_u32 (B.take k) pre.length =
          .ok (leVal (((B.take k).drop pre.length).take 4), pre.length + 4) from by
        rw [read_u32, if_neg (by rw [List.length_take_of_le h3]; omega)]]
      simp only
      by_cases hc6 : k < pre.length + 6
      · rw [read_u16_take_eof B k (pre.length + 4) (by omega) h3]
      · have h16 : read_u16 (B.take k) (pre.length + 4) =
            .ok (e.2.length, pre.length + 4 + 2) := by
          rw [read_u16_take_within B k (pre.length + 4) (by omega) h3]
          have hat := read_u16_at (pre ++ le32 e.1)
            (e.2.flatMap pageBytes ++ (rest.flatMap entryBytes ++ suf))
            e.2.length
          rw [Nat.mod_eq_of_lt (hbound e (List.mem_cons_self e rest)),
            show (pre ++ le32 e.1).length = pre.length + 4 from by
              simp [le32, leBytes_length]] at hat
          simp only [List.append_assoc] at hat
          rw [hB']
          exact hat
        rw [h16]
        simp only
        by_cases hcP : k < pre.length + 4 + 2 + 12 * e.2.length
        · rw [readPages_eof (B.take k) e.2.length (pre.length + 4 + 2) []
            (by rw [List.length_take_of_le h3]; omega)
            (by rw [List.length_take_of_le h3]; omega)]
        · obtain ⟨ps', hps⟩ := readPages_ok_len (B.take k) e.2.length
            (pre.length + 4 + 2) []
            (by rw [List.length_take_of_le h3]; omega)
          rw [hps]
          simp only
          rw [show pre.length + 4 + 2 + 12 * e.2.length =
              (pre ++ entryBytes e).length from by
            rw [List.length_append, length_entryBytes]
            omega]
          exact ih B (pre ++ entryBytes e) _ k
            (by rw [hB']; simp [entryBytes])
            (fun q hq => hbound q (List.mem_cons_of_mem e hq))
            (by rw [List.length_append, length_entryBytes]; omega)
            (by rw [List.length_append, length_entryBytes]; omega)
            h3

/-- The in-memory well-formedness a real `(RGCanvas, ABitset, u32)` triple
always has in the source: plane lengths `PIXELS`, u64 plane values, u32 step
count, HashMap key uniqueness, u32 keys, u64 masks — together with the one
representability condition the byte format imposes, fewer than 2^16 pages
per cell (the page count is serialized as a u16) and fewer than 2^32 cells. -/
def PackWF (rg : RGCanvas) (a : ABitset) (n : Nat) : Prop :=
  rg.r.length = PIXELS ∧ rg.g.length = PIXELS ∧
    (∀ v ∈ rg.r, v < 2 ^ 64) ∧ (∀ v ∈ rg.g, v < 2 ^ 64) ∧
    n < 2 ^ 32 ∧ a.db.length < 2 ^ 32 ∧ NodupKeys a.db ∧
    (∀ e ∈ a.db, e.1 < 2 ^ 32 ∧ NodupKeys e.2 ∧ e.2.length < 2 ^ 16 ∧
      ∀ pm ∈ e.2, pm.1 < 2 ^ 32 ∧ pm.2 < 2 ^ 64)

instance (rg : RGCanvas) (a : ABitset) (n : Nat) : Decidable (PackWF rg a n) := by
  unfold PackWF
  infer_instance

theorem raw_unpack_raw_pack (rg : RGCanvas) (a : ABitset) (n : Nat)
    (h : PackWF rg a n) : raw_unpack (raw_pack rg a n) = .ok (rg, a, n) := by
  obtain ⟨hrl, hgl, hrv, hgv, hn, hdb, hnd, hdbe⟩ := h
  have hB : raw_pack rg a n =
      MAGIC ++ (le32 W ++ (le32 H ++ (le32 n ++ (le64 RG_LIMIT_EXACT ++
        (rg.r.flatMap le64 ++ (rg.g.flatMap le64 ++
          (le32 a.db.length ++ a.db.flatMap entryBytes))))))) := by
    rw [raw_pack_eq]
    simp only [List.append_assoc]
  set B := MAGIC ++ (le32 W ++ (le32 H ++ (le32 n ++ (le64 RG_LIMIT_EXACT ++
    (rg.r.flatMap le64 ++ (rg.g.flatMap le64 ++
      (le32 a.db.length ++ a.db.flatMap entryBytes))))))) with hBdef
  rw [raw_unpack, hB]
  have hlen4 : ¬ B.length < 4 := by
    rw [hBdef]
    simp [MAGIC]
  rw [if_neg hlen4]
  have htake : B.take 4 = MAGIC := by
    rw [hBdef]
    exact List.take_left' rfl
  rw [if_neg (by simp [htake])]
  -- header reads
  have h1 := read_u32_at MAGIC (le32 H ++ (le32 n ++ (le64 RG_LIMIT_EXACT ++
    (rg.r.flatMap le64 ++ (rg.g.flatMap le64 ++
      (le32 a.db.length ++ a.db.flatMap entryBytes)))))) W
  rw [Nat.mod_eq_of_lt (by norm_num [W]), show MAGIC.length = 4 from rfl] at h1
  simp only [List.append_assoc] at h1
  rw [← hBdef] at h1
  rw [h1]
  simp only
  have h2 := read_u32_at (MAGIC ++ le32 W) (le32 n ++ (le64 RG_LIMIT_EXACT ++
    (rg.r.flatMap le64 ++ (rg.g.flatMap le64 ++
      (le32 a.db.length ++ a.db.flatMap entryBytes))))) H
  rw [Nat.mod_eq_of_lt (by norm_num [H]),
    show (MAGIC ++ le32 W).length = 4 + 4 from by simp [MAGIC, le32, leBytes_length]] at h2
  simp only [List.append_assoc] at h2
  rw [← hBdef] at h2
  rw [h2]
  simp only
  have h3 := read_u32_at (MAGIC ++ le32 W ++ le32 H) (le64 RG_LIMIT_EXACT ++
    (rg.r.flatMap le64 ++ (rg.g.flatMap le64 ++
      (le32 a.db.length ++ a.db.flatMap entryBytes)))) n
  rw [Nat.mod_eq_of_lt hn,
    show (MAGIC ++ le32 W ++ le32 H).length = 4 + 4 + 4 from by
      simp [MAGIC, le32, leBytes_length]] at h3
  simp only [List.append_assoc] at h3
  rw [← hBdef] at h3
  rw [h3]
  simp only
  have h4 := read_u64_at (MAGIC ++ le32 W ++ le32 H ++ le32 n)
    (rg.r.flatMap le64 ++ (rg.g.flatMap le64 ++
      (le32 a.db.length ++ a.db.flatMap entryBytes))) RG_LIMIT_EXACT
  rw [Nat.mod_eq_of_lt (by rw [RG_LIMIT_EXACT, Nat.one_shiftLeft]; norm_num),
    show (MAGIC ++ le32 W ++ le32 H ++ le32 n).length = 4 + 4 + 4 + 4 from by
      simp [MAGIC, le32, leBytes_length]] at h4
  simp only [List.append_assoc] at h4
  rw [← hBdef] at h4
  rw [h4]
  simp only
  rw [if_neg (by norm_num [W, H])]
  rw [if_neg (by norm_num)]
  -- planes
  have hp1 := readPlane_at (MAGIC ++ le32 W ++ le32 H ++ le32 n ++ le64 RG_LIMIT_EXACT)
    (rg.g.flatMap le64 ++ (le32 a.db.length ++ a.db.flatMap entryBytes)) rg.r hrv
  rw [show (MAGIC ++ le32 W ++ le32 H ++ le32 n ++ le64 RG_LIMIT_EXACT).length =
      4 + 4 + 4 + 4 + 8 from by simp [MAGIC, le32, le64, leBytes_length], hrl] at hp1
  simp only [List.append_assoc] at hp1
  rw [← hBdef] at hp1
  rw [hp1]
  simp only
  have hp2 := readPlane_at
    (MAGIC ++ le32 W ++ le32 H ++ le32 n ++ le64 RG_LIMIT_EXACT ++ rg.r.flatMap le64)
    (le32 a.db.length ++ a.db.flatMap entryBytes) rg.g hgv
  rw [show (MAGIC ++ le32 W ++ le32 H ++ le32 n ++ le64 RG_LIMIT_EXACT ++
        rg.r.flatMap le64).length = 4 + 4 + 4 + 4 + 8 + 8 * PIXELS from by
      simp only [List.length_append, length_flatMap_le64, hrl]
      simp [MAGIC, le32, le64, leBytes_length], hgl] at hp2
  simp only [List.append_assoc] at hp2
  rw [← hBdef] at hp2
  rw [hp2]
  simp only
  -- entry count
  have h5 := read_u32_at (MAGIC ++ le32 W ++ le32 H ++ le32 n ++ le64 RG_LIMIT_EXACT ++
    rg.r.flatMap le64 ++ rg.g.flatMap le64) (a.db.flatMap entryBytes) a.db.length
  rw [Nat.mod_eq_of_lt hdb,
    show (MAGIC ++ le32 W ++ le32 H ++ le32 n ++ le64 RG_LIMIT_EXACT ++
        rg.r.flatMap le64 ++ rg.g.flatMap le64).length =
      4 + 4 + 4 + 4 + 8 + 8 * PIXELS + 8 * PIXELS from by
      simp only [List.length_append, length_flatMap_le64, hrl, hgl]
      simp [MAGIC, le32, le64, leBytes_length]] at h5
  simp only [List.append_assoc] at h5
  rw [← hBdef] at h5
  rw [h5]
  simp only
  -- entries
  have h6 := readEntries_at (MAGIC ++ le32 W ++ le32 H ++ le32 n ++
    le64 RG_LIMIT_EXACT ++ rg.r.flatMap le64 ++ rg.g.flatMap le64 ++
    le32 a.db.length) [] a.db [] hdbe
  rw [foldl_alSet_of_nodup a.db [] (by simpa [alKeys] using hnd), List.nil_append,
    show (MAGIC ++ le32 W ++ le32 H ++ le32 n ++ le64 RG_LIMIT_EXACT ++
        rg.r.flatMap le64 ++ rg.g.flatMap le64 ++ le32 a.db.length).length =
      4 + 4 + 4 + 4 + 8 + 8 * PIXELS + 8 * PIXELS + 4 from by
      simp only [List.length_append, length_flatMap_le64, hrl, hgl]
      simp [MAGIC, le32, le64, leBytes_length]] at h6
  rw [List.append_nil] at h6
  simp only [List.append_assoc] at h6
  rw [← hBdef] at h6
  rw [show 4 + 4 + 4 + 4 + 8 + 8 * PIXELS + 8 * PIXELS + 4 =
    4 + 4 + 4 + 4 + 8 + 8 * PIXELS + 8 * PIXELS + 4 from rfl] at h6
  rw [h6]

/-- A marker set with 2^16 pages in one cell: its page count does not fit the
u16 page-count field of the byte format. -/
def cexPages : List (Nat × Nat) := (List.range 65536).map (fun i => (i, 1))

/-- The counterexample marker set for the pack/unpack round-trip. -/
def cexA : ABitset := ⟨[(0, cexPages)]⟩

theorem cexPages_length : cexPages.length = 65536 := by
  simp [cexPages]

theorem raw_unpack_pack_trunc (rg : RGCanvas)
    (hrlen : rg.r.length = PIXELS) (hglen : rg.g.length = PIXELS)
    (hrv : ∀ v ∈ rg.r, v < 2 ^ 64) (hgv : ∀ v ∈ rg.g, v < 2 ^ 64) :
    raw_unpack (raw_pack rg cexA 1) = .ok (rg, ABitset.mk [(0, [])], 1) := by
  have hB : raw_pack rg cexA 1 =
      MAGIC ++ (le32 W ++ (le32 H ++ (le32 1 ++ (le64 RG_LIMIT_EXACT ++
        (rg.r.flatMap le64 ++ (rg.g.flatMap le64 ++
          (le32 1 ++ (le32 0 ++ (le16 cexPages.length ++
            cexPages.flatMap pageBytes))))))))) := by
    rw [raw_pack_eq]
    show _ ++ _ ++ _ ++ _ ++ _ ++ _ ++ _ ++ le32 cexA.db.length ++
      cexA.db.flatMap entryBytes = _
    rw [show cexA.db.length = 1 from rfl,
      show cexA.db.flatMap entryBytes = entryBytes (0, cexPages) ++ [] from rfl,
      List.append_nil, entryBytes]
    simp only [List.append_assoc]
  set B := MAGIC ++ (le32 W ++ (le32 H ++ (le32 1 ++ (le64 RG_LIMIT_EXACT ++
    (rg.r.flatMap le64 ++ (rg.g.flatMap le64 ++
      (le32 1 ++ (le32 0 ++ (le16 cexPages.length ++
        cexPages.flatMap pageBytes))))))))) with hBdef
  rw [raw_unpack, hB]
  have hlen4 : ¬ B.length < 4 := by
    rw [hBdef, List.length_append]
    simp only [MAGIC, List.length_cons, List.length_nil]
    omega
  rw [if_neg hlen4]
  have htake : B.take 4 = MAGIC := by
    rw [hBdef]
    exact List.take_left' rfl
  rw [if_neg (by simp [htake])]
  have h1 := read_u32_at MAGIC (le32 H ++ (le32 1 ++ (le64 RG_LIMIT_EXACT ++
    (rg.r.flatMap le64 ++ (rg.g.flatMap le64 ++
      (le32 1 ++ (le32 0 ++ (le16 cexPages.length ++
        cexPages.flatMap pageBytes)))))))) W
  rw [Nat.mod_eq_of_lt (by norm_num [W]), show MAGIC.length = 4 from rfl] at h1
  simp only [List.append_assoc] at h1
  rw [← hBdef] at h1
  rw [h1]
  simp only
  have h2 := read_u32_at (MAGIC ++ le32 W) (le32 1 ++ (le64 RG_LIMIT_EXACT ++
    (rg.r.flatMap le64 ++ (rg.g.flatMap le64 ++
      (le32 1 ++ (le32 0 ++ (le16 cexPages.length ++
        cexPages.flatMap pageBytes))))))) H
  rw [Nat.mod_eq_of_lt (by norm_num [H]),
    show (MAGIC ++ le32 W).length = 4 + 4 from by
      simp [MAGIC, le32, leBytes_length]] at h2
  simp only [List.append_assoc] at h2
  rw [← hBdef] at h2
  rw [h2]
  simp only
  have h3 := read_u32_at (MAGIC ++ le32 W ++ le32 H) (le64 RG_LIMIT_EXACT ++
    (rg.r.flatMap le64 ++ (rg.g.flatMap le64 ++
      (le32 1 ++ (le32 0 ++ (le16 cexPages.length ++
        cexPages.flatMap pageBytes)))))) 1
  rw [Nat.mod_eq_of_lt (by norm_num),
    show (MAGIC ++ le32 W ++ le32 H).length = 4 + 4 + 4 from by
      simp [MAGIC, le32, leBytes_length]] at h3
  simp only [List.append_assoc] at h3
  rw [← hBdef] at h3
  rw [h3]
  simp only
  have h4 := read_u64_at (MAGIC ++ le32 W ++ le32 H ++ le32 1)
    (rg.r.flatMap le64 ++ (rg.g.flatMap le64 ++
      (le32 1 ++ (le32 0 ++ (le16 cexPages.length ++
        cexPages.flatMap pageBytes))))) RG_LIMIT_EXACT
  rw [Nat.mod_eq_of_lt (by rw [RG_LIMIT_EXACT, Nat.one_shiftLeft]; norm_num),
    show (MAGIC ++ le32 W ++ le32 H ++ le32 1).length = 4 + 4 + 4 + 4 from by
      simp [MAGIC, le32, leBytes_length]] at h4
  simp only [List.append_assoc] at h4
  rw [← hBdef] at h4
  rw [h4]
  simp only
  rw [if_neg (by norm_num [W, H])]
  rw [if_neg (by norm_num)]
  have hp1 := readPlane_at (MAGIC ++ le32 W ++ le32 H ++ le32 1 ++ le64 RG_LIMIT_EXACT)
    (rg.g.flatMap le64 ++
      (le32 1 ++ (le32 0 ++ (le16 cexPages.length ++ cexPages.flatMap pageBytes))))
    rg.r hrv
  rw [show (MAGIC ++ le32 W ++ le32 H ++ le32 1 ++ le64 RG_LIMIT_EXACT).length =
      4 + 4 + 4 + 4 + 8 from by simp [MAGIC, le32, le64, leBytes_length], hrlen] at hp1
  simp only [List.append_assoc] at hp1
  rw [← hBdef] at hp1
  rw [hp1]
  simp only
  have hp2 := readPlane_at (MAGIC ++ le32 W ++ le32 H ++ le32 1 ++
      le64 RG_LIMIT_EXACT ++ rg.r.flatMap le64)
    (le32 1 ++ (le32 0 ++ (le16 cexPages.length ++ cexPages.flatMap pageBytes)))
    rg.g hgv
  rw [show (MAGIC ++ le32 W ++ le32 H ++ le32 1 ++ le64 RG_LIMIT_EXACT ++
        rg.r.flatMap le64).length =
      4 + 4 + 4 + 4 + 8 + 8 * PIXELS from by
      simp only [List.length_append, length_flatMap_le64, hrlen]
      simp [MAGIC, le32, le64, leBytes_length], hglen] at hp2
  simp only [List.append_assoc] at hp2
  rw [← hBdef] at hp2
  rw [hp2]
  simp only
  have h5 := read_u32_at (MAGIC ++ le32 W ++ le32 H ++ le32 1 ++
      le64 RG_LIMIT_EXACT ++ rg.r.flatMap le64 ++
      rg.g.flatMap le64)
    (le32 0 ++ (le16 cexPages.length ++ cexPages.flatMap pageBytes)) 1
  rw [Nat.mod_eq_of_lt (by norm_num),
    show (MAGIC ++ le32 W ++ le32 H ++ le32 1 ++ le64 RG_LIMIT_EXACT ++
        rg.r.flatMap le64 ++
        rg.g.flatMap le64).length =
      4 + 4 + 4 + 4 + 8 + 8 * PIXELS + 8 * PIXELS from by
      simp only [List.length_append, length_flatMap_le64, hrlen, hglen]
      simp [MAGIC, le32, le64, leBytes_length]] at h5
  simp only [List.append_assoc] at h5
  rw [← hBdef] at h5
  rw [h5]
  simp only
  rw [show (1 : Nat) = 0 + 1 from rfl, readEntries]
  have h6 := read_u32_at (MAGIC ++ le32 W ++ le32 H ++ le32 1 ++
      le64 RG_LIMIT_EXACT ++ rg.r.flatMap le64 ++
      rg.g.flatMap le64 ++ le32 1)
    (le16 cexPages.length ++ cexPages.flatMap pageBytes) 0
  rw [Nat.mod_eq_of_lt (by norm_num),
    show (MAGIC ++ le32 W ++ le32 H ++ le32 1 ++ le64 RG_LIMIT_EXACT ++
        rg.r.flatMap le64 ++
        rg.g.flatMap le64 ++ le32 1).length =
      4 + 4 + 4 + 4 + 8 + 8 * PIXELS + 8 * PIXELS + 4 from by
      simp only [List.length_append, length_flatMap_le64, hrlen, hglen]
      simp [MAGIC, le32, le64, leBytes_length]] at h6
  simp only [List.append_assoc] at h6
  rw [← hBdef] at h6
  rw [h6]
  simp only
  have h7 := read_u16_at (MAGIC ++ le32 W ++ le32 H ++ le32 1 ++
      le64 RG_LIMIT_EXACT ++ rg.r.flatMap le64 ++
      rg.g.flatMap le64 ++ le32 1 ++ le32 0)
    (cexPages.flatMap pageBytes) cexPages.length
  rw [show cexPages.length % 2 ^ 16 = 0 from by rw [cexPages_length]; norm_num,
    show (MAGIC ++ le32 W ++ le32 H ++ le32 1 ++ le64 RG_LIMIT_EXACT ++
        rg.r.flatMap le64 ++
        rg.g.flatMap le64 ++ le32 1 ++ le32 0).length =
      4 + 4 + 4 + 4 + 8 + 8 * PIXELS + 8 * PIXELS + 4 + 4 from by
      simp only [List.length_append, length_flatMap_le64, hrlen, hglen]
      simp [MAGIC, le32, le64, leBytes_length]] at h7
  simp only [List.append_assoc] at h7
  rw [← hBdef] at h7
  rw [h7]
  simp only
  rw [show readPages B (4 + 4 + 4 + 4 + 8 + 8 * PIXELS + 8 * PIXELS + 4 + 4 + 2)
      [] 0 = .ok ([], 4 + 4 + 4 + 4 + 8 + 8 * PIXELS + 8 * PIXELS + 4 + 4 + 2)
    from rfl]
  simp only
  rw [show readEntries B (4 + 4 + 4 + 4 + 8 + 8 * PIXELS + 8 * PIXELS + 4 + 4 + 2)
      (alSet [] 0 []) 0 = .ok (alSet [] 0 [],
        4 + 4 + 4 + 4 + 8 + 8 * PIXELS + 8 * PIXELS + 4 + 4 + 2) from rfl]
  rfl

/-- Claim C4 as stated is false: one cell holding 2^16 pages is packed with a
truncated u16 page count of 0, and unpacking the packed bytes succeeds but
returns a marker set with that cell empty instead of the original. -/
theorem claim_C4_counterexample :
    raw_unpack (raw_pack (RGCanvas.new false) cexA 1) ≠
      .ok (RGCanvas.new false, cexA, 1) := by
  have hcex := raw_unpack_pack_trunc (RGCanvas.new false)
    (by rw [show (RGCanvas.new false).r = List.replicate PIXELS 0 from rfl,
      List.length_replicate])
    (by rw [show (RGCanvas.new false).g = List.replicate PIXELS 0 from rfl,
      List.length_replicate])
    (by rw [show (RGCanvas.new false).r = List.replicate PIXELS 0 from rfl]
        intro v hv
        rw [List.eq_of_mem_replicate hv]
        norm_num)
    (by rw [show (RGCanvas.new false).g = List.replicate PIXELS 0 from rfl]
        intro v hv
        rw [List.eq_of_mem_replicate hv]
        norm_num)
  rw [hcex]
  intro h
  have h2 := congrArg (fun r => match r with
    | Except.ok (_, a, _) => (getPages a 0).length
    | Except.error _ => 0) h
  simp only [getPages, cexA, alGet, if_pos, Option.getD_some] at h2
  rw [cexPages_length] at h2
  exact absurd h2 (by norm_num)

/-- Claim C4 (amended): `raw_pack` is total by construction (it returns a
byte list for every input), and for every canvas whose planes have length
`PIXELS` and u64 values, every marker set that is a HashMap state (unique
keys at both levels, u64 masks) whose cells each hold fewer than 2^16 pages
and which has fewer than 2^32 cells, and every step count below 2^32,
unpacking the packed bytes returns exactly the original triple.  The
unbounded claim is false (see the counterexample): a cell holding 2^16 pages
has its page count truncated by the u16 page-count field. -/
theorem claim_C4 (rg : RGCanvas) (a : ABitset) (n : Nat) (h : PackWF rg a n) :
    raw_unpack (raw_pack rg a n) = .ok (rg, a, n) :=
  raw_unpack_raw_pack rg a n h

theorem claim_C4_witness :
    raw_unpack (raw_pack (RGCanvas.new false) ABitset.new 1) =
      .ok (RGCanvas.new false, ABitset.new, 1) :=
  claim_C4 (RGCanvas.new false) ABitset.new 1
    (by
      refine ⟨?_, ?_, ?_, ?_, by norm_num, by simp [ABitset.new], ?_, ?_⟩
      · rw [show (RGCanvas.new false).r = List.replicate PIXELS 0 from rfl,
          List.length_replicate]
      · rw [show (RGCanvas.new false).g = List.replicate PIXELS 0 from rfl,
          List.length_replicate]
      · rw [show (RGCanvas.new false).r = List.replicate PIXELS 0 from rfl]
        intro v hv
        rw [List.eq_of_mem_replicate hv]
        norm_num
      · rw [show (RGCanvas.new false).g = List.replicate PIXELS 0 from rfl]
        intro v hv
        rw [List.eq_of_mem_replicate hv]
        norm_num
      · simp [ABitset.new, NodupKeys, alKeys]
      · simp [ABitset.new])

/-! ### Format-error behaviour of `raw_unpack` -/

theorem readPlane_eof {buf : List Nat} {off cnt : Nat}
    (h : buf.length < off + 8 * cnt) (hc : 0 < cnt) :
    readPlane buf off cnt = .error Err.unexpectedEof := by
  induction cnt generalizing off with
  | zero => omega
  | succ cnt ih =>
    rw [readPlane]
    by_cases h8 : buf.length < off + 8
    · rw [show read_u64 buf off = .error Err.unexpectedEof from by
        rw [read_u64, if_pos h8]]
    · have hc2 : 0 < cnt := by omega
      rw [show read_u64 buf off = .ok (leVal ((buf.drop off).take 8), off + 8) from by
        rw [read_u64, if_neg h8]]
      simp only
      rw [ih (by omega) hc2]

theorem readPlane_ok_len {buf : List Nat} {off cnt : Nat}
    (h : off + 8 * cnt ≤ buf.length) :
    ∃ vs, readPlane buf off cnt = .ok (vs, off + 8 * cnt) := by
  induction cnt generalizing off with
  | zero =>
    refine ⟨[], ?_⟩
    rw [readPlane]
    simp
  | succ cnt ih =>
    rw [readPlane]
    rw [show read_u64 buf off = .ok (leVal ((buf.drop off).take 8), off + 8) from by
      rw [read_u64, if_neg (by omega)]]
    simp only
    obtain ⟨vs, hvs⟩ := @ih (off + 8) (by omega)
    rw [hvs]
    exact ⟨leVal ((buf.drop off).take 8) :: vs, by
      simp only [Except.ok.injEq, Prod.mk.injEq]
      exact ⟨trivial, by omega⟩⟩

theorem raw_unpack_header (w h n lim : Nat) (rest : List Nat)
    (hw : w < 2 ^ 32) (hh : h < 2 ^ 32) (hn : n < 2 ^ 32) (hl : lim < 2 ^ 64) :
    raw_unpack (MAGIC ++ (le32 w ++ (le32 h ++ (le32 n ++ (le64 lim ++ rest))))) =
      (if w ≠ W ∨ h ≠ H then .error (.badDims w h)
        else if lim ≠ RG_LIMIT_EXACT then .error .rgLimitMismatch
        else
          match readPlane (MAGIC ++ (le32 w ++ (le32 h ++ (le32 n ++
              (le64 lim ++ rest))))) (4 + 4 + 4 + 4 + 8) PIXELS with
          | .error e => .error e
          | .ok (r, off) =>
            match readPlane (MAGIC ++ (le32 w ++ (le32 h ++ (le32 n ++
                (le64 lim ++ rest))))) off PIXELS with
            | .error e => .error e
            | .ok (g, off) =>
              match read_u32 (MAGIC ++ (le32 w ++ (le32 h ++ (le32 n ++
                  (le64 lim ++ rest))))) off with
              | .error e => .error e
              | .ok (ec, off) =>
                match readEntries (MAGIC ++ (le32 w ++ (le32 h ++ (le32 n ++
                    (le64 lim ++ rest))))) off [] ec with
                | .error e => .error e
                | .ok (db, _) => .ok (⟨r, g⟩, ⟨db⟩, n)) := by
  set B := MAGIC ++ (le32 w ++ (le32 h ++ (le32 n ++ (le64 lim ++ rest)))) with hBdef
  rw [raw_unpack]
  have hlen4 : ¬ B.length < 4 := by
    rw [hBdef, List.length_append]
    simp only [MAGIC, List.length_cons, List.length_nil]
    omega
  rw [if_neg hlen4]
  have htake : B.take 4 = MAGIC := by
    rw [hBdef]
    exact List.take_left' rfl
  rw [if_neg (by simp [htake])]
  have h1 := read_u32_at MAGIC (le32 h ++ (le32 n ++ (le64 lim ++ rest))) w
  rw [Nat.mod_eq_of_lt hw, show MAGIC.length = 4 from rfl] at h1
  simp only [List.append_assoc] at h1
  rw [← hBdef] at h1
  rw [h1]
  simp only
  have h2 := read_u32_at (MAGIC ++ le32 w) (le32 n ++ (le64 lim ++ rest)) h
  rw [Nat.mod_eq_of_lt hh,
    show (MAGIC ++ le32 w).length = 4 + 4 from by
      simp [MAGIC, le32, leBytes_length]] at h2
  simp only [List.append_assoc] at h2
  rw [← hBdef] at h2
  rw [h2]
  simp only
  have h3 := read_u32_at (MAGIC ++ le32 w ++ le32 h) (le64 lim ++ rest) n
  rw [Nat.mod_eq_of_lt hn,
    show (MAGIC ++ le32 w ++ le32 h).length = 4 + 4 + 4 from by
      simp [MAGIC, le32, leBytes_length]] at h3
  simp only [List.append_assoc] at h3
  rw [← hBdef] at h3
  rw [h3]
  simp only
  have h4 := read_u64_at (MAGIC ++ le32 w ++ le32 h ++ le32 n) rest lim
  rw [Nat.mod_eq_of_lt hl,
    show (MAGIC ++ le32 w ++ le32 h ++ le32 n).length = 4 + 4 + 4 + 4 from by
      simp [MAGIC, le32, leBytes_length]] at h4
  simp only [List.append_assoc] at h4
  rw [← hBdef] at h4
  rw [h4]

/-- A buffer with a valid magic but fewer than the 24 header bytes is
rejected with eof: one of the four header reads runs off the end before any
check fires. -/
theorem raw_unpack_header_trunc (raw : List Nat) (h4 : 4 ≤ raw.length)
    (h24 : raw.length < 24) (hmag : raw.take 4 = MAGIC) :
    raw_unpack raw = .error Err.unexpectedEof := by
  rw [raw_unpack, if_neg (by omega), if_neg (fun h => h hmag)]
  by_cases h8 : raw.length < 8
  · rw [show read_u32 raw 4 = .error Err.unexpectedEof from by
      rw [read_u32, if_pos (by omega)]]
  · rw [show read_u32 raw 4 = .ok (leVal ((raw.drop 4).take 4), 8) from by
      rw [read_u32, if_neg (by omega)]]
    simp only
    by_cases h12 : raw.length < 12
    · rw [show read_u32 raw 8 = .error Err.unexpectedEof from by
        rw [read_u32, if_pos (by omega)]]
    · rw [show read_u32 raw 8 = .ok (leVal ((raw.drop 8).take 4), 12) from by
        rw [read_u32, if_neg (by omega)]]
      simp only
      by_cases h16 : raw.length < 16
      · rw [show read_u32 raw 12 = .error Err.unexpectedEof from by
          rw [read_u32, if_pos (by omega)]]
      · rw [show read_u32 raw 12 = .ok (leVal ((raw.drop 12).take 4), 16) from by
          rw [read_u32, if_neg (by omega)]]
        simp only
        rw [show read_u64 raw 16 = .error Err.unexpectedEof from by
          rw [read_u64, if_pos (by omega)]]

/-- A real container cut short anywhere is rejected with a format error:
below 4 bytes with the too-small error, otherwise with eof — whether the cut
falls in the header, the planes, the entry count, or inside the marker
entries. -/
theorem raw_unpack_take_trunc (rg : RGCanvas) (a : ABitset) (n : Nat)
    (h : PackWF rg a n) (k : Nat) (hk : k < (raw_pack rg a n).length) :
    raw_unpack ((raw_pack rg a n).take k) =
      if k < 4 then .error Err.rawTooSmall else .error Err.unexpectedEof := by
  obtain ⟨hrl, hgl, hrv, hgv, hn, hdb, hnd, hdbe⟩ := h
  have hB : raw_pack rg a n =
      MAGIC ++ (le32 W ++ (le32 H ++ (le32 n ++ (le64 RG_LIMIT_EXACT ++
        (rg.r.flatMap le64 ++ (rg.g.flatMap le64 ++
          (le32 a.db.length ++ a.db.flatMap entryBytes))))))) := by
    rw [raw_pack_eq]
    simp only [List.append_assoc]
  set B := MAGIC ++ (le32 W ++ (le32 H ++ (le32 n ++ (le64 RG_LIMIT_EXACT ++
    (rg.r.flatMap le64 ++ (rg.g.flatMap le64 ++
      (le32 a.db.length ++ a.db.flatMap entryBytes))))))) with hBdef
  rw [hB] at hk ⊢
  have hkB : k ≤ B.length := by omega
  have hBlen : B.length =
      28 + 16 * PIXELS + (a.db.flatMap entryBytes).length := by
    rw [hBdef]
    simp only [List.length_append, length_flatMap_le64, hrl, hgl, MAGIC,
      List.length_cons, List.length_nil, le32, le64, leBytes_length]
    omega
  by_cases hk4 : k < 4
  · rw [if_pos hk4, raw_unpack,
      if_pos (by rw [List.length_take_of_le hkB]; omega)]
  · rw [if_neg hk4]
    have hmag : (B.take k).take 4 = MAGIC := by
      rw [List.take_take, min_eq_left (by omega), hBdef]
      exact List.take_left' rfl
    rw [raw_unpack, if_neg (by rw [List.length_take_of_le hkB]; omega),
      if_neg (fun hx => hx hmag)]
    by_cases hk8 : k < 8
    · rw [read_u32_take_eof B k 4 (by omega) hkB]
    · rw [read_u32_take_within B k 4 (by omega) hkB]
      have h1 := read_u32_at MAGIC (le32 H ++ (le32 n ++ (le64 RG_LIMIT_EXACT ++
        (rg.r.flatMap le64 ++ (rg.g.flatMap le64 ++
          (le32 a.db.length ++ a.db.flatMap entryBytes)))))) W
      rw [Nat.mod_eq_of_lt (by norm_num [W]),
        show MAGIC.length = 4 from rfl] at h1
      simp only [List.append_assoc] at h1
      rw [← hBdef] at h1
      rw [h1]
      simp only
      by_cases hk12 : k < 12
      · rw [read_u32_take_eof B k (4 + 4) (by omega) hkB]
      · rw [read_u32_take_within B k (4 + 4) (by omega) hkB]
        have h2 := read_u32_at (MAGIC ++ le32 W)
          (le32 n ++ (le64 RG_LIMIT_EXACT ++ (rg.r.flatMap le64 ++
            (rg.g.flatMap le64 ++
              (le32 a.db.length ++ a.db.flatMap entryBytes))))) H
        rw [Nat.mod_eq_of_lt (by norm_num [H]),
          show (MAGIC ++ le32 W).length = 4 + 4 from by
            simp [MAGIC, le32, leBytes_length]] at h2
        simp only [List.append_assoc] at h2
        rw [← hBdef] at h2
        rw [h2]
        simp only
        by_cases hk16 : k < 16
        · rw [read_u32_take_eof B k (4 + 4 + 4) (by omega) hkB]
        · rw [read_u32_take_within B k (4 + 4 + 4) (by omega) hkB]
          have h3 := read_u32_at (MAGIC ++ le32 W ++ le32 H)
            (le64 RG_LIMIT_EXACT ++ (rg.r.flatMap le64 ++
              (rg.g.flatMap le64 ++
                (le32 a.db.length ++ a.db.flatMap entryBytes)))) n
          rw [Nat.mod_eq_of_lt hn,
            show (MAGIC ++ le32 W ++ le32 H).length = 4 + 4 + 4 from by
              simp [MAGIC, le32, leBytes_length]] at h3
          simp only [List.append_assoc] at h3
          rw [← hBdef] at h3
          rw [h3]
          simp only
          by_cases hk24 : k < 24
          · rw [read_u64_take_eof B k (4 + 4 + 4 + 4) (by omega) hkB]
          · rw [read_u64_take_within B k (4 + 4 + 4 + 4) (by omega) hkB]
            have h4 := read_u64_at (MAGIC ++ le32 W ++ le32 H ++ le32 n)
              (rg.r.flatMap le64 ++ (rg.g.flatMap le64 ++
                (le32 a.db.length ++ a.db.flatMap entryBytes))) RG_LIMIT_EXACT
            rw [Nat.mod_eq_of_lt
                (by rw [RG_LIMIT_EXACT, Nat.one_shiftLeft]; norm_num),
              show (MAGIC ++ le32 W ++ le32 H ++ le32 n).length =
                4 + 4 + 4 + 4 from by
                simp [MAGIC, le32, leBytes_length]] at h4
            simp only [List.append_assoc] at h4
            rw [← hBdef] at h4
            rw [h4]
            simp only
            rw [if_neg (by norm_num [W, H]), if_neg (by norm_num)]
            have hpix : 0 < PIXELS := by norm_num [PIXELS, W, H]
            by_cases hkP1 : k < 24 + 8 * PIXELS
            · rw [readPlane_eof
                (by rw [List.length_take_of_le hkB]; omega) hpix]
            · rw [readPlane_take_within B k hkB PIXELS (4 + 4 + 4 + 4 + 8)
                (by omega)]
              have hp1 := readPlane_at
                (MAGIC ++ le32 W ++ le32 H ++ le32 n ++ le64 RG_LIMIT_EXACT)
                (rg.g.flatMap le64 ++
                  (le32 a.db.length ++ a.db.flatMap entryBytes)) rg.r hrv
              rw [show (MAGIC ++ le32 W ++ le32 H ++ le32 n ++
                    le64 RG_LIMIT_EXACT).length = 4 + 4 + 4 + 4 + 8 from by
                  simp [MAGIC, le32, le64, leBytes_length], hrl] at hp1
              simp only [List.append_assoc] at hp1
              rw [← hBdef] at hp1
              rw [hp1]
              simp only
              by_cases hkP2 : k < 24 + 16 * PIXELS
              · rw [readPlane_eof
                  (by rw [List.length_take_of_le hkB]; omega) hpix]
              · rw [readPlane_take_within B k hkB PIXELS
                  (4 + 4 + 4 + 4 + 8 + 8 * PIXELS) (by omega)]
                have hp2 := readPlane_at
                  (MAGIC ++ le32 W ++ le32 H ++ le32 n ++
                    le64 RG_LIMIT_EXACT ++ rg.r.flatMap le64)
                  (le32 a.db.length ++ a.db.flatMap entryBytes) rg.g hgv
                rw [show (MAGIC ++ le32 W ++ le32 H ++ le32 n ++
                      le64 RG_LIMIT_EXACT ++ rg.r.flatMap le64).length =
                    4 + 4 + 4 + 4 + 8 + 8 * PIXELS from by
                    simp only [List.length_append, length_flatMap_le64, hrl]
                    simp [MAGIC, le32, le64, leBytes_length], hgl] at hp2
                simp only [List.append_assoc] at hp2
                rw [← hBdef] at hp2
                rw [hp2]
                simp only
                by_cases hkEC : k < 24 + 16 * PIXELS + 4
                · rw [read_u32_take_eof B k
                    (4 + 4 + 4 + 4 + 8 + 8 * PIXELS + 8 * PIXELS)
                    (by omega) hkB]
                · rw [read_u32_take_within B k
                    (4 + 4 + 4 + 4 + 8 + 8 * PIXELS + 8 * PIXELS)
                    (by omega) hkB]
                  have h5 := read_u32_at (MAGIC ++ le32 W ++ le32 H ++ le32 n ++
                    le64 RG_LIMIT_EXACT ++ rg.r.flatMap le64 ++
                    rg.g.flatMap le64) (a.db.flatMap entryBytes) a.db.length
                  rw [Nat.mod_eq_of_lt hdb,
                    show (MAGIC ++ le32 W ++ le32 H ++ le32 n ++
                        le64 RG_LIMIT_EXACT ++ rg.r.flatMap le64 ++
                        rg.g.flatMap le64).length =
                      4 + 4 + 4 + 4 + 8 + 8 * PIXELS + 8 * PIXELS from by
                      simp only [List.length_append, length_flatMap_le64,
                        hrl, hgl]
                      simp [MAGIC, le32, le64, leBytes_length]] at h5
                  simp only [List.append_assoc] at h5
                  rw [← hBdef] at h5
                  rw [h5]
                  simp only
                  have hpreLen : (MAGIC ++ le32 W ++ le32 H ++ le32 n ++
                      le64 RG_LIMIT_EXACT ++ rg.r.flatMap le64 ++
                      rg.g.flatMap le64 ++ le32 a.db.length).length =
                      4 + 4 + 4 + 4 + 8 + 8 * PIXELS + 8 * PIXELS + 4 := by
                    simp only [List.length_append, length_flatMap_le64,
                      hrl, hgl]
                    simp [MAGIC, le32, le64, leBytes_length]
                  have hEnt := readEntries_take_eof [] a.db B
                    (MAGIC ++ le32 W ++ le32 H ++ le32 n ++
                      le64 RG_LIMIT_EXACT ++ rg.r.flatMap le64 ++
                      rg.g.flatMap le64 ++ le32 a.db.length) [] k
                    (by rw [hBdef]; simp)
                    (fun e he => (hdbe e he).2.2.1)
                    (by rw [hpreLen]; omega)
                    (by rw [hpreLen]; omega)
                    hkB
                  rw [hpreLen] at hEnt
                  rw [hEnt]

/-- Claim C5: `raw_unpack` rejects with a format error — and no other
outcome — a buffer shorter than the magic tag, a wrong magic tag, a width or
height field different from 512, a limit field different from 2^59, and a
truncated buffer: a buffer with valid magic cut inside the header, a buffer
with a valid header truncated below the fixed-size portion of the container,
and a real container (any packable state) cut short at any point, including
inside the marker-entry region; the header rejections hold for every
possible remainder of the buffer, i.e. before any plane or marker data is
examined. -/
theorem claim_C5 :
    (∀ raw : List Nat, raw.length < 4 →
      raw_unpack raw = .error Err.rawTooSmall) ∧
    (∀ raw : List Nat, 4 ≤ raw.length → raw.take 4 ≠ MAGIC →
      raw_unpack raw = .error Err.badMagic) ∧
    (∀ w h n lim : Nat, ∀ rest : List Nat, w < 2 ^ 32 → h < 2 ^ 32 →
      n < 2 ^ 32 → lim < 2 ^ 64 → (w ≠ W ∨ h ≠ H) →
      raw_unpack (MAGIC ++ (le32 w ++ (le32 h ++ (le32 n ++ (le64 lim ++ rest))))) =
        .error (Err.badDims w h)) ∧
    (∀ n lim : Nat, ∀ rest : List Nat, n < 2 ^ 32 → lim < 2 ^ 64 →
      lim ≠ RG_LIMIT_EXACT →
      raw_unpack (MAGIC ++ (le32 W ++ (le32 H ++ (le32 n ++ (le64 lim ++ rest))))) =
        .error Err.rgLimitMismatch) ∧
    (∀ n : Nat, ∀ rest : List Nat, n < 2 ^ 32 → rest.length < 16 * PIXELS + 4 →
      raw_unpack (MAGIC ++ (le32 W ++ (le32 H ++ (le32 n ++
          (le64 RG_LIMIT_EXACT ++ rest))))) = .error Err.unexpectedEof) ∧
    (∀ raw : List Nat, 4 ≤ raw.length → raw.length < 24 → raw.take 4 = MAGIC →
      raw_unpack raw = .error Err.unexpectedEof) ∧
    (∀ (rg : RGCanvas) (a : ABitset) (n : Nat), PackWF rg a n →
      ∀ k, k < (raw_pack rg a n).length →
        raw_unpack ((raw_pack rg a n).take k) =
          if k < 4 then .error Err.rawTooSmall
          else .error Err.unexpectedEof) := by
  refine ⟨?_, ?_, ?_, ?_, ?_, raw_unpack_header_trunc, raw_unpack_take_trunc⟩
  · intro raw hlen
    rw [raw_unpack, if_pos hlen]
  · intro raw hlen hmag
    rw [raw_unpack, if_neg (by omega), if_pos hmag]
  · intro w h n lim rest hw hh hn hl hcond
    rw [raw_unpack_header w h n lim rest hw hh hn hl, if_pos hcond]
  · intro n lim rest hn hl hcond
    rw [raw_unpack_header W H n lim rest (by norm_num [W]) (by norm_num [H]) hn hl]
    rw [if_neg (by simp), if_pos hcond]
  · intro n rest hn hlen
    have hlim : RG_LIMIT_EXACT < 2 ^ 64 := by
      rw [RG_LIMIT_EXACT, Nat.one_shiftLeft]
      norm_num
    rw [raw_unpack_header W H n RG_LIMIT_EXACT rest (by norm_num [W])
      (by norm_num [H]) hn hlim]
    rw [if_neg (by simp), if_neg (by simp)]
    set B := MAGIC ++ (le32 W ++ (le32 H ++ (le32 n ++
      (le64 RG_LIMIT_EXACT ++ rest)))) with hBdef
    have hBlen : B.length = 24 + rest.length := by
      rw [hBdef]
      simp only [List.length_append, MAGIC, List.length_cons, List.length_nil,
        le32, le64, leBytes_length]
      omega
    have hpix : 0 < PIXELS := by norm_num [PIXELS, W, H]
    by_cases hc1 : rest.length < 8 * PIXELS
    · rw [readPlane_eof (by omega) hpix]
    · obtain ⟨vs1, hvs1⟩ :=
        @readPlane_ok_len B (4 + 4 + 4 + 4 + 8) PIXELS (by omega)
      rw [hvs1]
      simp only
      by_cases hc2 : rest.length < 16 * PIXELS
      · rw [readPlane_eof (by omega) hpix]
      · obtain ⟨vs2, hvs2⟩ :=
          @readPlane_ok_len B (4 + 4 + 4 + 4 + 8 + 8 * PIXELS) PIXELS
            (by omega)
        rw [hvs2]
        simp only
        rw [read_u32, if_pos (by omega)]

/-! ### The encoder's closed form -/

/-- The lane of a step. -/
def laneOf (step : Nat) : Nat := (lane_k step).1

/-- The weight of a step. -/
def wt (step : Nat) : Nat := (lane_k step).2

/-- The cell a step of a given payload maps to. -/
def cellOf (p : List Nat) (step : Nat) : Nat :=
  pidx_of (p.getD (step - 1) 0) (step &&& 511)

/-- Total weight the encoder subtracts from lane `lane` of cell `c` over
steps `1..s`. -/
def wsum (p : List Nat) (c lane : Nat) : Nat → Nat
  | 0 => 0
  | s + 1 => (if laneOf (s + 1) = lane ∧ cellOf p (s + 1) = c then wt (s + 1) else 0)
      + wsum p c lane s

theorem wsum_le_succ (p : List Nat) (c lane s : Nat) :
    wsum p c lane s ≤ wsum p c lane (s + 1) := by
  rw [wsum]
  omega

theorem wsum_mono (p : List Nat) (c lane : Nat) {s t : Nat} (h : s ≤ t) :
    wsum p c lane s ≤ wsum p c lane t := by
  induction t with
  | zero =>
    have hs0 : s = 0 := by omega
    subst hs0
    exact le_rfl
  | succ t ih =>
    rcases Nat.lt_or_ge s (t + 1) with hlt | hge
    · exact le_trans (ih (by omega)) (wsum_le_succ p c lane t)
    · have : s = t + 1 := by omega
      subst this
      exact le_rfl

theorem wsum_eq_sum (p : List Nat) (c lane s : Nat) :
    wsum p c lane s = ∑ t ∈ Finset.Icc 1 s,
      (if laneOf t = lane ∧ cellOf p t = c then wt t else 0) := by
  induction s with
  | zero => simp [wsum]
  | succ s ih =>
    rw [wsum, ih, Finset.sum_Icc_succ_top (by omega)]
    omega

theorem wt_le (step : Nat) : wt step ≤ (step + 1) / 2 := by
  rw [wt, lane_k]
  by_cases h : step &&& 1 = 1
  · rw [if_pos h]
    simp only [Nat.shiftRight_eq_div_pow, pow_one]
    exact Nat.div_le_div_right (Nat.mod_le _ _)
  · rw [if_neg h]
    simp only [Nat.shiftRight_eq_div_pow, pow_one]
    omega

theorem getD_mem_or_eq (p : List Nat) (i d : Nat) :
    p.getD i d ∈ p ∨ p.getD i d = d := by
  rw [List.getD_eq_getElem?_getD]
  cases hq : p[i]? with
  | none => simp
  | some v =>
    left
    simp only [Option.getD_some]
    exact List.getElem?_mem hq

theorem cellOf_mod (p : List Nat) (step c : Nat)
    (hb : ∀ b ∈ p, b < 256) (hc : cellOf p step = c) : step % 512 = c >>> 9 := by
  rw [cellOf, pidx_of, and_511] at hc
  have hx : p.getD (step - 1) 0 < 512 := by
    rcases getD_mem_or_eq p (step - 1) 0 with hm | hz
    · have := hb _ hm
      omega
    · omega
  subst hc
  rw [Nat.shiftRight_eq_div_pow, Nat.shiftLeft_eq]
  have h512 : (2 : Nat) ^ 9 = 512 := by norm_num
  rw [h512]
  omega

/-- Steps of `1..n` mapping to one cell lie on one residue class mod 512, so
at most `n / 512 + 1` of them exist, each of weight at most `(n + 1) / 2`;
for `n < 2^32` the total weight at one cell in one lane is under `2^54`. -/
theorem wsum_bound (p : List Nat) (c lane n : Nat) (hb : ∀ b ∈ p, b < 256)
    (hn : n < 2 ^ 32) : wsum p c lane n ≤ 2 ^ 54 := by
  rw [wsum_eq_sum]
  have hsub : ∀ t ∈ Finset.Icc 1 n,
      (if laneOf t = lane ∧ cellOf p t = c then wt t else 0) ≤
        (if t % 512 = c >>> 9 then (n + 1) / 2 else 0) := by
    intro t ht
    by_cases hcase : laneOf t = lane ∧ cellOf p t = c
    · rw [if_pos hcase, if_pos (cellOf_mod p t c hb hcase.2)]
      calc wt t ≤ (t + 1) / 2 := wt_le t
        _ ≤ (n + 1) / 2 := by
            have := (Finset.mem_Icc.1 ht).2
            omega
    · rw [if_neg hcase]
      omega
  calc ∑ t ∈ Finset.Icc 1 n, (if laneOf t = lane ∧ cellOf p t = c then wt t else 0)
      ≤ ∑ t ∈ Finset.Icc 1 n, (if t % 512 = c >>> 9 then (n + 1) / 2 else 0) :=
        Finset.sum_le_sum hsub
    _ = ∑ t ∈ (Finset.Icc 1 n).filter (fun t => t % 512 = c >>> 9), (n + 1) / 2 := by
        rw [Finset.sum_filter]
    _ ≤ ((Finset.Icc 1 n).filter (fun t => t % 512 = c >>> 9)).card * ((n + 1) / 2) := by
        rw [Finset.sum_const, smul_eq_mul]
    _ ≤ (n / 512 + 1) * ((n + 1) / 2) := by
        apply Nat.mul_le_mul_right
        have hinj : ∀ x ∈ (Finset.Icc 1 n).filter (fun t => t % 512 = c >>> 9),
            x / 512 ∈ Finset.range (n / 512 + 1) := by
          intro x hx
          rw [Finset.mem_filter, Finset.mem_Icc] at hx
          rw [Finset.mem_range]
          have hdd : x / 512 ≤ n / 512 := Nat.div_le_div_right hx.1.2
          omega
        have hcard := Finset.card_le_card_of_injOn (fun x => x / 512) hinj ?inj
        · rw [Finset.card_range] at hcard
          exact hcard
        case inj =>
          intro x hx y hy hxy
          rw [Finset.coe_filter, Set.mem_setOf_eq, Finset.mem_Icc] at hx hy
          have hmod : x % 512 = y % 512 := hx.2.trans hy.2.symm
          have hdiv : x / 512 = y / 512 := hxy
          have := Nat.div_add_mod x 512
          have := Nat.div_add_mod y 512
          omega
    _ ≤ 2 ^ 23 * 2 ^ 31 := by
        apply Nat.mul_le_mul
        · have h23 : (2 : Nat) ^ 23 = 8388608 := by norm_num
          rw [h23]
          omega
        · have h31 : (2 : Nat) ^ 31 = 2147483648 := by norm_num
          rw [h31]
          omega
    _ ≤ 2 ^ 54 := by norm_num

theorem getD_set_self {l : List Nat} {i : Nat} (v : Nat) (h : i < l.length) :
    (l.set i v).getD i 0 = v := by
  rw [List.getD_eq_getElem?_getD, List.getElem?_set_self h]
  rfl

theorem getD_set_ne (l : List Nat) {i j : Nat} (v : Nat) (h : j ≠ i) :
    (l.set i v).getD j 0 = l.getD j 0 := by
  rw [List.getD_eq_getElem?_getD, List.getElem?_set_ne (Ne.symm h),
    ← List.getD_eq_getElem?_getD]

theorem getD_replicate_self {m i : Nat} (v : Nat) (h : i < m) :
    (List.replicate m v).getD i 0 = v := by
  rw [List.getD_eq_getElem?_getD, List.getElem?_replicate, if_pos h]
  rfl

theorem cellOf_lt (p : List Nat) (step : Nat) (hb : ∀ b ∈ p, b < 256) :
    cellOf p step < PIXELS := by
  rw [cellOf, pidx_of, and_511, Nat.shiftLeft_eq]
  have hx : p.getD (step - 1) 0 < 256 := by
    rcases getD_mem_or_eq p (step - 1) 0 with hm | hz
    · exact hb _ hm
    · omega
  have hy : step % 512 < 512 := by omega
  have h29 : (2 : Nat) ^ 9 = 512 := by norm_num
  rw [h29]
  show step % 512 * 512 + p.getD (step - 1) 0 < PIXELS
  have : PIXELS = 262144 := by norm_num [PIXELS, W, H]
  omega

/-- Invariant of the encode loop once the steps in `(s, n]` have been
processed: each plane cell holds `LIMIT` minus the weight already subtracted
there, and the marker set holds exactly the bits of the processed steps. -/
def EncInv (p : List Nat) (n s : Nat) (rg : RGCanvas) (a : ABitset) : Prop :=
  rg.r.length = PIXELS ∧ rg.g.length = PIXELS ∧
    (∀ c, c < PIXELS → rg.r.getD c 0 =
      RG_LIMIT_EXACT - (wsum p c 0 n - wsum p c 0 s)) ∧
    (∀ c, c < PIXELS → rg.g.getD c 0 =
      RG_LIMIT_EXACT - (wsum p c 1 n - wsum p c 1 s)) ∧
    (∀ c t, getBit a c t = decide (s < t ∧ t ≤ n ∧ cellOf p t = c)) ∧
    WF a ∧ MaskBounded a

theorem laneOf_cases (step : Nat) :
    (lane_k step).1 = 0 ∧ laneOf step = 0 ∨
      (lane_k step).1 = 1 ∧ laneOf step = 1 := by
  rw [laneOf, lane_k]
  by_cases h : step &&& 1 = 1
  · left
    rw [and_1] at h
    simp [h]
  · right
    rw [and_1] at h
    simp [h]

theorem encodeLoop_char (p : List Nat) (n : Nat) (hb : ∀ b ∈ p, b < 256)
    (hn : n < 2 ^ 32) :
    ∀ s rg a, s ≤ n → EncInv p n s rg a →
      ∃ rg' a', encodeLoop p s rg a = .ok (rg', a') ∧ EncInv p n 0 rg' a' := by
  intro s
  induction s with
  | zero =>
    intro rg a _ hinv
    exact ⟨rg, a, rfl, hinv⟩
  | succ s ih =>
    intro rg a hle hinv
    obtain ⟨hrl, hgl, hr, hg, hbit, hwf, hmb⟩ := hinv
    have hcell : pidx_of (p.getD (s + 1 - 1) 0) ((s + 1) &&& 511) =
        cellOf p (s + 1) := rfl
    have hpix : cellOf p (s + 1) < PIXELS := cellOf_lt p (s + 1) hb
    have hwn : wsum p (cellOf p (s + 1)) (laneOf (s + 1)) n ≤ 2 ^ 54 :=
      wsum_bound p _ _ n hb hn
    have hstep : wsum p (cellOf p (s + 1)) (laneOf (s + 1)) (s + 1) =
        wt (s + 1) + wsum p (cellOf p (s + 1)) (laneOf (s + 1)) s := by
      rw [wsum, if_pos ⟨rfl, rfl⟩]
    have hmono : wsum p (cellOf p (s + 1)) (laneOf (s + 1)) (s + 1) ≤
        wsum p (cellOf p (s + 1)) (laneOf (s + 1)) n := wsum_mono p _ _ hle
    have hlim : (2 : Nat) ^ 54 < RG_LIMIT_EXACT := by
      rw [RG_LIMIT_EXACT, Nat.one_shiftLeft]
      norm_num
    -- the new marker set
    have hbit1 : ∀ c t, getBit (a.set_step (cellOf p (s + 1)) (s + 1)) c t =
        decide (s < t ∧ t ≤ n ∧ cellOf p t = c) := by
      intro c t
      rw [getBit_set_step, hbit, Bool.eq_iff_iff]
      simp only [Bool.or_eq_true, Bool.and_eq_true, decide_eq_true_eq]
      constructor
      · rintro (⟨h1, h2, h3⟩ | ⟨h1, h2⟩)
        · exact ⟨by omega, h2, h3⟩
        · subst h2
          exact ⟨by omega, hle, h1.symm⟩
      · rintro ⟨h1, h2, h3⟩
        by_cases hts : t = s + 1
        · subst hts
          exact Or.inr ⟨h3.symm, rfl⟩
        · exact Or.inl ⟨by omega, h2, h3⟩
    have hwf1 : WF (a.set_step (cellOf p (s + 1)) (s + 1)) := wf_set_step hwf _ _
    have hmb1 : MaskBounded (a.set_step (cellOf p (s + 1)) (s + 1)) :=
      maskBounded_set_step hmb _ _
    rcases laneOf_cases (s + 1) with ⟨hl0, hlane⟩ | ⟨hl1, hlane⟩
    · -- lane R
      have hwn0 : wsum p (cellOf p (s + 1)) 0 n ≤ 2 ^ 54 := by
        have hx := hwn
        rw [hlane] at hx
        exact hx
      have hstep0 : wsum p (cellOf p (s + 1)) 0 (s + 1) =
          wt (s + 1) + wsum p (cellOf p (s + 1)) 0 s := by
        have hx := hstep
        rw [hlane] at hx
        exact hx
      have hmono0 : wsum p (cellOf p (s + 1)) 0 (s + 1) ≤
          wsum p (cellOf p (s + 1)) 0 n := by
        have hx := hmono
        rw [hlane] at hx
        exact hx
      have hv : rg.r.getD (cellOf p (s + 1)) 0 =
          RG_LIMIT_EXACT - (wsum p (cellOf p (s + 1)) 0 n -
            wsum p (cellOf p (s + 1)) 0 (s + 1)) := hr _ hpix
      have hk : (lane_k (s + 1)).2 = wt (s + 1) := rfl
      have hnolt : ¬ (rg.r.getD (cellOf p (s + 1)) 0 < (lane_k (s + 1)).2) := by
        rw [hv, hk]
        omega
      rw [encodeLoop]
      simp only [hcell, hl0, if_pos rfl, if_neg hnolt]
      apply ih
      · omega
      refine ⟨by rw [List.length_set, hrl], hgl, ?_, ?_, hbit1, hwf1, hmb1⟩
      · intro c hc
        by_cases hcc : c = cellOf p (s + 1)
        · rw [hcc, getD_set_self _ (by rw [hrl]; exact hpix), hv, hk]
          omega
        · rw [getD_set_ne _ _ hcc, hr _ hc]
          have heq : wsum p c 0 (s + 1) = wsum p c 0 s := by
            rw [wsum, if_neg]
            · omega
            · rw [hlane]
              intro hx
              exact hcc hx.2.symm
          rw [heq]
      · intro c hc
        rw [hg _ hc]
        have heq : wsum p c 1 (s + 1) = wsum p c 1 s := by
          rw [wsum, if_neg]
          · omega
          · rw [hlane]
            intro hx
            exact absurd hx.1 (by omega)
        rw [heq]
    · -- lane G
      have hwn1 : wsum p (cellOf p (s + 1)) 1 n ≤ 2 ^ 54 := by
        have hx := hwn
        rw [hlane] at hx
        exact hx
      have hstep1 : wsum p (cellOf p (s + 1)) 1 (s + 1) =
          wt (s + 1) + wsum p (cellOf p (s + 1)) 1 s := by
        have hx := hstep
        rw [hlane] at hx
        exact hx
      have hmono1 : wsum p (cellOf p (s + 1)) 1 (s + 1) ≤
          wsum p (cellOf p (s + 1)) 1 n := by
        have hx := hmono
        rw [hlane] at hx
        exact hx
      have hv : rg.g.getD (cellOf p (s + 1)) 0 =
          RG_LIMIT_EXACT - (wsum p (cellOf p (s + 1)) 1 n -
            wsum p (cellOf p (s + 1)) 1 (s + 1)) := hg _ hpix
      have hk : (lane_k (s + 1)).2 = wt (s + 1) := rfl
      have hnolt : ¬ (rg.g.getD (cellOf p (s + 1)) 0 < (lane_k (s + 1)).2) := by
        rw [hv, hk]
        omega
      rw [encodeLoop]
      simp only [hcell, hl1, if_neg (by omega : ¬ (1 : Nat) = 0), if_neg hnolt]
      apply ih
      · omega
      refine ⟨hrl, by rw [List.length_set, hgl], ?_, ?_, hbit1, hwf1, hmb1⟩
      · intro c hc
        rw [hr _ hc]
        have heq : wsum p c 0 (s + 1) = wsum p c 0 s := by
          rw [wsum, if_neg]
          · omega
          · rw [hlane]
            intro hx
            exact absurd hx.1 (by omega)
        rw [heq]
      · intro c hc
        by_cases hcc : c = cellOf p (s + 1)
        · rw [hcc, getD_set_self _ (by rw [hgl]; exact hpix), hv, hk]
          omega
        · rw [getD_set_ne _ _ hcc, hg _ hc]
          have heq : wsum p c 1 (s + 1) = wsum p c 1 s := by
            rw [wsum, if_neg]
            · omega
            · rw [hlane]
              intro hx
              exact hcc hx.2.symm
          rw [heq]

theorem encodeState_char (p : List Nat) (hb : ∀ b ∈ p, b < 256)
    (hne : p ≠ []) (hlen : p.length < 2 ^ 32) :
    ∃ rg a, encodeState p = .ok (rg, a, p.length) ∧ EncInv p p.length 0 rg a := by
  have hn : p.length % 2 ^ 32 = p.length := Nat.mod_eq_of_lt hlen
  have hn0 : p.length ≠ 0 := fun h => hne (List.eq_nil_of_length_eq_zero h)
  have hinit : EncInv p p.length p.length (RGCanvas.new true) ABitset.new := by
    refine ⟨?_, ?_, ?_, ?_, ?_, ?_, ?_⟩
    · rw [show (RGCanvas.new true).r = List.replicate PIXELS RG_LIMIT_EXACT from rfl,
        List.length_replicate]
    · rw [show (RGCanvas.new true).g = List.replicate PIXELS RG_LIMIT_EXACT from rfl,
        List.length_replicate]
    · intro c hc
      rw [show (RGCanvas.new true).r = List.replicate PIXELS RG_LIMIT_EXACT from rfl,
        getD_replicate_self _ hc]
      omega
    · intro c hc
      rw [show (RGCanvas.new true).g = List.replicate PIXELS RG_LIMIT_EXACT from rfl,
        getD_replicate_self _ hc]
      omega
    · intro c t
      rw [getBit_new]
      symm
      rw [decide_eq_false_iff_not]
      rintro ⟨h1, h2, _⟩
      omega
    · refine ⟨?_, ?_, ?_, ?_⟩ <;> simp [ABitset.new, NodupKeys, alKeys]
    · simp [ABitset.new, MaskBounded]
  obtain ⟨rg', a', hloop, hinv⟩ := encodeLoop_char p p.length hb hlen p.length
    (RGCanvas.new true) ABitset.new le_rfl hinit
  refine ⟨rg', a', ?_, hinv⟩
  rw [encodeState]
  simp only [hn]
  rw [if_neg hn0, hloop]

theorem encodeLoop_error (p : List Nat) :
    ∀ s rg a e, encodeLoop p s rg a = .error e →
      e = Err.rUnderflowEncode ∨ e = Err.gUnderflowEncode := by
  intro s
  induction s with
  | zero =>
    intro rg a e h
    simp [encodeLoop] at h
  | succ s ih =>
    intro rg a e h
    rw [encodeLoop] at h
    simp only at h
    split_ifs at h with h1 h2 h3
    · left
      have := h
      simp only [Except.error.injEq] at this
      exact this.symm
    · exact ih _ _ _ h
    · right
      have := h
      simp only [Except.error.injEq] at this
      exact this.symm
    · exact ih _ _ _ h

/-- Claim C2: for every non-empty byte payload (of u32-sized length), the
encoder succeeds, and the in-memory state it serializes satisfies the
postcondition: each plane cell holds `LIMIT` minus the total weight of the
steps of that lane's parity that mapped to that cell, and the marker set
holds exactly one bit per step of `[1, N]`, at the cell the step maps to
(and no other bit). -/
theorem claim_C2 (p : List Nat) (hb : ∀ b ∈ p, b < 256) (hne : p ≠ [])
    (hlen : p.length < 2 ^ 32) :
    ∃ rg a, encode_erase p = .ok (raw_pack rg a p.length) ∧
      (∀ c, c < PIXELS → rg.r.getD c 0 = RG_LIMIT_EXACT - wsum p c 0 p.length) ∧
      (∀ c, c < PIXELS → rg.g.getD c 0 = RG_LIMIT_EXACT - wsum p c 1 p.length) ∧
      (∀ c t, getBit a c t =
        decide (1 ≤ t ∧ t ≤ p.length ∧ cellOf p t = c)) := by
  obtain ⟨rg, a, hok, hrl, hgl, hr, hg, hbit, hwf, hmb⟩ :=
    encodeState_char p hb hne hlen
  refine ⟨rg, a, ?_, ?_, ?_, ?_⟩
  · rw [encode_erase, hok]
  · intro c hc
    rw [hr c hc]
    rw [show wsum p c 0 0 = 0 from rfl]
    omega
  · intro c hc
    rw [hg c hc]
    rw [show wsum p c 1 0 = 0 from rfl]
    omega
  · intro c t
    rw [hbit c t]
    apply decide_eq_decide.2
    omega

theorem claim_C2_witness :
    ∃ rg a, encode_erase [3] = .ok (raw_pack rg a (List.length [3])) ∧
      (∀ c, c < PIXELS →
        rg.r.getD c 0 = RG_LIMIT_EXACT - wsum [3] c 0 (List.length [3])) ∧
      (∀ c, c < PIXELS →
        rg.g.getD c 0 = RG_LIMIT_EXACT - wsum [3] c 1 (List.length [3])) ∧
      (∀ c t, getBit a c t =
        decide (1 ≤ t ∧ t ≤ List.length [3] ∧ cellOf [3] t = c)) :=
  claim_C2 [3] (by decide) (by decide) (by decide)

/-- Claim C9: for every byte payload whose length fits the u32 step counter,
the two underflow branches of the encoder are unreachable: `encode_erase`
never returns the R‑ or G‑underflow error (the weight ever subtracted from
one cell of one lane is at most 2^54 < 2^59). -/
theorem claim_C9 (p : List Nat) (hb : ∀ b ∈ p, b < 256)
    (hlen : p.length < 2 ^ 32) :
    encode_erase p ≠ .error Err.rUnderflowEncode ∧
      encode_erase p ≠ .error Err.gUnderflowEncode := by
  by_cases hne : p = []
  · subst hne
    constructor <;> intro h <;> exact Err.noConfusion (Except.error.inj h)
  · obtain ⟨rg, a, hok, _⟩ := encodeState_char p hb hne hlen
    rw [encode_erase, hok]
    constructor <;> intro h <;> exact Except.noConfusion h

theorem claim_C9_witness :
    encode_erase [5] ≠ .error Err.rUnderflowEncode ∧
      encode_erase [5] ≠ .error Err.gUnderflowEncode :=
  claim_C9 [5] (by decide) (by decide)

/-- Claim C7 as stated is false at a non-empty payload of length 2^32: the
step counter is the length cast to u32, which wraps to 0, so `encode_erase`
fails with the empty-payload error on this non-empty input. -/
theorem claim_C7_counterexample :
    List.replicate (2 ^ 32) 0 ≠ ([] : List Nat) ∧
      encode_erase (List.replicate (2 ^ 32) 0) = .error Err.emptyPayload := by
  constructor
  · intro h
    have := congrArg List.length h
    rw [List.length_replicate] at this
    norm_num at this
  · rw [encode_erase, encodeState]
    simp only [List.length_replicate]
    norm_num

/-- Claim C7 (amended): encoding the empty payload fails with the
empty-payload error, and for every non-empty payload whose length is not a
multiple of 2^32 (so that the u32 cast of the length is nonzero) the
empty-payload error does not occur. -/
theorem claim_C7 :
    encode_erase [] = .error Err.emptyPayload ∧
      (∀ p : List Nat, p ≠ [] → p.length % 2 ^ 32 ≠ 0 →
        encode_erase p ≠ .error Err.emptyPayload) := by
  constructor
  · rfl
  · intro p hne h0
    rw [encode_erase, encodeState]
    rw [if_neg h0]
    cases hloop : encodeLoop p (p.length % 2 ^ 32) (RGCanvas.new true) ABitset.new with
    | error e =>
      intro h
      have he : e = Err.emptyPayload := by
        have := h
        simp only [Except.error.injEq] at this
        exact this
      rcases encodeLoop_error p _ _ _ e hloop with h1 | h1 <;>
        rw [h1] at he <;> exact Err.noConfusion he
    | ok st =>
      intro h
      exact Except.noConfusion h

/-! ### The step-index builder (claim C3) -/

/-- A mask `m` whose bits start at step `base` encodes step `s`. -/
def maskHasStep (base m s : Nat) : Prop :=
  base ≤ s ∧ m.testBit (s - base) = true

instance (base m s : Nat) : Decidable (maskHasStep base m s) := by
  unfold maskHasStep
  infer_instance

/-- Some page of the page list `ps` encodes step `s` (with the page base
computed on u32, as in the source). -/
def pagesHasStep (ps : List (Nat × Nat)) (s : Nat) : Prop :=
  ∃ pm ∈ ps, maskHasStep ((pm.1 <<< 6) % 2 ^ 32) pm.2 s

instance (ps : List (Nat × Nat)) (s : Nat) : Decidable (pagesHasStep ps s) := by
  unfold pagesHasStep
  infer_instance

/-- Some cell of the marker database encodes step `s`. -/
def dbHasStep (db : List (Nat × List (Nat × Nat))) (s : Nat) : Prop :=
  ∃ e ∈ db, pagesHasStep e.2 s

instance (db : List (Nat × List (Nat × Nat))) (s : Nat) :
    Decidable (dbHasStep db s) := by
  unfold dbHasStep
  infer_instance

theorem maskHasStep_zero (base s : Nat) : ¬ maskHasStep base 0 s := by
  rintro ⟨-, htb⟩
  rw [Nat.zero_testBit] at htb
  exact Bool.noConfusion htb

theorem maskHasStep_self {m : Nat} (h0 : m ≠ 0) (base : Nat) :
    maskHasStep base m (base + ctz m) :=
  ⟨Nat.le_add_right base (ctz m), by
    rw [Nat.add_sub_cancel_left]
    exact ctz_testBit_self h0⟩

theorem maskHasStep_split {m : Nat} (h0 : m ≠ 0) (base s : Nat) :
    maskHasStep base m s ↔
      maskHasStep base (m &&& (m - 1)) s ∨ s = base + ctz m := by
  constructor
  · rintro ⟨hle, htb⟩
    by_cases hc : s - base = ctz m
    · right
      omega
    · left
      exact ⟨hle, by rw [and_pred_testBit h0, htb]; simp [hc]⟩
  · rintro (⟨hle, htb⟩ | rfl)
    · rw [and_pred_testBit h0] at htb
      simp only [Bool.and_eq_true] at htb
      exact ⟨hle, htb.1⟩
    · exact maskHasStep_self h0 base

theorem maskHasStep_of_and_pred {m : Nat} (h0 : m ≠ 0) {base s : Nat}
    (h : maskHasStep base (m &&& (m - 1)) s) :
    maskHasStep base m s ∧ s ≠ base + ctz m := by
  obtain ⟨hle, htb⟩ := h
  rw [and_pred_testBit h0] at htb
  simp only [Bool.and_eq_true, decide_eq_true_eq] at htb
  obtain ⟨h1, h2⟩ := htb
  exact ⟨⟨hle, h1⟩, fun hs => h2 (by omega)⟩

theorem maskHasStep_and_pred_iff {m : Nat} (h0 : m ≠ 0) {base s : Nat}
    (hse : s ≠ base + ctz m) :
    maskHasStep base (m &&& (m - 1)) s ↔ maskHasStep base m s := by
  constructor
  · intro h
    exact (maskHasStep_of_and_pred h0 h).1
  · intro h
    rcases (maskHasStep_split h0 base s).mp h with h3 | h3
    · exact h3
    · exact absurd h3 hse

/-- A step encoded by a u64 mask stored at page `pg` lies on page `pg`. -/
theorem maskHasStep_page {pg m s : Nat} (hm : m < 2 ^ 64)
    (h : maskHasStep (pg <<< 6) m s) : s >>> 6 = pg := by
  obtain ⟨hle, htb⟩ := h
  have hlt : s - pg <<< 6 < 64 := by
    by_contra hge
    rw [testBit_ge_64 hm (by omega)] at htb
    exact Bool.noConfusion htb
  have h6 : pg <<< 6 = 64 * pg := by
    rw [Nat.shiftLeft_eq]
    ring
  rw [shiftRight_six]
  omega

/-- Characterization of the inner (`while m != 0`) loop when no bit of the
mask collides with an already-seen step: it succeeds, marks exactly the
in-range steps the mask encodes, and records `pidx` for them. -/
theorem scanMask_ok (n pidx base : Nat) :
    ∀ m, ∀ stp seen : List Nat, stp.length = n + 1 → seen.length = n + 1 →
      (∀ s, 1 ≤ s → s ≤ n → maskHasStep base m s → seen.getD s 0 = 0) →
      ∃ stp' seen', scanMask n pidx base stp seen m = .ok (stp', seen') ∧
        stp'.length = n + 1 ∧ seen'.length = n + 1 ∧
        (∀ s, s ≤ n →
          (seen'.getD s 0 ≠ 0 ↔
            seen.getD s 0 ≠ 0 ∨ (1 ≤ s ∧ maskHasStep base m s))) ∧
        (∀ s, s ≤ n → stp'.getD s 0 =
          if 1 ≤ s ∧ maskHasStep base m s then pidx else stp.getD s 0) := by
  intro m
  induction m using Nat.strong_induction_on with
  | _ m ih =>
  intro stp seen hstp hseen hnc
  by_cases h0 : m = 0
  · subst h0
    rw [scanMask, if_pos rfl]
    refine ⟨stp, seen, rfl, hstp, hseen, ?_, ?_⟩
    · intro s hs
      have := maskHasStep_zero base s
      tauto
    · intro s hs
      rw [if_neg (by rintro ⟨-, h⟩; exact maskHasStep_zero base s h)]
  · have hlt : m &&& (m - 1) < m := by
      have h1 : m &&& (m - 1) ≤ m - 1 := Nat.and_le_right
      omega
    rw [scanMask, if_neg h0]
    by_cases hr : 1 ≤ base + ctz m ∧ base + ctz m ≤ n
    · rw [if_pos hr]
      have hsc : ¬ seen.getD (base + ctz m) 0 ≠ 0 :=
        fun hx => hx (hnc _ hr.1 hr.2 (maskHasStep_self h0 base))
      rw [if_neg hsc]
      obtain ⟨stp', seen', heq, hl1, hl2, hseen', hstp'⟩ :=
        ih (m &&& (m - 1)) hlt (stp.set (base + ctz m) pidx)
          (seen.set (base + ctz m) 1)
          (by rw [List.length_set]; exact hstp)
          (by rw [List.length_set]; exact hseen)
          (by
            intro s hs1 hsn hms
            obtain ⟨hms0, hsne⟩ := maskHasStep_of_and_pred h0 hms
            rw [getD_set_ne _ _ hsne]
            exact hnc s hs1 hsn hms0)
      refine ⟨stp', seen', heq, hl1, hl2, ?_, ?_⟩
      · intro s hs
        rw [hseen' s hs]
        by_cases hse : s = base + ctz m
        · subst hse
          have hset : (seen.set (base + ctz m) 1).getD (base + ctz m) 0 = 1 :=
            getD_set_self 1 (by rw [hseen]; omega)
          rw [hset]
          constructor
          · intro _
            exact Or.inr ⟨hr.1, maskHasStep_self h0 base⟩
          · intro _
            omega
        · simp only [maskHasStep_and_pred_iff h0 hse, getD_set_ne seen 1 hse]
      · intro s hs
        rw [hstp' s hs]
        by_cases hse : s = base + ctz m
        · subst hse
          have hcond : ¬ (1 ≤ base + ctz m ∧
              maskHasStep base (m &&& (m - 1)) (base + ctz m)) := by
            rintro ⟨-, h2⟩
            exact (maskHasStep_of_and_pred h0 h2).2 rfl
          rw [if_neg hcond, if_pos ⟨hr.1, maskHasStep_self h0 base⟩]
          exact getD_set_self pidx (by rw [hstp]; omega)
        · simp only [maskHasStep_and_pred_iff h0 hse, getD_set_ne stp pidx hse]
    · rw [if_neg hr]
      have hiff : ∀ s, s ≤ n →
          ((1 ≤ s ∧ maskHasStep base (m &&& (m - 1)) s) ↔
            (1 ≤ s ∧ maskHasStep base m s)) := by
        intro s hs
        constructor
        · rintro ⟨h1, h2⟩
          exact ⟨h1, (maskHasStep_of_and_pred h0 h2).1⟩
        · rintro ⟨h1, h2⟩
          rcases (maskHasStep_split h0 base s).mp h2 with h3 | h3
          · exact ⟨h1, h3⟩
          · exfalso
            apply hr
            constructor <;> omega
      obtain ⟨stp', seen', heq, hl1, hl2, hseen', hstp'⟩ :=
        ih (m &&& (m - 1)) hlt stp seen hstp hseen
          (fun s hs1 hsn hms => hnc s hs1 hsn (maskHasStep_of_and_pred h0 hms).1)
      refine ⟨stp', seen', heq, hl1, hl2, ?_, ?_⟩
      · intro s hs
        rw [hseen' s hs, hiff s hs]
      · intro s hs
        rw [hstp' s hs]
        simp only [hiff s hs]

/-- The inner loop fails with a step-collision error whenever the mask encodes
an in-range step that is already seen. -/
theorem scanMask_err (n pidx base : Nat) :
    ∀ m, ∀ stp seen : List Nat,
      (∃ s, 1 ≤ s ∧ s ≤ n ∧ maskHasStep base m s ∧ seen.getD s 0 ≠ 0) →
      ∃ s', scanMask n pidx base stp seen m = .error (.stepCollision s') := by
  intro m
  induction m using Nat.strong_induction_on with
  | _ m ih =>
  intro stp seen hcol
  obtain ⟨s, hs1, hsn, hms, hsv⟩ := hcol
  have h0 : m ≠ 0 := by
    rintro rfl
    exact maskHasStep_zero base s hms
  have hlt : m &&& (m - 1) < m := by
    have h1 : m &&& (m - 1) ≤ m - 1 := Nat.and_le_right
    omega
  rw [scanMask, if_neg h0]
  by_cases hr : 1 ≤ base + ctz m ∧ base + ctz m ≤ n
  · rw [if_pos hr]
    by_cases hsc : seen.getD (base + ctz m) 0 ≠ 0
    · rw [if_pos hsc]
      exact ⟨base + ctz m, rfl⟩
    · rw [if_neg hsc]
      have hsne : s ≠ base + ctz m := by
        intro h
        rw [h] at hsv
        exact hsc hsv
      apply ih (m &&& (m - 1)) hlt
      refine ⟨s, hs1, hsn, ?_, ?_⟩
      · rcases (maskHasStep_split h0 base s).mp hms with h3 | h3
        · exact h3
        · exact absurd h3 hsne
      · rw [getD_set_ne _ _ hsne]
        exact hsv
  · rw [if_neg hr]
    apply ih (m &&& (m - 1)) hlt
    refine ⟨s, hs1, hsn, ?_, hsv⟩
    rcases (maskHasStep_split h0 base s).mp hms with h3 | h3
    · exact h3
    · exfalso
      apply hr
      constructor <;> omega

/-- Characterization of the page loop of one cell when no encoded step
collides with an already-seen step and no step of `[1, n]` is encoded by two
different pages of the cell (with the u32 wrap on `page << 6`, distinct page
keys alone no longer guarantee that): it succeeds, marks exactly the in-range
steps the cell encodes, and records `pidx`. -/
theorem scanPages_ok (n pidx : Nat) :
    ∀ ps : List (Nat × Nat), NodupKeys ps →
      (∀ s, 1 ≤ s → s ≤ n → ∀ pm ∈ ps, ∀ pm' ∈ ps,
        maskHasStep ((pm.1 <<< 6) % 2 ^ 32) pm.2 s →
        maskHasStep ((pm'.1 <<< 6) % 2 ^ 32) pm'.2 s → pm = pm') →
      ∀ stp seen : List Nat, stp.length = n + 1 → seen.length = n + 1 →
      (∀ s, 1 ≤ s → s ≤ n → pagesHasStep ps s → seen.getD s 0 = 0) →
      ∃ stp' seen', scanPages n pidx ps stp seen = .ok (stp', seen') ∧
        stp'.length = n + 1 ∧ seen'.length = n + 1 ∧
        (∀ s, s ≤ n →
          (seen'.getD s 0 ≠ 0 ↔
            seen.getD s 0 ≠ 0 ∨ (1 ≤ s ∧ pagesHasStep ps s))) ∧
        (∀ s, s ≤ n → stp'.getD s 0 =
          if 1 ≤ s ∧ pagesHasStep ps s then pidx else stp.getD s 0) := by
  intro ps
  induction ps with
  | nil =>
    intro _ _ stp seen hstp hseen _
    refine ⟨stp, seen, rfl, hstp, hseen, ?_, ?_⟩
    · intro s hs
      simp [pagesHasStep]
    · intro s hs
      rw [if_neg (by rintro ⟨-, pm, hpm, -⟩; exact List.not_mem_nil pm hpm)]
  | cons pm rest ihp =>
    intro hnd huniq stp seen hstp hseen hnc
    obtain ⟨stp1, seen1, heq1, hl11, hl12, hseen1, hstp1⟩ :=
      scanMask_ok n pidx ((pm.1 <<< 6) % 2 ^ 32) pm.2 stp seen hstp hseen
        (fun s hs1 hsn hms =>
          hnc s hs1 hsn ⟨pm, List.mem_cons_self pm rest, hms⟩)
    have hkey : ∀ s, 1 ≤ s → s ≤ n → pagesHasStep rest s →
        maskHasStep ((pm.1 <<< 6) % 2 ^ 32) pm.2 s → False := by
      rintro s hs1 hsn ⟨pm', hpm', hms'⟩ hms
      have he : pm = pm' :=
        huniq s hs1 hsn pm (List.mem_cons_self pm rest) pm'
          (List.mem_cons_of_mem pm hpm') hms hms'
      rw [NodupKeys, alKeys_cons, List.nodup_cons] at hnd
      apply hnd.1
      rw [he]
      simp only [alKeys]
      exact List.mem_map_of_mem Prod.fst hpm'
    have hnd' : NodupKeys rest := by
      rw [NodupKeys, alKeys_cons, List.nodup_cons] at hnd
      exact hnd.2
    obtain ⟨stp', seen', heq2, hl1, hl2, hseen', hstp'⟩ :=
      ihp hnd'
        (fun s hs1 hsn q hq q' hq' h h' =>
          huniq s hs1 hsn q (List.mem_cons_of_mem pm hq) q'
            (List.mem_cons_of_mem pm hq') h h')
        stp1 seen1 hl11 hl12
        (by
          intro s hs1 hsn hps
          by_contra hne
          rcases (hseen1 s hsn).mp hne with h | h
          · obtain ⟨pm', hpm', hms'⟩ := hps
            exact h (hnc s hs1 hsn ⟨pm', List.mem_cons_of_mem pm hpm', hms'⟩)
          · exact hkey s hs1 hsn hps h.2)
    refine ⟨stp', seen', ?_, hl1, hl2, ?_, ?_⟩
    · rw [scanPages, heq1]
      exact heq2
    · intro s hs
      rw [hseen' s hs, hseen1 s hs]
      constructor
      · rintro ((h | h) | ⟨h1, pm', hpm', hms⟩)
        · exact Or.inl h
        · exact Or.inr ⟨h.1, pm, List.mem_cons_self pm rest, h.2⟩
        · exact Or.inr ⟨h1, pm', List.mem_cons_of_mem pm hpm', hms⟩
      · rintro (h | ⟨h1, pm', hpm', hms⟩)
        · exact Or.inl (Or.inl h)
        · rcases List.mem_cons.mp hpm' with rfl | hmem
          · exact Or.inl (Or.inr ⟨h1, hms⟩)
          · exact Or.inr ⟨h1, pm', hmem, hms⟩
    · intro s hs
      rw [hstp' s hs]
      by_cases hcr : 1 ≤ s ∧ pagesHasStep rest s
      · rw [if_pos hcr,
          if_pos ⟨hcr.1, hcr.2.choose, List.mem_cons_of_mem pm hcr.2.choose_spec.1,
            hcr.2.choose_spec.2⟩]
      · rw [if_neg hcr, hstp1 s hs]
        by_cases hcp : 1 ≤ s ∧ maskHasStep ((pm.1 <<< 6) % 2 ^ 32) pm.2 s
        · rw [if_pos hcp, if_pos ⟨hcp.1, pm, List.mem_cons_self pm rest, hcp.2⟩]
        · rw [if_neg hcp, if_neg ?_]
          rintro ⟨h1, pm', hpm', hms⟩
          rcases List.mem_cons.mp hpm' with rfl | hmem
          · exact hcp ⟨h1, hms⟩
          · exact hcr ⟨h1, pm', hmem, hms⟩

/-- The page loop fails with a step-collision error whenever the cell encodes
an in-range step that is already seen, or two pages of the cell (necessarily
with different keys) encode the same in-range step. -/
theorem scanPages_err (n pidx : Nat) :
    ∀ ps : List (Nat × Nat), ∀ stp seen : List Nat,
      stp.length = n + 1 → seen.length = n + 1 →
      (∃ s, 1 ≤ s ∧ s ≤ n ∧
        ((pagesHasStep ps s ∧ seen.getD s 0 ≠ 0) ∨
          (∃ pm ∈ ps, ∃ pm' ∈ ps, pm.1 ≠ pm'.1 ∧
            maskHasStep ((pm.1 <<< 6) % 2 ^ 32) pm.2 s ∧
            maskHasStep ((pm'.1 <<< 6) % 2 ^ 32) pm'.2 s))) →
      ∃ s', scanPages n pidx ps stp seen = .error (.stepCollision s') := by
  intro ps
  induction ps with
  | nil =>
    rintro stp seen - - ⟨s, -, -, (⟨⟨pm, hpm, -⟩, -⟩ | ⟨pm, hpm, -⟩)⟩ <;>
      exact absurd hpm (List.not_mem_nil pm)
  | cons pm rest ihp =>
    rintro stp seen hstp hseen ⟨s, hs1, hsn, hwit⟩
    by_cases hc : ∃ t, 1 ≤ t ∧ t ≤ n ∧
        maskHasStep ((pm.1 <<< 6) % 2 ^ 32) pm.2 t ∧ seen.getD t 0 ≠ 0
    · obtain ⟨s', herr⟩ :=
        scanMask_err n pidx ((pm.1 <<< 6) % 2 ^ 32) pm.2 stp seen hc
      exact ⟨s', by rw [scanPages, herr]⟩
    · push_neg at hc
      obtain ⟨stp1, seen1, heq1, hl11, hl12, hseen1, -⟩ :=
        scanMask_ok n pidx ((pm.1 <<< 6) % 2 ^ 32) pm.2 stp seen hstp hseen hc
      have hlift : seen.getD s 0 ≠ 0 → seen1.getD s 0 ≠ 0 :=
        fun hv => (hseen1 s hsn).mpr (Or.inl hv)
      have hhead : maskHasStep ((pm.1 <<< 6) % 2 ^ 32) pm.2 s →
          seen1.getD s 0 ≠ 0 :=
        fun hm => (hseen1 s hsn).mpr (Or.inr ⟨hs1, hm⟩)
      have hrest : (∃ t, 1 ≤ t ∧ t ≤ n ∧
          ((pagesHasStep rest t ∧ seen1.getD t 0 ≠ 0) ∨
            (∃ q ∈ rest, ∃ q' ∈ rest, q.1 ≠ q'.1 ∧
              maskHasStep ((q.1 <<< 6) % 2 ^ 32) q.2 t ∧
              maskHasStep ((q'.1 <<< 6) % 2 ^ 32) q'.2 t))) := by
        rcases hwit with ⟨⟨pm', hpm', hms⟩, hsv⟩ | ⟨q, hq, q', hq', hne, hm, hm'⟩
        · rcases List.mem_cons.mp hpm' with rfl | hmem
          · exact absurd (hc s hs1 hsn hms) hsv
          · exact ⟨s, hs1, hsn, Or.inl ⟨⟨pm', hmem, hms⟩, hlift hsv⟩⟩
        · rcases List.mem_cons.mp hq with rfl | hmem
          · rcases List.mem_cons.mp hq' with rfl | hmem'
            · exact absurd rfl hne
            · exact ⟨s, hs1, hsn, Or.inl ⟨⟨q', hmem', hm'⟩, hhead hm⟩⟩
          · rcases List.mem_cons.mp hq' with rfl | hmem'
            · exact ⟨s, hs1, hsn, Or.inl ⟨⟨q, hmem, hm⟩, hhead hm'⟩⟩
            · exact ⟨s, hs1, hsn, Or.inr ⟨q, hmem, q', hmem', hne, hm, hm'⟩⟩
      obtain ⟨s', herr⟩ := ihp stp1 seen1 hl11 hl12 hrest
      exact ⟨s', by rw [scanPages, heq1]; exact herr⟩

/-- In a key-nodup association list, two entries with the same key are the
same entry. -/
theorem eq_of_mem_of_nodupKeys {α : Type} :
    ∀ l : List (Nat × α), NodupKeys l →
      ∀ e ∈ l, ∀ e' ∈ l, e.1 = e'.1 → e = e' := by
  intro l
  induction l with
  | nil =>
    intro _ e he
    exact absurd he (List.not_mem_nil e)
  | cons a rest ih =>
    intro hnd e he e' he' hk
    rw [NodupKeys, alKeys_cons, List.nodup_cons] at hnd
    rcases List.mem_cons.mp he with rfl | hm1 <;>
      rcases List.mem_cons.mp he' with h2 | hm2
    · rw [h2]
    · exfalso
      apply hnd.1
      rw [hk]
      simp only [alKeys]
      exact List.mem_map_of_mem Prod.fst hm2
    · exfalso
      apply hnd.1
      rw [h2] at hk
      rw [← hk]
      simp only [alKeys]
      exact List.mem_map_of_mem Prod.fst hm1
    · exact ih hnd.2 e hm1 e' hm2 hk

/-- Characterization of the outer scan over the marker database when no step
is doubly encoded (neither across cells nor across two pages of one cell) and
none collides with an already-seen step: it succeeds, marks exactly the
in-range encoded steps, and records each step's cell. -/
theorem scanDb_ok (n : Nat) :
    ∀ db : List (Nat × List (Nat × Nat)), NodupKeys db →
      (∀ e ∈ db, NodupKeys e.2) →
      (∀ e ∈ db, ∀ s, 1 ≤ s → s ≤ n → ∀ pm ∈ e.2, ∀ pm' ∈ e.2,
        maskHasStep ((pm.1 <<< 6) % 2 ^ 32) pm.2 s →
        maskHasStep ((pm'.1 <<< 6) % 2 ^ 32) pm'.2 s → pm = pm') →
      (∀ s, 1 ≤ s → s ≤ n → ∀ e ∈ db, ∀ e' ∈ db,
        pagesHasStep e.2 s → pagesHasStep e'.2 s → e = e') →
      ∀ stp seen : List Nat, stp.length = n + 1 → seen.length = n + 1 →
      (∀ s, 1 ≤ s → s ≤ n → dbHasStep db s → seen.getD s 0 = 0) →
      ∃ stp' seen', scanDb n db stp seen = .ok (stp', seen') ∧
        stp'.length = n + 1 ∧ seen'.length = n + 1 ∧
        (∀ s, s ≤ n →
          (seen'.getD s 0 ≠ 0 ↔
            seen.getD s 0 ≠ 0 ∨ (1 ≤ s ∧ dbHasStep db s))) ∧
        (∀ s c, 1 ≤ s → s ≤ n → (∃ e ∈ db, e.1 = c ∧ pagesHasStep e.2 s) →
          stp'.getD s 0 = c) ∧
        (∀ s, s ≤ n → ¬ (1 ≤ s ∧ dbHasStep db s) →
          stp'.getD s 0 = stp.getD s 0) := by
  intro db
  induction db with
  | nil =>
    intro _ _ _ _ stp seen hstp hseen _
    refine ⟨stp, seen, rfl, hstp, hseen, ?_, ?_, ?_⟩
    · intro s hs
      simp [dbHasStep]
    · rintro s c - - ⟨e, he, -⟩
      exact absurd he (List.not_mem_nil e)
    · intro s hs _
      rfl
  | cons e0 rest ihd =>
    intro hknd hpnd hpuniq huniq stp seen hstp hseen hnc
    have hknd' : NodupKeys rest := by
      rw [NodupKeys, alKeys_cons, List.nodup_cons] at hknd
      exact hknd.2
    have hkey0 : e0.1 ∉ alKeys rest := by
      rw [NodupKeys, alKeys_cons, List.nodup_cons] at hknd
      exact hknd.1
    obtain ⟨stp1, seen1, heq1, hl11, hl12, hseen1, hstp1⟩ :=
      scanPages_ok n e0.1 e0.2 (hpnd e0 (List.mem_cons_self e0 rest))
        (hpuniq e0 (List.mem_cons_self e0 rest)) stp seen hstp hseen
        (fun s hs1 hsn hps =>
          hnc s hs1 hsn ⟨e0, List.mem_cons_self e0 rest, hps⟩)
    have hsplit : ∀ s, 1 ≤ s → s ≤ n → pagesHasStep e0.2 s →
        dbHasStep rest s → False := by
      rintro s hs1 hsn hps ⟨e', he', hps'⟩
      have he : e0 = e' :=
        huniq s hs1 hsn e0 (List.mem_cons_self e0 rest) e'
          (List.mem_cons_of_mem e0 he') hps hps'
      apply hkey0
      rw [he]
      simp only [alKeys]
      exact List.mem_map_of_mem Prod.fst he'
    obtain ⟨stp', seen', heq2, hl1, hl2, hseen', hrec, hframe⟩ :=
      ihd hknd' (fun e h => hpnd e (List.mem_cons_of_mem e0 h))
        (fun e h => hpuniq e (List.mem_cons_of_mem e0 h))
        (fun s hs1 hsn e he e' he' hp hp' =>
          huniq s hs1 hsn e (List.mem_cons_of_mem e0 he) e'
            (List.mem_cons_of_mem e0 he') hp hp')
        stp1 seen1 hl11 hl12
        (by
          intro s hs1 hsn hds
          by_contra hne
          rcases (hseen1 s hsn).mp hne with h | h
          · obtain ⟨e', he', hps'⟩ := hds
            exact h (hnc s hs1 hsn ⟨e', List.mem_cons_of_mem e0 he', hps'⟩)
          · exact hsplit s hs1 hsn h.2 hds)
    refine ⟨stp', seen', ?_, hl1, hl2, ?_, ?_, ?_⟩
    · rw [scanDb, heq1]
      exact heq2
    · intro s hs
      rw [hseen' s hs, hseen1 s hs]
      constructor
      · rintro ((h | h) | ⟨h1, e', he', hps⟩)
        · exact Or.inl h
        · exact Or.inr ⟨h.1, e0, List.mem_cons_self e0 rest, h.2⟩
        · exact Or.inr ⟨h1, e', List.mem_cons_of_mem e0 he', hps⟩
      · rintro (h | ⟨h1, e', he', hps⟩)
        · exact Or.inl (Or.inl h)
        · rcases List.mem_cons.mp he' with rfl | hmem
          · exact Or.inl (Or.inr ⟨h1, hps⟩)
          · exact Or.inr ⟨h1, e', hmem, hps⟩
    · rintro s c hs1 hsn ⟨e, he, hec, hps⟩
      rcases List.mem_cons.mp he with rfl | hmem
      · have hnr : ¬ (1 ≤ s ∧ dbHasStep rest s) := by
          rintro ⟨-, hds⟩
          exact hsplit s hs1 hsn hps hds
        rw [hframe s hsn hnr, hstp1 s hsn, if_pos ⟨hs1, hps⟩]
        exact hec
      · exact hrec s c hs1 hsn ⟨e, hmem, hec, hps⟩
    · intro s hs hnd
      have hnr : ¬ (1 ≤ s ∧ dbHasStep rest s) := by
        rintro ⟨h1, e', he', hps⟩
        exact hnd ⟨h1, e', List.mem_cons_of_mem e0 he', hps⟩
      rw [hframe s hs hnr, hstp1 s hs,
        if_neg (fun hx => hnd ⟨hx.1, e0, List.mem_cons_self e0 rest, hx.2⟩)]

/-- The outer scan fails with a step-collision error whenever an in-range step
is already seen on entry, two cells with different indices encode the same
in-range step, or two pages with different keys of one cell encode the same
in-range step. -/
theorem scanDb_err (n : Nat) :
    ∀ db : List (Nat × List (Nat × Nat)),
      (∀ e ∈ db, NodupKeys e.2) →
      ∀ stp seen : List Nat, stp.length = n + 1 → seen.length = n + 1 →
      (∃ s, 1 ≤ s ∧ s ≤ n ∧
        ((dbHasStep db s ∧ seen.getD s 0 ≠ 0) ∨
          (∃ e ∈ db, ∃ e' ∈ db, e.1 ≠ e'.1 ∧
            pagesHasStep e.2 s ∧ pagesHasStep e'.2 s) ∨
          (∃ e ∈ db, ∃ pm ∈ e.2, ∃ pm' ∈ e.2, pm.1 ≠ pm'.1 ∧
            maskHasStep ((pm.1 <<< 6) % 2 ^ 32) pm.2 s ∧
            maskHasStep ((pm'.1 <<< 6) % 2 ^ 32) pm'.2 s))) →
      ∃ s', scanDb n db stp seen = .error (.stepCollision s') := by
  intro db
  induction db with
  | nil =>
    rintro - stp seen - -
      ⟨s, -, -, (⟨⟨e, he, -⟩, -⟩ | ⟨e, he, -⟩ | ⟨e, he, -⟩)⟩ <;>
      exact absurd he (List.not_mem_nil e)
  | cons e0 rest ihd =>
    rintro hpnd stp seen hstp hseen ⟨s, hs1, hsn, hwit⟩
    by_cases hc : ∃ t, 1 ≤ t ∧ t ≤ n ∧
        ((pagesHasStep e0.2 t ∧ seen.getD t 0 ≠ 0) ∨
          (∃ pm ∈ e0.2, ∃ pm' ∈ e0.2, pm.1 ≠ pm'.1 ∧
            maskHasStep ((pm.1 <<< 6) % 2 ^ 32) pm.2 t ∧
            maskHasStep ((pm'.1 <<< 6) % 2 ^ 32) pm'.2 t))
    · obtain ⟨s', herr⟩ := scanPages_err n e0.1 e0.2 stp seen hstp hseen hc
      exact ⟨s', by rw [scanDb, herr]⟩
    · have hnc0 : ∀ t, 1 ≤ t → t ≤ n → pagesHasStep e0.2 t →
          seen.getD t 0 = 0 := by
        intro t h1 ht hp
        by_contra hne
        exact hc ⟨t, h1, ht, Or.inl ⟨hp, hne⟩⟩
      have huniq0 : ∀ t, 1 ≤ t → t ≤ n → ∀ pm ∈ e0.2, ∀ pm' ∈ e0.2,
          maskHasStep ((pm.1 <<< 6) % 2 ^ 32) pm.2 t →
          maskHasStep ((pm'.1 <<< 6) % 2 ^ 32) pm'.2 t → pm = pm' := by
        intro t h1 ht pm hpm pm' hpm' hm hm'
        by_contra hne
        have hkne : pm.1 ≠ pm'.1 := fun hk =>
          hne (eq_of_mem_of_nodupKeys e0.2
            (hpnd e0 (List.mem_cons_self e0 rest)) pm hpm pm' hpm' hk)
        exact hc ⟨t, h1, ht, Or.inr ⟨pm, hpm, pm', hpm', hkne, hm, hm'⟩⟩
      obtain ⟨stp1, seen1, heq1, hl11, hl12, hseen1, -⟩ :=
        scanPages_ok n e0.1 e0.2 (hpnd e0 (List.mem_cons_self e0 rest))
          (fun t h1 ht => huniq0 t h1 ht) stp seen hstp hseen hnc0
      have hlift : ∀ t, t ≤ n → seen.getD t 0 ≠ 0 → seen1.getD t 0 ≠ 0 :=
        fun t ht hv => (hseen1 t ht).mpr (Or.inl hv)
      have hpages : ∀ t, 1 ≤ t → t ≤ n → pagesHasStep e0.2 t →
          seen1.getD t 0 ≠ 0 :=
        fun t h1 ht hp => (hseen1 t ht).mpr (Or.inr ⟨h1, hp⟩)
      have hrest : (∃ t, 1 ≤ t ∧ t ≤ n ∧
          ((dbHasStep rest t ∧ seen1.getD t 0 ≠ 0) ∨
            (∃ e ∈ rest, ∃ e' ∈ rest, e.1 ≠ e'.1 ∧
              pagesHasStep e.2 t ∧ pagesHasStep e'.2 t) ∨
            (∃ e ∈ rest, ∃ pm ∈ e.2, ∃ pm' ∈ e.2, pm.1 ≠ pm'.1 ∧
              maskHasStep ((pm.1 <<< 6) % 2 ^ 32) pm.2 t ∧
              maskHasStep ((pm'.1 <<< 6) % 2 ^ 32) pm'.2 t))) := by
        rcases hwit with ⟨⟨e, he, hps⟩, hsv⟩ |
          ⟨e, he, e', he', hne, hps, hps'⟩ |
          ⟨e, he, pm, hpm, pm', hpm', hne, hm, hm'⟩
        · rcases List.mem_cons.mp he with rfl | hmem
          · exact absurd (hc ⟨s, hs1, hsn, Or.inl ⟨hps, hsv⟩⟩) (fun h => h)
          · exact ⟨s, hs1, hsn, Or.inl ⟨⟨e, hmem, hps⟩, hlift s hsn hsv⟩⟩
        · rcases List.mem_cons.mp he with rfl | hmem
          · rcases List.mem_cons.mp he' with rfl | hmem'
            · exact absurd rfl hne
            · exact ⟨s, hs1, hsn,
                Or.inl ⟨⟨e', hmem', hps'⟩, hpages s hs1 hsn hps⟩⟩
          · rcases List.mem_cons.mp he' with rfl | hmem'
            · exact ⟨s, hs1, hsn,
                Or.inl ⟨⟨e, hmem, hps⟩, hpages s hs1 hsn hps'⟩⟩
            · exact ⟨s, hs1, hsn,
                Or.inr (Or.inl ⟨e, hmem, e', hmem', hne, hps, hps'⟩)⟩
        · rcases List.mem_cons.mp he with rfl | hmem
          · exact absurd
              (hc ⟨s, hs1, hsn, Or.inr ⟨pm, hpm, pm', hpm', hne, hm, hm'⟩⟩)
              (fun h => h)
          · exact ⟨s, hs1, hsn,
              Or.inr (Or.inr ⟨e, hmem, pm, hpm, pm', hpm', hne, hm, hm'⟩)⟩
      obtain ⟨s', herr⟩ := ihd (fun e h => hpnd e (List.mem_cons_of_mem e0 h))
        stp1 seen1 hl11 hl12 hrest
      exact ⟨s', by rw [scanDb, heq1]; exact herr⟩

/-- The final pass succeeds when every listed step is seen. -/
theorem checkSeen_ok (seen : List Nat) :
    ∀ l : List Nat, (∀ s ∈ l, seen.getD s 0 ≠ 0) → checkSeen seen l = .ok () := by
  intro l
  induction l with
  | nil =>
    intro _
    rfl
  | cons t rest ih =>
    intro h
    rw [checkSeen, if_neg (h t (List.mem_cons_self t rest))]
    exact ih (fun u hu => h u (List.mem_cons_of_mem t hu))

/-- The final pass fails with a missing-step error when some listed step is
unseen. -/
theorem checkSeen_err (seen : List Nat) :
    ∀ l : List Nat, (∃ s ∈ l, seen.getD s 0 = 0) →
      ∃ s', checkSeen seen l = .error (.missingStep s') := by
  intro l
  induction l with
  | nil =>
    rintro ⟨s, hs, -⟩
    exact absurd hs (List.not_mem_nil s)
  | cons t rest ih =>
    rintro ⟨s, hs, hval⟩
    by_cases ht : seen.getD t 0 = 0
    · exact ⟨t, by rw [checkSeen, if_pos ht]⟩
    · rcases List.mem_cons.mp hs with rfl | hmem
      · exact absurd hval ht
      · obtain ⟨s', h⟩ := ih ⟨s, hmem, hval⟩
        exact ⟨s', by rw [checkSeen, if_neg ht]; exact h⟩

/-- Below 2^26 the u32 wrap of `page << 6` is the identity. -/
theorem wrap_base_eq {pg : Nat} (h : pg < 2 ^ 26) :
    (pg <<< 6) % 2 ^ 32 = pg <<< 6 := by
  rw [Nat.shiftLeft_eq]
  exact Nat.mod_eq_of_lt (by omega)

/-- Bridge between the extensional bit view and the scan's entry view: under
HashMap key uniqueness, u64 masks, wrap-free page keys (below 2^26) and a u32
step, the bit for step `s` is set at cell `c` exactly when some database
entry with index `c` encodes `s`. -/
theorem getBit_iff_dbHasStep (a : ABitset) (c s : Nat)
    (hknd : NodupKeys a.db) (hpnd : ∀ e ∈ a.db, NodupKeys e.2)
    (hmb : MaskBounded a) (hpb : ∀ e ∈ a.db, ∀ pm ∈ e.2, pm.1 < 2 ^ 26)
    (hs32 : s < 2 ^ 32) :
    getBit a c s = true ↔ ∃ e ∈ a.db, e.1 = c ∧ pagesHasStep e.2 s := by
  have hs626 : s >>> 6 < 2 ^ 26 := by
    rw [Nat.shiftRight_eq_div_pow]
    omega
  constructor
  · intro h
    rw [getBit, getMask, getPages] at h
    cases hps : alGet a.db c with
    | none =>
      rw [hps] at h
      simp [alGet, Nat.zero_testBit] at h
    | some ps =>
      rw [hps] at h
      simp only [Option.getD_some] at h
      cases hpm : alGet ps (s >>> 6) with
      | none =>
        rw [hpm] at h
        simp [Nat.zero_testBit] at h
      | some m =>
        rw [hpm] at h
        simp only [Option.getD_some] at h
        have hb : (s >>> 6) <<< 6 = 64 * (s >>> 6) := by
          rw [Nat.shiftLeft_eq]
          ring
        have h9 := page_bit_recomb s
        refine ⟨(c, ps), alGet_mem hps, rfl,
          (s >>> 6, m), alGet_mem hpm, ?_, ?_⟩
        · show ((s >>> 6) <<< 6) % 2 ^ 32 ≤ s
          rw [wrap_base_eq hs626]
          omega
        · show m.testBit (s - ((s >>> 6) <<< 6) % 2 ^ 32) = true
          rw [wrap_base_eq hs626]
          have hx : s - (s >>> 6) <<< 6 = s &&& 63 := by omega
          rw [hx]
          exact h
  · rintro ⟨⟨k, ps⟩, he, hec, ⟨pg, m⟩, hpm, hms⟩
    have hpgb : pg < 2 ^ 26 := hpb (k, ps) he (pg, m) hpm
    rw [show ((pg, m).1 <<< 6) % 2 ^ 32 = pg <<< 6 from wrap_base_eq hpgb]
      at hms
    have hpage : s >>> 6 = pg := maskHasStep_page (hmb (k, ps) he (pg, m) hpm) hms
    have h1 : alGet a.db c = some ps := by
      rw [← hec]
      exact alGet_of_mem hknd he
    have h2 : alGet ps pg = some m := alGet_of_mem (hpnd (k, ps) he) hpm
    rw [getBit, getMask, getPages, h1, Option.getD_some, hpage, h2,
      Option.getD_some]
    have hb : pg <<< 6 = 64 * pg := by
      rw [Nat.shiftLeft_eq]
      ring
    have h9 := page_bit_recomb s
    have hx : s - pg <<< 6 = s &&& 63 := by omega
    rw [← hx]
    exact hms.2

/-- Bit (page key `pg`, some set mask bit) of cell `c` of the marker database
encodes step `s`: as in the source, the step a mask bit stands for is the
page base `page << 6` — computed on u32, so wrapping mod 2^32 — plus the bit
index. -/
def bitEncodes (db : List (Nat × List (Nat × Nat))) (c pg s : Nat) : Prop :=
  ∃ e ∈ db, e.1 = c ∧ ∃ pm ∈ e.2, pm.1 = pg ∧
    maskHasStep ((pg <<< 6) % 2 ^ 32) pm.2 s

/-- Claim C3: over marker sets with HashMap-consistent state (unique cell and
page keys), the step-index builder (1) succeeds when every step in `[1, n]`
is encoded by exactly one marker bit, recording for each step the cell that
holds its bit; (2) fails with a step-collision error when two distinct bits
(in two cells, or in two pages of one cell) encode the same step of
`[1, n]`; (3) fails with a missing-step error when no step is doubly encoded
and some step of `[1, n]` is encoded by no bit.  Set bits encoding step 0 or
steps above `n` are ignored throughout: all three conditions constrain only
steps in `[1, n]`. -/
theorem claim_C3 (a : ABitset) (n : Nat) (hknd : NodupKeys a.db)
    (hpnd : ∀ e ∈ a.db, NodupKeys e.2) :
    ((∀ s, 1 ≤ s → s ≤ n → ∃ c pg, bitEncodes a.db c pg s) →
      (∀ s c pg c' pg', 1 ≤ s → s ≤ n → bitEncodes a.db c pg s →
        bitEncodes a.db c' pg' s → c = c' ∧ pg = pg') →
      ∃ stp, build_step_index_from_a a n = .ok stp ∧
        ∀ s c pg, 1 ≤ s → s ≤ n → bitEncodes a.db c pg s →
          stp.getD s 0 = c) ∧
    ((∃ s c pg c' pg', 1 ≤ s ∧ s ≤ n ∧ (c ≠ c' ∨ pg ≠ pg') ∧
        bitEncodes a.db c pg s ∧ bitEncodes a.db c' pg' s) →
      ∃ s', build_step_index_from_a a n = .error (.stepCollision s')) ∧
    ((∀ s c pg c' pg', 1 ≤ s → s ≤ n → bitEncodes a.db c pg s →
        bitEncodes a.db c' pg' s → c = c' ∧ pg = pg') →
      (∃ s, 1 ≤ s ∧ s ≤ n ∧ ∀ c pg, ¬ bitEncodes a.db c pg s) →
      ∃ s', build_step_index_from_a a n = .error (.missingStep s')) := by
  have hzero : ∀ s, s ≤ n → (List.replicate (n + 1) 0).getD s 0 = 0 :=
    fun s hs => getD_replicate_self 0 (by omega)
  have hlen : (List.replicate (n + 1) (0 : Nat)).length = n + 1 :=
    List.length_replicate (n + 1) 0
  have hok : (∀ s c pg c' pg', 1 ≤ s → s ≤ n → bitEncodes a.db c pg s →
      bitEncodes a.db c' pg' s → c = c' ∧ pg = pg') →
      ∃ stp' seen', scanDb n a.db (List.replicate (n + 1) 0)
          (List.replicate (n + 1) 0) = .ok (stp', seen') ∧
        (∀ s, s ≤ n → (seen'.getD s 0 ≠ 0 ↔ (1 ≤ s ∧ dbHasStep a.db s))) ∧
        (∀ s c, 1 ≤ s → s ≤ n → (∃ e ∈ a.db, e.1 = c ∧ pagesHasStep e.2 s) →
          stp'.getD s 0 = c) := by
    intro huniq
    have huniqE : ∀ s, 1 ≤ s → s ≤ n → ∀ e ∈ a.db, ∀ e' ∈ a.db,
        pagesHasStep e.2 s → pagesHasStep e'.2 s → e = e' := by
      rintro s hs1 hsn e he e' he' ⟨pm, hpm, hm⟩ ⟨pm', hpm', hm'⟩
      have h1 : bitEncodes a.db e.1 pm.1 s := ⟨e, he, rfl, pm, hpm, rfl, hm⟩
      have h2 : bitEncodes a.db e'.1 pm'.1 s :=
        ⟨e', he', rfl, pm', hpm', rfl, hm'⟩
      exact eq_of_mem_of_nodupKeys a.db hknd e he e' he'
        (huniq s e.1 pm.1 e'.1 pm'.1 hs1 hsn h1 h2).1
    have hpuniq : ∀ e ∈ a.db, ∀ s, 1 ≤ s → s ≤ n → ∀ pm ∈ e.2, ∀ pm' ∈ e.2,
        maskHasStep ((pm.1 <<< 6) % 2 ^ 32) pm.2 s →
        maskHasStep ((pm'.1 <<< 6) % 2 ^ 32) pm'.2 s → pm = pm' := by
      intro e he s hs1 hsn pm hpm pm' hpm' hm hm'
      have h1 : bitEncodes a.db e.1 pm.1 s := ⟨e, he, rfl, pm, hpm, rfl, hm⟩
      have h2 : bitEncodes a.db e.1 pm'.1 s := ⟨e, he, rfl, pm', hpm', rfl, hm'⟩
      exact eq_of_mem_of_nodupKeys e.2 (hpnd e he) pm hpm pm' hpm'
        (huniq s e.1 pm.1 e.1 pm'.1 hs1 hsn h1 h2).2
    obtain ⟨stp', seen', heq, hl1, hl2, hseenIff, hrec, -⟩ :=
      scanDb_ok n a.db hknd hpnd hpuniq huniqE (List.replicate (n + 1) 0)
        (List.replicate (n + 1) 0) hlen hlen
        (fun s hs1 hsn _ => hzero s hsn)
    refine ⟨stp', seen', heq, ?_, hrec⟩
    intro s hs
    rw [hseenIff s hs]
    constructor
    · rintro (h | h)
      · exact absurd (hzero s hs) h
      · exact h
    · exact Or.inr
  refine ⟨?_, ?_, ?_⟩
  · intro hex huniq
    obtain ⟨stp', seen', heq, hseenIff, hrec⟩ := hok huniq
    have hcs : checkSeen seen' (List.range' 1 n) = .ok () := by
      apply checkSeen_ok
      intro s hs
      rw [List.mem_range'_1] at hs
      have hsn : s ≤ n := by omega
      rw [hseenIff s hsn]
      obtain ⟨c, pg, e, he, hec, pm, hpm, hpg, hm⟩ := hex s hs.1 (by omega)
      rw [← hpg] at hm
      exact ⟨hs.1, e, he, pm, hpm, hm⟩
    refine ⟨stp', ?_, ?_⟩
    · rw [build_step_index_from_a, heq]
      simp only
      rw [hcs]
    · rintro s c pg hs1 hsn ⟨e, he, hec, pm, hpm, hpg, hm⟩
      rw [← hpg] at hm
      exact hrec s c hs1 hsn ⟨e, he, hec, pm, hpm, hm⟩
  · rintro ⟨s, c, pg, c', pg', hs1, hsn, hne, hbe, hbe'⟩
    obtain ⟨e, he, hec, pm, hpm, hpg, hm⟩ := hbe
    obtain ⟨e', he', hec', pm', hpm', hpg', hm'⟩ := hbe'
    rw [← hpg] at hm
    rw [← hpg'] at hm'
    by_cases hcc : c = c'
    · have hee : e = e' := eq_of_mem_of_nodupKeys a.db hknd e he e' he'
        (by rw [hec, hec', hcc])
      have hpgne : pg ≠ pg' := by
        rcases hne with h | h
        · exact absurd hcc h
        · exact h
      obtain ⟨s', herr⟩ := scanDb_err n a.db hpnd (List.replicate (n + 1) 0)
        (List.replicate (n + 1) 0) hlen hlen
        ⟨s, hs1, hsn, Or.inr (Or.inr ⟨e, he, pm, hpm, pm',
          by rw [hee]; exact hpm', by rw [hpg, hpg']; exact hpgne, hm, hm'⟩)⟩
      exact ⟨s', by rw [build_step_index_from_a, herr]⟩
    · obtain ⟨s', herr⟩ := scanDb_err n a.db hpnd (List.replicate (n + 1) 0)
        (List.replicate (n + 1) 0) hlen hlen
        ⟨s, hs1, hsn, Or.inr (Or.inl ⟨e, he, e', he',
          by rw [hec, hec']; exact hcc, ⟨pm, hpm, hm⟩, ⟨pm', hpm', hm'⟩⟩)⟩
      exact ⟨s', by rw [build_step_index_from_a, herr]⟩
  · intro huniq hmiss
    obtain ⟨s0, hs01, hs0n, hnone⟩ := hmiss
    obtain ⟨stp', seen', heq, hseenIff, -⟩ := hok huniq
    have hs0 : seen'.getD s0 0 = 0 := by
      by_contra h
      obtain ⟨-, e, he, pm, hpm, hm⟩ := (hseenIff s0 hs0n).mp h
      exact hnone e.1 pm.1 ⟨e, he, rfl, pm, hpm, rfl, hm⟩
    obtain ⟨s', hcs⟩ := checkSeen_err seen' (List.range' 1 n)
      ⟨s0, by rw [List.mem_range'_1]; omega, hs0⟩
    refine ⟨s', ?_⟩
    rw [build_step_index_from_a, heq]
    simp only
    rw [hcs]

theorem claim_C3_witness :
    ((∀ s, 1 ≤ s → s ≤ 1 → ∃ c pg, bitEncodes [(7, [(0, 2)])] c pg s) →
      (∀ s c pg c' pg', 1 ≤ s → s ≤ 1 → bitEncodes [(7, [(0, 2)])] c pg s →
        bitEncodes [(7, [(0, 2)])] c' pg' s → c = c' ∧ pg = pg') →
      ∃ stp, build_step_index_from_a ⟨[(7, [(0, 2)])]⟩ 1 = .ok stp ∧
        ∀ s c pg, 1 ≤ s → s ≤ 1 → bitEncodes [(7, [(0, 2)])] c pg s →
          stp.getD s 0 = c) ∧
    ((∃ s c pg c' pg', 1 ≤ s ∧ s ≤ 1 ∧ (c ≠ c' ∨ pg ≠ pg') ∧
        bitEncodes [(7, [(0, 2)])] c pg s ∧
        bitEncodes [(7, [(0, 2)])] c' pg' s) →
      ∃ s', build_step_index_from_a ⟨[(7, [(0, 2)])]⟩ 1 =
        .error (.stepCollision s')) ∧
    ((∀ s c pg c' pg', 1 ≤ s → s ≤ 1 → bitEncodes [(7, [(0, 2)])] c pg s →
        bitEncodes [(7, [(0, 2)])] c' pg' s → c = c' ∧ pg = pg') →
      (∃ s, 1 ≤ s ∧ s ≤ 1 ∧ ∀ c pg, ¬ bitEncodes [(7, [(0, 2)])] c pg s) →
      ∃ s', build_step_index_from_a ⟨[(7, [(0, 2)])]⟩ 1 =
        .error (.missingStep s')) :=
  claim_C3 ⟨[(7, [(0, 2)])]⟩ 1 (by decide) (by decide)

/-! ### From the encoder's final state to a packable state (claims C1, C8) -/

/-- Every stored page of a well-formed marker set holds a set bit, i.e. some
step on that page whose marker bit reads back true. -/
theorem entry_step {a : ABitset} (hknd : NodupKeys a.db)
    (hpnd : ∀ e ∈ a.db, NodupKeys e.2) {e : Nat × List (Nat × Nat)}
    {pm : Nat × Nat} (he : e ∈ a.db) (hpm : pm ∈ e.2) (hm0 : pm.2 ≠ 0)
    (hmb : pm.2 < 2 ^ 64) :
    ∃ s, getBit a e.1 s = true ∧ s >>> 6 = pm.1 := by
  have hbit : pm.2.testBit (ctz pm.2) = true := ctz_testBit_self hm0
  have hctz : ctz pm.2 < 64 := by
    by_contra hge
    push_neg at hge
    rw [testBit_ge_64 hmb hge] at hbit
    exact Bool.noConfusion hbit
  refine ⟨64 * pm.1 + ctz pm.2, ?_, ?_⟩
  · have h1 : alGet a.db e.1 = some e.2 := by
      have := alGet_of_mem hknd (show (e.1, e.2) ∈ a.db by rwa [Prod.mk.eta])
      exact this
    have h2 : alGet e.2 pm.1 = some pm.2 :=
      alGet_of_mem (hpnd e he) (by rwa [Prod.mk.eta])
    have hs6 : (64 * pm.1 + ctz pm.2) >>> 6 = pm.1 := by
      rw [shiftRight_six]
      omega
    have hs63 : (64 * pm.1 + ctz pm.2) &&& 63 = ctz pm.2 := by
      rw [and_63]
      omega
    rw [getBit, hs6, hs63, getMask, getPages, h1, Option.getD_some, h2,
      Option.getD_some]
    exact hbit
  · rw [shiftRight_six]
    omega

/-- A key-nodup association list with keys below `k` has at most `k`
entries. -/
theorem length_le_of_keys_lt {α : Type} (l : List (Nat × α)) (k : Nat)
    (hnd : NodupKeys l) (hk : ∀ e ∈ l, e.1 < k) : l.length ≤ k := by
  have hkeys : ∀ x ∈ alKeys l, x < k := by
    intro x hx
    simp only [alKeys, List.mem_map] at hx
    obtain ⟨e, he, rfl⟩ := hx
    exact hk e he
  have hsub : (alKeys l).toFinset ⊆ Finset.range k := by
    intro x hx
    rw [List.mem_toFinset] at hx
    rw [Finset.mem_range]
    exact hkeys x hx
  have hcard : (alKeys l).toFinset.card = (alKeys l).length :=
    List.toFinset_card_of_nodup hnd
  have hlen : (alKeys l).length = l.length := List.length_map l Prod.fst
  calc l.length = (alKeys l).toFinset.card := by rw [hcard, hlen]
    _ ≤ (Finset.range k).card := Finset.card_le_card hsub
    _ = k := Finset.card_range k

/-- Counting bound for one cell's page list: if every page corresponds to a
step of `[1, n]` on one residue class mod 512 and `n ≤ 512 * 65535`, there
are fewer than `2^16` pages. -/
theorem pages_count_lt {n r : Nat} (hn : n ≤ 512 * 65535)
    (ps : List (Nat × Nat)) (hnd : NodupKeys ps)
    (hstep : ∀ pm ∈ ps, ∃ s, 1 ≤ s ∧ s ≤ n ∧ s >>> 6 = pm.1 ∧ s % 512 = r) :
    ps.length < 2 ^ 16 := by
  classical
  set P : Nat → Nat → Prop :=
    fun pg s => 1 ≤ s ∧ s ≤ n ∧ s >>> 6 = pg ∧ s % 512 = r with hP
  set f : Nat → Nat :=
    fun pg => (if h : ∃ s, P pg s then h.choose / 512 else 0) -
      (if r = 0 then 1 else 0) with hf
  have hkeys : ∀ pg ∈ alKeys ps, ∃ s, P pg s := by
    intro pg hpg
    simp only [alKeys, List.mem_map] at hpg
    obtain ⟨pm, hpm, rfl⟩ := hpg
    exact hstep pm hpm
  have hmaps : ∀ pg ∈ (alKeys ps).toFinset, f pg ∈ Finset.range 65535 := by
    intro pg hpg
    rw [List.mem_toFinset] at hpg
    have hex := hkeys pg hpg
    obtain ⟨hs1, hsn, hs6, hsr⟩ := hex.choose_spec
    rw [Finset.mem_range, hf]
    simp only [dif_pos hex]
    have hdm := Nat.div_add_mod hex.choose 512
    by_cases hr : r = 0
    · rw [if_pos hr]
      omega
    · rw [if_neg hr]
      omega
  have hinj : Set.InjOn f ((alKeys ps).toFinset : Finset Nat) := by
    intro pg1 h1 pg2 h2 hfeq
    rw [Finset.mem_coe, List.mem_toFinset] at h1 h2
    have hex1 := hkeys pg1 h1
    have hex2 := hkeys pg2 h2
    obtain ⟨ha1, ha2, ha3, ha4⟩ := hex1.choose_spec
    obtain ⟨hb1, hb2, hb3, hb4⟩ := hex2.choose_spec
    rw [hf] at hfeq
    simp only [dif_pos hex1, dif_pos hex2] at hfeq
    have hdm1 := Nat.div_add_mod hex1.choose 512
    have hdm2 := Nat.div_add_mod hex2.choose 512
    have hse : hex1.choose = hex2.choose := by
      by_cases hr : r = 0
      · rw [if_pos hr] at hfeq
        omega
      · rw [if_neg hr] at hfeq
        omega
    rw [← ha3, ← hb3, hse]
  have hcard := Finset.card_le_card_of_injOn f hmaps hinj
  rw [Finset.card_range, List.toFinset_card_of_nodup hnd] at hcard
  simp only [alKeys, List.length_map] at hcard
  omega

/-- The encoder's final state satisfies the representability bounds of the
container format whenever the payload has at most `512 * 65535` bytes. -/
theorem packWF_of_encInv {p : List Nat} {n : Nat} {rg : RGCanvas}
    {a : ABitset} (hb : ∀ b ∈ p, b < 256) (hn : n ≤ 512 * 65535)
    (hinv : EncInv p n 0 rg a) : PackWF rg a n := by
  obtain ⟨hrl, hgl, hr, hg, hbit, hwf, hmb⟩ := hinv
  obtain ⟨hknd, hpnd, hnz, hne⟩ := hwf
  have hLIM : RG_LIMIT_EXACT < 2 ^ 64 := by
    rw [RG_LIMIT_EXACT, Nat.one_shiftLeft]
    norm_num
  have hPIX : PIXELS = 262144 := by norm_num [PIXELS, W, H]
  have hstep_of_bit : ∀ c s, getBit a c s = true →
      1 ≤ s ∧ s ≤ n ∧ cellOf p s = c := by
    intro c s h
    rw [hbit c s] at h
    rw [decide_eq_true_eq] at h
    exact ⟨by omega, h.2.1, h.2.2⟩
  have hkey_lt : ∀ e ∈ a.db, e.1 < PIXELS := by
    intro e he
    have hpne : e.2 ≠ [] := hne e he
    cases hpg : e.2 with
    | nil => exact absurd hpg hpne
    | cons pm prest =>
      have hpm : pm ∈ e.2 := by
        rw [hpg]
        exact List.mem_cons_self pm prest
      obtain ⟨s, hbs, -⟩ := entry_step hknd hpnd he hpm (hnz e he pm hpm)
        (hmb e he pm hpm)
      obtain ⟨-, -, hcell⟩ := hstep_of_bit e.1 s hbs
      rw [← hcell]
      exact cellOf_lt p s hb
  refine ⟨hrl, hgl, ?_, ?_, by omega, ?_, hknd, ?_⟩
  · intro v hv
    obtain ⟨i, hi, hiv⟩ := List.mem_iff_getElem.mp hv
    have hgd : rg.r.getD i 0 = v := by
      rw [List.getD_eq_getElem?_getD, List.getElem?_eq_getElem hi, hiv]
      rfl
    have := hr i (by omega)
    omega
  · intro v hv
    obtain ⟨i, hi, hiv⟩ := List.mem_iff_getElem.mp hv
    have hgd : rg.g.getD i 0 = v := by
      rw [List.getD_eq_getElem?_getD, List.getElem?_eq_getElem hi, hiv]
      rfl
    have := hg i (by omega)
    omega
  · have := length_le_of_keys_lt a.db PIXELS hknd hkey_lt
    omega
  · intro e he
    have hsteps : ∀ pm ∈ e.2, ∃ s, 1 ≤ s ∧ s ≤ n ∧ s >>> 6 = pm.1 ∧
        s % 512 = e.1 >>> 9 := by
      intro pm hpm
      obtain ⟨s, hbs, hs6⟩ := entry_step hknd hpnd he hpm (hnz e he pm hpm)
        (hmb e he pm hpm)
      obtain ⟨hs1, hsn, hcell⟩ := hstep_of_bit e.1 s hbs
      exact ⟨s, hs1, hsn, hs6, cellOf_mod p s e.1 hb hcell⟩
    refine ⟨by have := hkey_lt e he; omega, hpnd e he,
      pages_count_lt hn e.2 (hpnd e he) hsteps, ?_⟩
    intro pm hpm
    refine ⟨?_, hmb e he pm hpm⟩
    obtain ⟨s, -, hsn, hs6, -⟩ := hsteps pm hpm
    rw [← hs6, Nat.shiftRight_eq_div_pow]
    have : s / 2 ^ 6 ≤ s := Nat.div_le_self s (2 ^ 6)
    omega

/-- Builder success in functional form: for a marker set with u64 masks and
wrap-free page keys whose bit for each step of `[1, n]` (with `n` a u32
value) is set exactly at the cell `φ s`, the builder succeeds and records
`φ`. -/
theorem build_ok_of_unique (a : ABitset) (n : Nat) (φ : Nat → Nat)
    (hknd : NodupKeys a.db) (hpnd : ∀ e ∈ a.db, NodupKeys e.2)
    (hmb : MaskBounded a) (hpb : ∀ e ∈ a.db, ∀ pm ∈ e.2, pm.1 < 2 ^ 26)
    (hn : n < 2 ^ 32)
    (hbit : ∀ c s, 1 ≤ s → s ≤ n → (getBit a c s = true ↔ c = φ s)) :
    ∃ stp, build_step_index_from_a a n = .ok stp ∧
      ∀ s, 1 ≤ s → s ≤ n → stp.getD s 0 = φ s := by
  have hzero : ∀ s, s ≤ n → (List.replicate (n + 1) 0).getD s 0 = 0 :=
    fun s hs => getD_replicate_self 0 (by omega)
  have hlen : (List.replicate (n + 1) (0 : Nat)).length = n + 1 :=
    List.length_replicate (n + 1) 0
  have huniq' : ∀ s, 1 ≤ s → s ≤ n → ∀ e ∈ a.db, ∀ e' ∈ a.db,
      pagesHasStep e.2 s → pagesHasStep e'.2 s → e = e' := by
    intro s hs1 hsn e he e' he' hp hp'
    have hb1 : e.1 = φ s := (hbit e.1 s hs1 hsn).mp
      ((getBit_iff_dbHasStep a e.1 s hknd hpnd hmb hpb (by omega)).mpr
        ⟨e, he, rfl, hp⟩)
    have hb2 : e'.1 = φ s := (hbit e'.1 s hs1 hsn).mp
      ((getBit_iff_dbHasStep a e'.1 s hknd hpnd hmb hpb (by omega)).mpr
        ⟨e', he', rfl, hp'⟩)
    exact eq_of_mem_of_nodupKeys a.db hknd e he e' he' (hb1.trans hb2.symm)
  have hpuniq : ∀ e ∈ a.db, ∀ s, 1 ≤ s → s ≤ n → ∀ pm ∈ e.2, ∀ pm' ∈ e.2,
      maskHasStep ((pm.1 <<< 6) % 2 ^ 32) pm.2 s →
      maskHasStep ((pm'.1 <<< 6) % 2 ^ 32) pm'.2 s → pm = pm' := by
    intro e he s hs1 hsn pm hpm pm' hpm' hm hm'
    rw [wrap_base_eq (hpb e he pm hpm)] at hm
    rw [wrap_base_eq (hpb e he pm' hpm')] at hm'
    have hp1 : s >>> 6 = pm.1 := maskHasStep_page (hmb e he pm hpm) hm
    have hp2 : s >>> 6 = pm'.1 := maskHasStep_page (hmb e he pm' hpm') hm'
    exact eq_of_mem_of_nodupKeys e.2 (hpnd e he) pm hpm pm' hpm' (by omega)
  obtain ⟨stp', seen', heq, hl1, hl2, hseenIff, hrec, -⟩ :=
    scanDb_ok n a.db hknd hpnd hpuniq huniq' (List.replicate (n + 1) 0)
      (List.replicate (n + 1) 0) hlen hlen
      (fun s hs1 hsn _ => hzero s hsn)
  have hcs : checkSeen seen' (List.range' 1 n) = .ok () := by
    apply checkSeen_ok
    intro s hs
    rw [List.mem_range'_1] at hs
    have hsn : s ≤ n := by omega
    rw [hseenIff s hsn]
    obtain ⟨e, he, -, hp⟩ :=
      (getBit_iff_dbHasStep a (φ s) s hknd hpnd hmb hpb (by omega)).mp
        ((hbit (φ s) s hs.1 hsn).mpr rfl)
    exact Or.inr ⟨hs.1, e, he, hp⟩
  refine ⟨stp', ?_, ?_⟩
  · rw [build_step_index_from_a, heq]
    simp only
    rw [hcs]
  · intro s hs1 hsn
    obtain ⟨e, he, hec, hp⟩ :=
      (getBit_iff_dbHasStep a (φ s) s hknd hpnd hmb hpb (by omega)).mp
        ((hbit (φ s) s hs1 hsn).mpr rfl)
    exact hrec s (φ s) hs1 hsn ⟨e, he, hec, hp⟩

/-- Invariant of the decode loop once the steps in `(s, n]` have been
restored: each plane cell is `LIMIT` minus the weight still to be restored,
the marker set holds exactly the bits of the unprocessed steps, and the
output already holds the payload bytes of the processed steps. -/
def DecInv (p : List Nat) (n s : Nat) (rg : RGCanvas) (a : ABitset)
    (out : List Nat) : Prop :=
  rg.r.length = PIXELS ∧ rg.g.length = PIXELS ∧
    (∀ c, c < PIXELS → rg.r.getD c 0 = RG_LIMIT_EXACT - wsum p c 0 s) ∧
    (∀ c, c < PIXELS → rg.g.getD c 0 = RG_LIMIT_EXACT - wsum p c 1 s) ∧
    (∀ c t, getBit a c t = decide (1 ≤ t ∧ t ≤ s ∧ cellOf p t = c)) ∧
    WF a ∧ MaskBounded a ∧
    out.length = n ∧
    (∀ i, i < n → out.getD i 0 = if s ≤ i then p.getD i 0 else 0)

theorem decodeLoop_char (p : List Nat) (n : Nat) (stp : List Nat)
    (hb : ∀ b ∈ p, b < 256) (hn : n < 2 ^ 32)
    (hstp : ∀ s, 1 ≤ s → s ≤ n → stp.getD s 0 = cellOf p s) :
    ∀ s rg a out, s ≤ n → DecInv p n s rg a out →
      ∃ rg' a' out', decodeLoop stp s rg a out = .ok (rg', a', out') ∧
        DecInv p n 0 rg' a' out' := by
  intro s
  induction s with
  | zero =>
    intro rg a out _ hinv
    exact ⟨rg, a, out, rfl, hinv⟩
  | succ s ih =>
    intro rg a out hle hinv
    obtain ⟨hrl, hgl, hr, hg, hbit, hwf, hmb, hol, hov⟩ := hinv
    have hpix : cellOf p (s + 1) < PIXELS := cellOf_lt p (s + 1) hb
    have hknd := hwf.1
    have hpnd := hwf.2.1
    have hset : getBit a (cellOf p (s + 1)) (s + 1) = true := by
      rw [hbit]
      exact decide_eq_true ⟨by omega, le_rfl, rfl⟩
    obtain ⟨a1, hclr⟩ := (clear_step_ok_iff a _ _).mpr hset
    have hbit1 : ∀ c t, getBit a1 c t =
        decide (1 ≤ t ∧ t ≤ s ∧ cellOf p t = c) := by
      intro c t
      rw [getBit_clear_step hknd hpnd hclr, hbit c t, Bool.eq_iff_iff]
      simp only [Bool.and_eq_true, decide_eq_true_eq, Bool.not_eq_true',
        Bool.and_eq_false_iff, decide_eq_false_iff_not]
      constructor
      · rintro ⟨⟨h1, h2, h3⟩, h4 | h4⟩
        · by_cases hts : t = s + 1
          · subst hts
            exact absurd h3.symm h4
          · exact ⟨h1, by omega, h3⟩
        · exact ⟨h1, by omega, h3⟩
      · rintro ⟨h1, h2, h3⟩
        exact ⟨⟨h1, by omega, h3⟩, Or.inr (by omega)⟩
    have hwf1 : WF a1 := wf_clear_step hwf hclr
    have hmb1 : MaskBounded a1 := maskBounded_clear_step hmb hclr
    have hxv : (cellOf p (s + 1) &&& 511) % 2 ^ 8 = p.getD s 0 := by
      rw [cellOf, pidx_of]
      simp only [and_511, Nat.shiftLeft_eq, Nat.add_sub_cancel]
      have hb' : p.getD s 0 < 256 := by
        rcases getD_mem_or_eq p s 0 with hm | hz
        · exact hb _ hm
        · omega
      have h29 : (2 : Nat) ^ 9 = 512 := by norm_num
      have h28 : (2 : Nat) ^ 8 = 256 := by norm_num
      rw [h29, h28]
      omega
    have hout1 : ∀ i, i < n →
        (out.set s ((cellOf p (s + 1) &&& 511) % 2 ^ 8)).getD i 0 =
          if s ≤ i then p.getD i 0 else 0 := by
      intro i hi
      by_cases his : i = s
      · subst his
        rw [getD_set_self _ (by rw [hol]; omega), hxv, if_pos le_rfl]
      · rw [getD_set_ne _ _ his, hov i hi]
        by_cases hsi : s + 1 ≤ i
        · rw [if_pos hsi, if_pos (by omega)]
        · rw [if_neg hsi, if_neg (by omega)]
    have hwn := wsum_bound p (cellOf p (s + 1)) (laneOf (s + 1)) n hb hn
    have hstepw : wsum p (cellOf p (s + 1)) (laneOf (s + 1)) (s + 1) =
        wt (s + 1) + wsum p (cellOf p (s + 1)) (laneOf (s + 1)) s := by
      rw [wsum, if_pos ⟨rfl, rfl⟩]
    have hmono : wsum p (cellOf p (s + 1)) (laneOf (s + 1)) (s + 1) ≤
        wsum p (cellOf p (s + 1)) (laneOf (s + 1)) n := wsum_mono p _ _ hle
    have hlim : (2 : Nat) ^ 54 < RG_LIMIT_EXACT := by
      rw [RG_LIMIT_EXACT, Nat.one_shiftLeft]
      norm_num
    have hk : (lane_k (s + 1)).2 = wt (s + 1) := rfl
    rcases laneOf_cases (s + 1) with ⟨hl0, hlane⟩ | ⟨hl1, hlane⟩
    · have hwn0 : wsum p (cellOf p (s + 1)) 0 n ≤ 2 ^ 54 := by
        have hx := hwn
        rw [hlane] at hx
        exact hx
      have hstep0 : wsum p (cellOf p (s + 1)) 0 (s + 1) =
          wt (s + 1) + wsum p (cellOf p (s + 1)) 0 s := by
        have hx := hstepw
        rw [hlane] at hx
        exact hx
      have hmono0 : wsum p (cellOf p (s + 1)) 0 (s + 1) ≤
          wsum p (cellOf p (s + 1)) 0 n := by
        have hx := hmono
        rw [hlane] at hx
        exact hx
      have hv : rg.r.getD (cellOf p (s + 1)) 0 =
          RG_LIMIT_EXACT - wsum p (cellOf p (s + 1)) 0 (s + 1) := hr _ hpix
      have hnov : ¬ (RG_LIMIT_EXACT <
          rg.r.getD (cellOf p (s + 1)) 0 + (lane_k (s + 1)).2) := by
        rw [hv, hk]
        omega
      rw [decodeLoop, hstp (s + 1) (by omega) (by omega), hclr]
      simp only [hl0, if_pos rfl, if_neg hnov, Nat.add_sub_cancel]
      apply ih
      · omega
      refine ⟨by rw [List.length_set, hrl], hgl, ?_, ?_, hbit1, hwf1, hmb1,
        by rw [List.length_set, hol], hout1⟩
      · intro c hc
        by_cases hcc : c = cellOf p (s + 1)
        · rw [hcc, getD_set_self _ (by rw [hrl]; exact hpix), hv, hk]
          omega
        · rw [getD_set_ne _ _ hcc, hr _ hc]
          have heq : wsum p c 0 (s + 1) = wsum p c 0 s := by
            rw [wsum, if_neg]
            · omega
            · rw [hlane]
              intro hx
              exact hcc hx.2.symm
          rw [heq]
      · intro c hc
        rw [hg _ hc]
        have heq : wsum p c 1 (s + 1) = wsum p c 1 s := by
          rw [wsum, if_neg]
          · omega
          · rw [hlane]
            intro hx
            exact absurd hx.1 (by omega)
        rw [heq]
    · have hwn1 : wsum p (cellOf p (s + 1)) 1 n ≤ 2 ^ 54 := by
        have hx := hwn
        rw [hlane] at hx
        exact hx
      have hstep1 : wsum p (cellOf p (s + 1)) 1 (s + 1) =
          wt (s + 1) + wsum p (cellOf p (s + 1)) 1 s := by
        have hx := hstepw
        rw [hlane] at hx
        exact hx
      have hmono1 : wsum p (cellOf p (s + 1)) 1 (s + 1) ≤
          wsum p (cellOf p (s + 1)) 1 n := by
        have hx := hmono
        rw [hlane] at hx
        exact hx
      have hv : rg.g.getD (cellOf p (s + 1)) 0 =
          RG_LIMIT_EXACT - wsum p (cellOf p (s + 1)) 1 (s + 1) := hg _ hpix
      have hnov : ¬ (RG_LIMIT_EXACT <
          rg.g.getD (cellOf p (s + 1)) 0 + (lane_k (s + 1)).2) := by
        rw [hv, hk]
        omega
      rw [decodeLoop, hstp (s + 1) (by omega) (by omega), hclr]
      simp only [hl1, if_neg (by omega : ¬ (1 : Nat) = 0), if_neg hnov,
        Nat.add_sub_cancel]
      apply ih
      · omega
      refine ⟨hrl, by rw [List.length_set, hgl], ?_, ?_, hbit1, hwf1, hmb1,
        by rw [List.length_set, hol], hout1⟩
      · intro c hc
        rw [hr _ hc]
        have heq : wsum p c 0 (s + 1) = wsum p c 0 s := by
          rw [wsum, if_neg]
          · omega
          · rw [hlane]
            intro hx
            exact absurd hx.1 (by omega)
        rw [heq]
      · intro c hc
        by_cases hcc : c = cellOf p (s + 1)
        · rw [hcc, getD_set_self _ (by rw [hgl]; exact hpix), hv, hk]
          omega
        · rw [getD_set_ne _ _ hcc, hg _ hc]
          have heq : wsum p c 1 (s + 1) = wsum p c 1 s := by
            rw [wsum, if_neg]
            · omega
            · rw [hlane]
              intro hx
              exact hcc hx.2.symm
          rw [heq]

theorem getD_eq_getElem (l : List Nat) (i : Nat) (h : i < l.length) :
    l.getD i 0 = l[i] := by
  rw [List.getD_eq_getElem?_getD, List.getElem?_eq_getElem h]
  rfl

/-- Bounded round trip: for a non-empty byte payload of at most `512 * 65535`
bytes (so that no cell accumulates 2^16 pages and the page-count u16 cast of
`raw_pack` is faithful), decoding the encoder's container recovers the
payload exactly. -/
theorem roundtrip_bounded (p : List Nat) (hb : ∀ b ∈ p, b < 256)
    (hne : p ≠ []) (hlen : p.length ≤ 512 * 65535) :
    ∃ raw, encode_erase p = .ok raw ∧ decode_fill raw = .ok p := by
  have hn32 : p.length < 2 ^ 32 := by omega
  obtain ⟨rg, a, henc, hinv⟩ := encodeState_char p hb hne hn32
  have hpwf : PackWF rg a p.length := packWF_of_encInv hb hlen hinv
  have hunp : raw_unpack (raw_pack rg a p.length) = .ok (rg, a, p.length) :=
    raw_unpack_raw_pack rg a p.length hpwf
  obtain ⟨hrl, hgl, hr, hg, hbitE, hwf, hmb⟩ := hinv
  have hbitiff : ∀ c s, 1 ≤ s → s ≤ p.length →
      (getBit a c s = true ↔ c = cellOf p s) := by
    intro c s hs1 hsn
    rw [hbitE c s, decide_eq_true_eq]
    constructor
    · rintro ⟨-, -, h⟩
      exact h.symm
    · intro h
      exact ⟨by omega, hsn, h.symm⟩
  have hpb : ∀ e ∈ a.db, ∀ pm ∈ e.2, pm.1 < 2 ^ 26 := by
    intro e he pm hpm
    obtain ⟨s, hbs, hs6⟩ := entry_step hwf.1 hwf.2.1 he hpm
      (hwf.2.2.1 e he pm hpm) (hmb e he pm hpm)
    rw [hbitE e.1 s, decide_eq_true_eq] at hbs
    have hsle : s ≤ p.length := hbs.2.1
    rw [← hs6, Nat.shiftRight_eq_div_pow]
    omega
  obtain ⟨stp, hbuild, hstp⟩ := build_ok_of_unique a p.length (cellOf p)
    hwf.1 hwf.2.1 hmb hpb hn32 hbitiff
  have hdec : DecInv p p.length p.length rg a (List.replicate p.length 0) := by
    refine ⟨hrl, hgl, ?_, ?_, ?_, hwf, hmb, List.length_replicate _ _, ?_⟩
    · intro c hc
      rw [hr c hc, show wsum p c 0 0 = 0 from rfl]
      omega
    · intro c hc
      rw [hg c hc, show wsum p c 1 0 = 0 from rfl]
      omega
    · intro c t
      rw [hbitE c t]
      apply decide_eq_decide.2
      omega
    · intro i hi
      rw [getD_replicate_self 0 hi, if_neg (by omega)]
  obtain ⟨rg', a', out', hloop, hinv0⟩ := decodeLoop_char p p.length stp hb
    hn32 hstp p.length rg a (List.replicate p.length 0) le_rfl hdec
  obtain ⟨hrl', hgl', hr', hg', hbit', hwf', hmb', hol', hov'⟩ := hinv0
  have hempty : a'.db = [] :=
    db_eq_nil_of_no_bits hwf' hmb' (fun c s => by
      rw [hbit' c s]
      exact decide_eq_false (by rintro ⟨h1, h2, -⟩; omega))
  have hie : a'.is_empty = true := (is_empty_iff a').mpr hempty
  have hrfull : ∀ v ∈ rg'.r, v = RG_LIMIT_EXACT := by
    intro v hv
    obtain ⟨i, hi, hiv⟩ := List.mem_iff_getElem.mp hv
    have hgd : rg'.r.getD i 0 = v := by
      rw [getD_eq_getElem rg'.r i hi, hiv]
    have := hr' i (by rw [hrl'] at hi; exact hi)
    rw [show wsum p i 0 0 = 0 from rfl] at this
    omega
  have hgfull : ∀ v ∈ rg'.g, v = RG_LIMIT_EXACT := by
    intro v hv
    obtain ⟨i, hi, hiv⟩ := List.mem_iff_getElem.mp hv
    have hgd : rg'.g.getD i 0 = v := by
      rw [getD_eq_getElem rg'.g i hi, hiv]
    have := hg' i (by rw [hgl'] at hi; exact hi)
    rw [show wsum p i 1 0 = 0 from rfl] at this
    omega
  have hany_r : rg'.r.any (fun v => v != RG_LIMIT_EXACT) = false := by
    rw [List.any_eq_false]
    intro x hx
    simp only [bne_iff_ne, ne_eq, not_not]
    exact hrfull x hx
  have hany_g : rg'.g.any (fun v => v != RG_LIMIT_EXACT) = false := by
    rw [List.any_eq_false]
    intro x hx
    simp only [bne_iff_ne, ne_eq, not_not]
    exact hgfull x hx
  have hout_p : out' = p := by
    apply List.ext_getElem (by rw [hol'])
    intro i h1 h2
    have hiv := hov' i (by rw [hol'] at h1; exact h1)
    rw [if_pos (Nat.zero_le i)] at hiv
    rw [← getD_eq_getElem out' i h1, ← getD_eq_getElem p i h2]
    exact hiv
  refine ⟨raw_pack rg a p.length, ?_, ?_⟩
  · rw [encode_erase, henc]
  · rw [decode_fill, hunp]
    simp only
    rw [hbuild]
    simp only
    rw [hloop]
    simp only
    have hc1 : ¬ ((!a'.is_empty) = true) := by
      rw [hie]
      decide
    have hc2 : ¬ ((rg'.r.any (fun v => v != RG_LIMIT_EXACT) ||
        rg'.g.any (fun v => v != RG_LIMIT_EXACT)) = true) := by
      rw [hany_r, hany_g]
      simp
    rw [if_neg hc1, if_neg hc2, hout_p]

/-- Claim C1 in its provable extent: the round trip
`decode_fill (encode_erase P) = Ok P` holds for every non-empty byte payload
of at most `512 * 65535` bytes.  (As universally stated the claim is false:
at payloads where one cell accumulates 2^16 marker pages, the `u16` cast of
the page count in `raw_pack` wraps and decoding no longer recovers the
payload; see the pack/unpack counterexample of claim C4.) -/
theorem claim_C1 (p : List Nat) (hb : ∀ b ∈ p, b < 256) (hne : p ≠ [])
    (hlen : p.length ≤ 512 * 65535) :
    ∃ raw, encode_erase p = .ok raw ∧ decode_fill raw = .ok p :=
  roundtrip_bounded p hb hne hlen

theorem claim_C1_witness :
    ∃ raw, encode_erase [3] = .ok raw ∧ decode_fill raw = .ok [3] :=
  claim_C1 [3] (by decide) (by decide) (by decide)

/-- Claim C8 in its provable extent: in the embedding (which fixes one
admissible iteration order for the HashMaps), two runs of the encoder on the
same payload of at most `512 * 65535` bytes both succeed and decoding each
run's container recovers the same payload both times. -/
theorem claim_C8 (p : List Nat) (hb : ∀ b ∈ p, b < 256) (hne : p ≠ [])
    (hlen : p.length ≤ 512 * 65535) :
    ∃ raw1 raw2, encode_erase p = .ok raw1 ∧ encode_erase p = .ok raw2 ∧
      decode_fill raw1 = .ok p ∧ decode_fill raw2 = .ok p := by
  obtain ⟨raw, h1, h2⟩ := roundtrip_bounded p hb hne hlen
  exact ⟨raw, raw, h1, h1, h2, h2⟩

theorem claim_C8_witness :
    ∃ raw1 raw2, encode_erase [7] = .ok raw1 ∧ encode_erase [7] = .ok raw2 ∧
      decode_fill raw1 = .ok [7] ∧ decode_fill raw2 = .ok [7] :=
  claim_C8 [7] (by decide) (by decide) (by decide)

end CVP
